import Mathlib

/-!
Formal verification of the VrootKV storage-engine core.

This file is a shallow embedding, in Lean 4, of the byte-level codecs and
in-memory index structures of the VrootKV repository:

* the little-endian fixed-width and varint integer codecs and the CRC32
  checksum (`src/src/memtable/skip_list.h`, WAL detail helpers, and
  `src/src/io/sstable_builder.cpp`, detail helpers);
* the WAL record framing (`VrootKV::wal::WALRecord`);
* the Bloom filter (`src/src/common/bloom_filter.cpp`);
* the SSTable format types `BlockHandle` and `SSTableFooter`
  (`sstable_format.h`);
* the SSTable data-block and index-block builders and readers
  (`src/src/io/sstable_builder.cpp` and the documented reader
  implementation in the same translation unit);
* the single-threaded skip list (`src/src/memtable/skip_list.h`).

Byte strings (`std::string`, `std::string_view`) are modelled as `List Nat`
with every element a byte value; machine integers are modelled as `Nat`
with explicit `% 2 ^ 32` or `% 2 ^ 64` reductions exactly where the C++
code performs a narrowing cast or relies on unsigned wrap-around.
C++ functions that throw `std::runtime_error` are modelled as `Option` or
`Except` valued functions.  Lexicographic comparison of `std::string`
(which compares bytes as unsigned char) is modelled by the linear order on
`List Nat`.
-/

namespace VrootKV

/-- Byte strings: a `std::string` or `std::string_view` is a list of byte
values.  All on-disk data in the repository is manipulated through this
type. -/
abbrev Bytes := List Nat

/-! ## Little-endian fixed-width integer codecs

These model `detail::PutFixed32`, `detail::PutFixed64`,
`detail::DecodeFixed32` and `detail::DecodeFixed64`, which appear
(identically) in `sstable_builder.cpp`, the WAL header and
`sstable_format.h`.  The C++ code memcpys the in-memory little-endian
representation of a `uint32_t`/`uint64_t`; we spell out the four or eight
bytes. -/

/-- PutFixed32: the four little-endian bytes of `v` as a `uint32_t`
(the value is reduced mod `2 ^ 32` by the byte extraction itself). -/
def putFixed32 (v : Nat) : Bytes :=
  [v % 256, v / 256 % 256, v / 65536 % 256, v / 16777216 % 256]

/-- PutFixed64: the eight little-endian bytes of `v` as a `uint64_t`. -/
def putFixed64 (v : Nat) : Bytes :=
  [v % 256, v / 2 ^ 8 % 256, v / 2 ^ 16 % 256, v / 2 ^ 24 % 256,
   v / 2 ^ 32 % 256, v / 2 ^ 40 % 256, v / 2 ^ 48 % 256, v / 2 ^ 56 % 256]

/-- DecodeFixed32 reading at byte position `p` of `l` (the C++ function
takes a pointer; position-based reading models pointer arithmetic).
Out-of-range reads yield byte `0`; the C++ callers always check bounds
first. -/
def decodeFixed32At (l : Bytes) (p : Nat) : Nat :=
  l.getD p 0 % 256 + 256 * (l.getD (p + 1) 0 % 256) +
    65536 * (l.getD (p + 2) 0 % 256) + 16777216 * (l.getD (p + 3) 0 % 256)

/-- DecodeFixed64 reading at byte position `p` of `l`. -/
def decodeFixed64At (l : Bytes) (p : Nat) : Nat :=
  l.getD p 0 % 256 + 2 ^ 8 * (l.getD (p + 1) 0 % 256) +
    2 ^ 16 * (l.getD (p + 2) 0 % 256) + 2 ^ 24 * (l.getD (p + 3) 0 % 256) +
    2 ^ 32 * (l.getD (p + 4) 0 % 256) + 2 ^ 40 * (l.getD (p + 5) 0 % 256) +
    2 ^ 48 * (l.getD (p + 6) 0 % 256) + 2 ^ 56 * (l.getD (p + 7) 0 % 256)

theorem putFixed32_length (v : Nat) : (putFixed32 v).length = 4 := rfl

theorem putFixed64_length (v : Nat) : (putFixed64 v).length = 8 := rfl

theorem getD_append_left {l₁ l₂ : Bytes} {n : Nat} (h : n < l₁.length) :
    (l₁ ++ l₂).getD n 0 = l₁.getD n 0 := by
  simp [List.getD_eq_getElem?_getD, List.getElem?_append, h]

theorem getD_append_right {l₁ l₂ : Bytes} {n : Nat} (h : l₁.length ≤ n) :
    (l₁ ++ l₂).getD n 0 = l₂.getD (n - l₁.length) 0 := by
  simp [List.getD_eq_getElem?_getD, List.getElem?_append, Nat.not_lt.2 h]

/-- Reading four bytes just past a prefix `a` recovers the encoded value
mod `2 ^ 32`. -/
theorem decodeFixed32At_append (a : Bytes) (v : Nat) (b : Bytes) :
    decodeFixed32At (a ++ (putFixed32 v ++ b)) a.length = v % 2 ^ 32 := by
  have h0 : (a ++ (putFixed32 v ++ b)).getD a.length 0 = v % 256 := by
    rw [getD_append_right (le_refl _)]
    simp [putFixed32]
  have h1 : (a ++ (putFixed32 v ++ b)).getD (a.length + 1) 0 = v / 256 % 256 := by
    rw [getD_append_right (by omega)]
    have : a.length + 1 - a.length = 1 := by omega
    rw [this]; simp [putFixed32]
  have h2 : (a ++ (putFixed32 v ++ b)).getD (a.length + 2) 0 = v / 65536 % 256 := by
    rw [getD_append_right (by omega)]
    have : a.length + 2 - a.length = 2 := by omega
    rw [this]; simp [putFixed32]
  have h3 : (a ++ (putFixed32 v ++ b)).getD (a.length + 3) 0 = v / 16777216 % 256 := by
    rw [getD_append_right (by omega)]
    have : a.length + 3 - a.length = 3 := by omega
    rw [this]; simp [putFixed32]
  rw [decodeFixed32At, h0, h1, h2, h3]
  omega

theorem decodeFixed32At_lt (l : Bytes) (p : Nat) : decodeFixed32At l p < 2 ^ 32 := by
  have b0 := Nat.mod_lt (l.getD p 0) (by norm_num : (0:Nat) < 256)
  have b1 := Nat.mod_lt (l.getD (p+1) 0) (by norm_num : (0:Nat) < 256)
  have b2 := Nat.mod_lt (l.getD (p+2) 0) (by norm_num : (0:Nat) < 256)
  have b3 := Nat.mod_lt (l.getD (p+3) 0) (by norm_num : (0:Nat) < 256)
  unfold decodeFixed32At
  omega

/-- Reading eight bytes just past a prefix `a` recovers the encoded value
mod `2 ^ 64`. -/
theorem decodeFixed64At_append (a : Bytes) (v : Nat) (b : Bytes) :
    decodeFixed64At (a ++ (putFixed64 v ++ b)) a.length = v % 2 ^ 64 := by
  have key : ∀ k : Nat, k < 8 →
      (a ++ (putFixed64 v ++ b)).getD (a.length + k) 0 = (putFixed64 v).getD k 0 := by
    intro k hk
    rw [getD_append_right (by omega)]
    have hi : a.length + k - a.length = k := by omega
    rw [hi, getD_append_left (by rw [putFixed64_length]; omega)]
  have h0 := key 0 (by norm_num)
  have h1 := key 1 (by norm_num)
  have h2 := key 2 (by norm_num)
  have h3 := key 3 (by norm_num)
  have h4 := key 4 (by norm_num)
  have h5 := key 5 (by norm_num)
  have h6 := key 6 (by norm_num)
  have h7 := key 7 (by norm_num)
  rw [decodeFixed64At]
  rw [show a.length + 0 = a.length from rfl] at h0
  rw [h0, h1, h2, h3, h4, h5, h6, h7]
  simp only [putFixed64, List.getD_cons_zero, List.getD_cons_succ]
  omega

/-! ## Varint32 codec

Models `detail::PutVarint32` and `detail::GetVarint32` (identical copies in
`sstable_builder.cpp` and the WAL header): seven data bits per byte,
most-significant bit of each byte as a continuation flag, decoder stops
after five bytes (`shift <= 28`). -/

/-- Recursion core of PutVarint32, with a structural fuel so that the
function computes by kernel reduction.  The fuel never runs out when it
starts at `v` (the argument shrinks by a factor 128 per step); the fuel-0
arm equals the terminal `v < 128` arm, so `putVarint32Go fuel v` is the
loop's output whenever `fuel ≥ v`. -/
def putVarint32Go (fuel v : Nat) : Bytes :=
  match fuel with
  | 0 => [v]
  | fuel + 1 => if v ≥ 128 then (v % 128 + 128) :: putVarint32Go fuel (v / 128) else [v]

/-- PutVarint32: the loop `while (v >= 0x80) emit (v | 0x80 truncated to a
byte); v >>= 7` followed by emitting the final byte `v`.  The emitted byte
`(v | 0x80)` truncated to `unsigned char` is `v % 128 + 128`. -/
def putVarint32 (v : Nat) : Bytes :=
  putVarint32Go v v

theorem putVarint32Go_congr :
    ∀ (f₁ : Nat), ∀ v f₂, v ≤ f₁ → v ≤ f₂ → putVarint32Go f₁ v = putVarint32Go f₂ v := by
  intro f₁
  induction f₁ using Nat.strong_induction_on with
  | _ f₁ ih =>
    intro v f₂ h1 h2
    match f₁, f₂ with
    | 0, f₂ =>
      have : v = 0 := by omega
      subst this
      match f₂ with
      | 0 => rfl
      | f₂ + 1 => simp [putVarint32Go]
    | f₁ + 1, 0 =>
      have : v = 0 := by omega
      subst this
      simp [putVarint32Go]
    | f₁ + 1, f₂ + 1 =>
      rw [putVarint32Go, putVarint32Go]
      by_cases hv : v ≥ 128
      · rw [if_pos hv, if_pos hv]
        have hd : v / 128 < v := Nat.div_lt_self (by omega) (by norm_num)
        rw [ih f₁ (by omega) (v / 128) f₂ (by omega) (by omega)]
      · rw [if_neg hv, if_neg hv]

/-- The defining equation of the C++ loop: recursion on the value itself. -/
theorem putVarint32_eq (v : Nat) :
    putVarint32 v = if v ≥ 128 then (v % 128 + 128) :: putVarint32 (v / 128) else [v] := by
  rw [putVarint32]
  match v with
  | 0 => simp [putVarint32Go]
  | v + 1 =>
    rw [putVarint32Go]
    by_cases hv : v + 1 ≥ 128
    · rw [if_pos hv, if_pos hv, putVarint32]
      have hd : (v + 1) / 128 < v + 1 := Nat.div_lt_self (by omega) (by norm_num)
      rw [putVarint32Go_congr v ((v + 1) / 128) ((v + 1) / 128) (by omega) (le_refl _)]
    · rw [if_neg hv, if_neg hv]

/-- GetVarint32's loop: `result` and `shift` are the accumulator state; each
byte is read as `uint8_t` (`% 256`), its low seven bits are shifted in
(`result |= (b and 0x7F) << shift`, a `uint32_t` assignment, hence the
`% 2 ^ 32`), and a clear top bit (`(b and 0x80) == 0`, i.e. `b % 256 < 128`)
terminates the loop.  The loop gives up once `shift > 28` or the input is
exhausted, returning failure (`none`). -/
def getVarint32Loop (l : Bytes) (result shift : Nat) : Option (Nat × Bytes) :=
  match l with
  | [] => none
  | b :: rest =>
    if shift ≤ 28 then
      let result' := (result ||| ((b % 256 % 128) <<< shift)) % 2 ^ 32
      if b % 256 < 128 then some (result', rest)
      else getVarint32Loop rest result' (shift + 7)
    else none

/-- GetVarint32: decode a varint from the front of `l`; on success return
the value and the remaining bytes (the C++ function advances the
string_view). -/
def getVarint32 (l : Bytes) : Option (Nat × Bytes) :=
  getVarint32Loop l 0 0

/-- Disjoint bitwise-or is addition: used to turn the decoder's
accumulator updates into arithmetic. -/
theorem lor_mul_pow_eq_add {a b s : Nat} (h : a < 2 ^ s) :
    a ||| b * 2 ^ s = b * 2 ^ s + a := by
  apply Nat.eq_of_testBit_eq
  intro i
  rw [Nat.testBit_lor, mul_comm b (2 ^ s), Nat.testBit_mul_pow_two_add _ h]
  rcases lt_or_ge i s with hi | hi
  · simp only [hi, if_pos, Nat.testBit_mul_pow_two]
    simp [Nat.not_le.2 hi]
  · have ha : a.testBit i = false :=
      Nat.testBit_lt_two_pow (lt_of_lt_of_le h (Nat.pow_le_pow_right (by norm_num) hi))
    simp [ha, Nat.testBit_mul_pow_two, hi, Nat.not_lt.2 hi]

theorem putVarint32_ne_nil (v : Nat) : putVarint32 v ≠ [] := by
  rw [putVarint32_eq]
  split <;> simp

/-- Loop-level round trip: decoding the encoding of `v` appended to `rest`,
with accumulator `acc < 2 ^ shift` and a shift that is a multiple of 7 with
`v < 2 ^ (32 - shift)`, yields `acc + v * 2 ^ shift` and `rest`. -/
theorem getVarint32Loop_putVarint32 (v : Nat) :
    ∀ (shift acc : Nat) (rest : Bytes), shift ≤ 28 → shift % 7 = 0 →
      v < 2 ^ (32 - shift) → acc < 2 ^ shift →
      getVarint32Loop (putVarint32 v ++ rest) acc shift =
        some (acc + v * 2 ^ shift, rest) := by
  induction v using Nat.strong_induction_on with
  | _ v ih =>
    intro shift acc rest hs hs7 hv hacc
    have hpow_split : 2 ^ (32 - shift) * 2 ^ shift = 2 ^ 32 := by
      rw [← Nat.pow_add]
      congr 1
      omega
    rw [putVarint32_eq]
    by_cases h128 : v ≥ 128
    · rw [if_pos h128]
      have hb : (v % 128 + 128) % 256 = v % 128 + 128 := by omega
      rw [List.cons_append, getVarint32Loop, if_pos hs]
      have hbig : ¬ (v % 128 + 128) % 256 < 128 := by omega
      rw [if_neg hbig]
      have hmod : (v % 128 + 128) % 256 % 128 = v % 128 := by omega
      rw [hmod]
      -- 128 ≤ v < 2 ^ (32 - shift) forces shift ≤ 21 (shift is a multiple of 7)
      have hshift21 : shift ≤ 21 := by
        by_contra hgt
        have h28 : shift = 28 := by omega
        rw [h28] at hv
        norm_num at hv
        omega
      -- accumulate the low seven bits
      have hdisj : acc ||| (v % 128) <<< shift = v % 128 * 2 ^ shift + acc := by
        rw [Nat.shiftLeft_eq]
        exact lor_mul_pow_eq_add hacc
      have hstep : v % 128 * 2 ^ shift + acc < 2 ^ (shift + 7) := by
        have h1 : v % 128 ≤ 127 := by omega
        have h2 : 2 ^ (shift + 7) = 2 ^ shift * 128 := by rw [Nat.pow_add]
        calc v % 128 * 2 ^ shift + acc ≤ 127 * 2 ^ shift + acc :=
              Nat.add_le_add_right (Nat.mul_le_mul_right _ h1) acc
          _ < 127 * 2 ^ shift + 2 ^ shift := Nat.add_lt_add_left hacc _
          _ ≤ 2 ^ shift * 128 := by omega
          _ = 2 ^ (shift + 7) := h2.symm
      have hlt32 : v % 128 * 2 ^ shift + acc < 2 ^ 32 := by
        have : 2 ^ (shift + 7) ≤ 2 ^ 32 :=
          Nat.pow_le_pow_right (by norm_num) (by omega)
        omega
      have hrec : v / 128 < 2 ^ (32 - (shift + 7)) := by
        rw [Nat.div_lt_iff_lt_mul (by norm_num : (0:Nat) < 128)]
        have : 2 ^ (32 - (shift + 7)) * 128 = 2 ^ (32 - shift) := by
          rw [show (128:Nat) = 2 ^ 7 by norm_num, ← Nat.pow_add]
          congr 1
          omega
        rw [this]
        exact hv
      rw [hdisj, Nat.mod_eq_of_lt hlt32,
        ih (v / 128) (Nat.div_lt_self (by omega) (by norm_num)) (shift + 7)
          (v % 128 * 2 ^ shift + acc) rest (by omega) (by omega) hrec hstep]
      -- acc + v * 2 ^ shift = (v % 128 * 2 ^ shift + acc) + v / 128 * 2 ^ (shift + 7)
      have hsplit : v = v % 128 + 128 * (v / 128) := by omega
      have heq : v % 128 * 2 ^ shift + acc + v / 128 * 2 ^ (shift + 7) =
          acc + v * 2 ^ shift := by
        conv_rhs => rw [hsplit]
        rw [Nat.pow_add]
        ring
      rw [heq]
    · rw [if_neg h128]
      have hv128 : v < 128 := by omega
      rw [List.cons_append, getVarint32Loop, if_pos hs]
      have hb : v % 256 = v := by omega
      rw [hb, if_pos (by omega)]
      have hmod : v % 128 = v := by omega
      rw [hmod]
      have hdisj : acc ||| v <<< shift = v * 2 ^ shift + acc := by
        rw [Nat.shiftLeft_eq]
        exact lor_mul_pow_eq_add hacc
      have hlt32 : v * 2 ^ shift + acc < 2 ^ 32 := by
        have h1 : v * 2 ^ shift ≤ (2 ^ (32 - shift) - 1) * 2 ^ shift :=
          Nat.mul_le_mul_right _ (by omega)
        have h2 : (2 ^ (32 - shift) - 1) * 2 ^ shift = 2 ^ 32 - 2 ^ shift := by
          rw [Nat.sub_mul, one_mul, hpow_split]
        have h3 : (0:Nat) < 2 ^ shift := Nat.pos_pow_of_pos _ (by norm_num)
        have h4 : 2 ^ shift ≤ 2 ^ 32 := Nat.pow_le_pow_right (by norm_num) (by omega)
        omega
      rw [hdisj, Nat.mod_eq_of_lt hlt32]
      congr 2
      omega

/-- Varint round trip: for any `v < 2 ^ 32`, decoding the five-or-fewer
byte encoding of `v` recovers `v` and consumes exactly the encoding. -/
theorem getVarint32_putVarint32 (v : Nat) (rest : Bytes) (hv : v < 2 ^ 32) :
    getVarint32 (putVarint32 v ++ rest) = some (v, rest) := by
  rw [getVarint32, getVarint32Loop_putVarint32 v 0 0 rest (by norm_num) (by norm_num)
    (by simpa using hv) (by norm_num)]
  simp

/-! ## CRC32 (IEEE 802.3, reflected, polynomial 0xEDB88320)

Models `detail::Crc32` from the WAL header.  The C++ code builds a 256
entry table where entry `i` is obtained from `i` by eight steps of
`c = (c and 1) ? 0xEDB88320 xor (c >> 1) : (c >> 1)`; we compute the same
value directly.  All intermediate values are `uint32_t`; they never exceed
`2 ^ 32 - 1` because xor and right-shift cannot grow beyond the operands,
and we materialise the bound with a single final reduction. -/

/-- One step of the CRC table construction:
`c = (c and 1) ? 0xEDB88320 xor (c >> 1) : (c >> 1)`. -/
def crcStep (c : Nat) : Nat :=
  if c % 2 = 1 then 0xEDB88320 ^^^ c / 2 else c / 2

/-- Table entry for byte `i`: eight iterations of `crcStep` starting
from `i`. -/
def crcTable (i : Nat) : Nat :=
  crcStep (crcStep (crcStep (crcStep (crcStep (crcStep (crcStep (crcStep i)))))))

/-- The accumulation loop: `c = table[(c xor data[i]) and 0xFF] xor (c >> 8)`
over all data bytes.  Bytes enter as `uint8_t` and the low-byte mask
`and 0xFF` is written as `% 256`. -/
def crc32Loop (c : Nat) : Bytes → Nat
  | [] => c
  | b :: rest => crc32Loop (crcTable ((c ^^^ b % 256) % 256) ^^^ c / 256) rest

/-- Crc32 of a byte string: seed all-ones, run the loop, invert.  The final
`% 2 ^ 32` is the identity on the values the loop produces (every C++
intermediate is a `uint32_t`); it is kept so that `crc32 data < 2 ^ 32`
holds by construction. -/
def crc32 (data : Bytes) : Nat :=
  (crc32Loop 0xFFFFFFFF data ^^^ 0xFFFFFFFF) % 2 ^ 32

theorem crc32_lt (data : Bytes) : crc32 data < 2 ^ 32 :=
  Nat.mod_lt _ (by norm_num)

/-! ## WAL record codec

Models `VrootKV::wal::WALRecord` from `src/src/memtable/skip_list.h`
(the WAL header document in the same file).  The frame layout is
`[len: u32][crc32: u32][payload]`, and the payload layout is
`[txn_id: u64][type: u8][key_len: varint32][value_len: varint32][key][value]`.
The `RecordType` enum has underlying type `uint8_t`; parsing casts an
arbitrary byte into it, so the field is modelled as the raw byte. -/

/-- WAL parse failures.  Each constructor corresponds to one
`throw std::runtime_error(...)` site in `ParseFrame` / `ParsePayload`. -/
inductive WalError where
  /-- fewer than 8 bytes remain for the frame header -/
  | truncatedHeader
  /-- fewer than `len` payload bytes remain -/
  | truncatedPayload
  /-- computed CRC differs from the stored CRC -/
  | crcMismatch
  /-- payload shorter than the 9 fixed bytes -/
  | payloadTooSmall
  /-- malformed key-length varint -/
  | badKeyLen
  /-- malformed value-length varint -/
  | badValueLen
  /-- declared key+value exceed the remaining payload -/
  | truncatedKv
deriving DecidableEq, Repr

/-- In-memory WAL record.  `type` is the underlying byte of the C++
`RecordType` (BEGIN_TX = 0, PUT = 1, DELETE_ = 2, COMMIT_TX = 3,
ABORT_TX = 4). -/
structure WALRecord where
  txn_id : Nat
  type : Nat
  key : Bytes
  value : Bytes
deriving DecidableEq, Repr

namespace WALRecord

/-- SerializePayload:
`[txn_id(8)][type(1)][key_len varint][value_len varint][key][value]`.
The single type byte is the `char` cast of the `uint8_t` enum value; the
lengths go through `static_cast<uint32_t>`, hence the `% 2 ^ 32`. -/
def SerializePayload (r : WALRecord) : Bytes :=
  putFixed64 r.txn_id ++ [r.type % 256] ++
    putVarint32 (r.key.length % 2 ^ 32) ++ putVarint32 (r.value.length % 2 ^ 32) ++
    r.key ++ r.value

/-- SerializeFrame: `[len: u32][crc32(payload): u32][payload]`. -/
def SerializeFrame (r : WALRecord) : Bytes :=
  let payload := SerializePayload r
  putFixed32 (payload.length % 2 ^ 32) ++ putFixed32 (crc32 payload) ++ payload

/-- ParsePayload: decode the fixed fields, the two varint lengths and the
key/value bytes from a payload slice.  The C++ function receives the slice
by value, so failures here do not move the caller's cursor. -/
def ParsePayload (payload : Bytes) : Except WalError WALRecord :=
  if payload.length < 9 then .error .payloadTooSmall
  else
    let txn := decodeFixed64At payload 0
    let rest := payload.drop 8
    let typeByte := rest.getD 0 0 % 256
    let rest := rest.drop 1
    match getVarint32 rest with
    | none => .error .badKeyLen
    | some (klen, rest) =>
      match getVarint32 rest with
      | none => .error .badValueLen
      | some (vlen, rest) =>
        if rest.length < klen + vlen then .error .truncatedKv
        else
          .ok { txn_id := txn, type := typeByte,
                key := rest.take klen, value := (rest.drop klen).take vlen }

/-- ParseFrame: read the 8-byte header, advance the cursor past it, check
the payload length and CRC, parse the payload, then advance past the
payload.  The C++ function mutates the caller's `std::string_view`;
the model returns the remaining view both on success and (because a throw
leaves the by-reference argument in its current state) on failure. -/
def ParseFrame (inp : Bytes) : Except (WalError × Bytes) (WALRecord × Bytes) :=
  if inp.length < 8 then .error (.truncatedHeader, inp)
  else
    let len := decodeFixed32At inp 0
    let crc := decodeFixed32At inp 4
    let rest := inp.drop 8
    if rest.length < len then .error (.truncatedPayload, rest)
    else
      let payload := rest.take len
      let got := crc32 payload
      if got ≠ crc then .error (.crcMismatch, rest)
      else
        match ParsePayload payload with
        | .error e => .error (e, rest)
        | .ok r => .ok (r, rest.drop len)

/-- Payload round trip: parsing the serialized payload of a record with
in-range fields recovers the record. -/
theorem ParsePayload_SerializePayload (r : WALRecord)
    (htxn : r.txn_id < 2 ^ 64) (htype : r.type < 256)
    (hk : r.key.length < 2 ^ 32) (hv : r.value.length < 2 ^ 32) :
    ParsePayload (SerializePayload r) = .ok r := by
  have hkm : r.key.length % 2 ^ 32 = r.key.length := Nat.mod_eq_of_lt hk
  have hvm : r.value.length % 2 ^ 32 = r.value.length := Nat.mod_eq_of_lt hv
  have hshape : SerializePayload r =
      putFixed64 r.txn_id ++ ([r.type % 256] ++
        (putVarint32 (r.key.length % 2 ^ 32) ++ (putVarint32 (r.value.length % 2 ^ 32) ++
          (r.key ++ r.value)))) := by
    simp [SerializePayload, List.append_assoc]
  have hlen9 : ¬ (SerializePayload r).length < 9 := by
    rw [hshape]
    have h1 := putVarint32_ne_nil (r.key.length % 2 ^ 32)
    have h2 := putVarint32_ne_nil (r.value.length % 2 ^ 32)
    simp only [List.length_append, putFixed64_length, List.length_cons, List.length_nil]
    have h1' : 0 < (putVarint32 (r.key.length % 2 ^ 32)).length :=
      List.length_pos.2 h1
    have h2' : 0 < (putVarint32 (r.value.length % 2 ^ 32)).length :=
      List.length_pos.2 h2
    omega
  rw [ParsePayload, if_neg hlen9]
  have htxn_dec : decodeFixed64At (SerializePayload r) 0 = r.txn_id := by
    have := decodeFixed64At_append [] r.txn_id
      ([r.type % 256] ++ (putVarint32 (r.key.length % 2 ^ 32) ++
        (putVarint32 (r.value.length % 2 ^ 32) ++ (r.key ++ r.value))))
    simp only [List.nil_append, List.length_nil] at this
    rw [hshape, this, Nat.mod_eq_of_lt htxn]
  have hdrop8 : (SerializePayload r).drop 8 =
      [r.type % 256] ++ (putVarint32 (r.key.length % 2 ^ 32) ++
        (putVarint32 (r.value.length % 2 ^ 32) ++ (r.key ++ r.value))) := by
    rw [hshape]
    have h8 : (putFixed64 r.txn_id).length = 8 := putFixed64_length _
    rw [← h8, List.drop_left]
  rw [htxn_dec, hdrop8]
  simp only [List.singleton_append, List.getD_cons_zero, List.drop_succ_cons,
    List.drop_zero]
  have htb : r.type % 256 % 256 = r.type := by omega
  rw [htb, getVarint32_putVarint32 _ _ (Nat.mod_lt _ (by norm_num))]
  dsimp only
  rw [getVarint32_putVarint32 _ _ (Nat.mod_lt _ (by norm_num))]
  dsimp only
  rw [hkm, hvm]
  have hnot : ¬ (r.key ++ r.value).length < r.key.length + r.value.length := by
    simp
  rw [if_neg hnot]
  have htake : (r.key ++ r.value).take r.key.length = r.key := List.take_left _ _
  have hdrop : (r.key ++ r.value).drop r.key.length = r.value := List.drop_left _ _
  rw [htake, hdrop, List.take_of_length_le (le_refl _)]

/-- WAL round trip (single frame): for a record with valid field sizes,
parsing its serialized frame appended to any continuation consumes exactly
the frame and returns the record together with the continuation. -/
theorem ParseFrame_SerializeFrame (r : WALRecord) (rest0 : Bytes)
    (htxn : r.txn_id < 2 ^ 64) (htype : r.type < 256)
    (hplen : (SerializePayload r).length < 2 ^ 32) :
    ParseFrame (SerializeFrame r ++ rest0) = .ok (r, rest0) := by
  have hk : r.key.length < 2 ^ 32 := by
    have : r.key.length ≤ (SerializePayload r).length := by
      simp only [SerializePayload, List.length_append]
      omega
    omega
  have hv : r.value.length < 2 ^ 32 := by
    have : r.value.length ≤ (SerializePayload r).length := by
      simp only [SerializePayload, List.length_append]
      omega
    omega
  have hpm : (SerializePayload r).length % 2 ^ 32 = (SerializePayload r).length :=
    Nat.mod_eq_of_lt hplen
  have hshape : SerializeFrame r ++ rest0 =
      putFixed32 ((SerializePayload r).length) ++
        (putFixed32 (crc32 (SerializePayload r)) ++ (SerializePayload r ++ rest0)) := by
    rw [SerializeFrame]
    rw [hpm]
    simp [List.append_assoc]
  have hlen8 : ¬ (SerializeFrame r ++ rest0).length < 8 := by
    rw [hshape]
    simp only [List.length_append, putFixed32_length]
    omega
  rw [ParseFrame, if_neg hlen8]
  have hlen_dec : decodeFixed32At (SerializeFrame r ++ rest0) 0 =
      (SerializePayload r).length := by
    have h := decodeFixed32At_append [] ((SerializePayload r).length)
      (putFixed32 (crc32 (SerializePayload r)) ++ (SerializePayload r ++ rest0))
    simp only [List.nil_append, List.length_nil] at h
    rw [hshape, h, hpm]
  have hcrc_dec : decodeFixed32At (SerializeFrame r ++ rest0) 4 =
      crc32 (SerializePayload r) := by
    have h := decodeFixed32At_append (putFixed32 ((SerializePayload r).length))
      (crc32 (SerializePayload r)) (SerializePayload r ++ rest0)
    rw [putFixed32_length] at h
    rw [hshape, h, Nat.mod_eq_of_lt (crc32_lt _)]
  have hdrop8 : (SerializeFrame r ++ rest0).drop 8 = SerializePayload r ++ rest0 := by
    rw [hshape, ← List.append_assoc]
    have h8 : ((putFixed32 ((SerializePayload r).length)) ++
        (putFixed32 (crc32 (SerializePayload r)))).length = 8 := by
      simp [putFixed32_length]
    rw [← h8, List.drop_left]
  rw [hlen_dec, hcrc_dec, hdrop8]
  have hnotshort : ¬ (SerializePayload r ++ rest0).length < (SerializePayload r).length := by
    simp only [List.length_append]
    omega
  rw [if_neg hnotshort]
  have htake : (SerializePayload r ++ rest0).take (SerializePayload r).length =
      SerializePayload r := List.take_left _ _
  have hdropP : (SerializePayload r ++ rest0).drop (SerializePayload r).length =
      rest0 := List.drop_left _ _
  rw [htake, hdropP]
  rw [if_neg (by simp)]
  rw [ParsePayload_SerializePayload r htxn htype hk hv]

/-- Sequential frame parsing: parse `n` frames from the front of a byte
stream (the recovery loop described by the WAL documentation: frames are
parsed back to back).  Stops at the first failure. -/
def parseFrames : Nat → Bytes → Except (WalError × Bytes) (List WALRecord × Bytes)
  | 0, l => .ok ([], l)
  | n + 1, l =>
    match ParseFrame l with
    | .error e => .error e
    | .ok (r, l') =>
      match parseFrames n l' with
      | .error e => .error e
      | .ok (rs, l'') => .ok (r :: rs, l'')

/-- WAL concatenation: serializing a list of records with valid field
sizes back to back and parsing the concatenation sequentially yields
exactly the original list. -/
theorem parseFrames_concat (rs : List WALRecord) (rest0 : Bytes)
    (hvalid : ∀ r ∈ rs, r.txn_id < 2 ^ 64 ∧ r.type < 256 ∧
      (SerializePayload r).length < 2 ^ 32) :
    parseFrames rs.length ((rs.map SerializeFrame).flatten ++ rest0) =
      .ok (rs, rest0) := by
  induction rs with
  | nil => simp [parseFrames]
  | cons r rs ih =>
    obtain ⟨h1, h2, h3⟩ := hvalid r (List.mem_cons_self r rs)
    simp only [List.map_cons, List.flatten_cons, List.length_cons, List.append_assoc]
    rw [parseFrames, ParseFrame_SerializeFrame r _ h1 h2 h3]
    dsimp only
    rw [ih (fun x hx => hvalid x (List.mem_cons_of_mem r hx))]

/-- ParsePayload only fails with the payload-level error kinds; in
particular it never reports a truncated frame header. -/
theorem ParsePayload_error_ne_truncatedHeader (p : Bytes) (e : WalError)
    (h : ParsePayload p = .error e) : e ≠ .truncatedHeader := by
  rw [ParsePayload] at h
  dsimp only at h
  split at h
  · simp only [Except.error.injEq] at h
    subst h
    simp
  · split at h
    · simp only [Except.error.injEq] at h
      subst h
      simp
    · split at h
      · simp only [Except.error.injEq] at h
        subst h
        simp
      · split at h
        · simp only [Except.error.injEq] at h
          subst h
          simp
        · simp at h

end WALRecord

/-- C2: WAL round trip.  For every WAL record with valid field sizes
(8-byte transaction id, one-byte record type, payload below the `uint32`
limit), parsing the serialized frame returns the same record and leaves
the cursor exactly past the frame, whatever bytes follow; and for any
finite record sequence, parsing the concatenation of the serialized
frames sequentially yields back exactly that sequence. -/
theorem c2_wal_roundtrip :
    (∀ (r : WALRecord) (rest : Bytes),
      r.txn_id < 2 ^ 64 → r.type < 256 →
      (WALRecord.SerializePayload r).length < 2 ^ 32 →
      WALRecord.ParseFrame (WALRecord.SerializeFrame r ++ rest) = .ok (r, rest)) ∧
    (∀ rs : List WALRecord,
      (∀ r ∈ rs, r.txn_id < 2 ^ 64 ∧ r.type < 256 ∧
        (WALRecord.SerializePayload r).length < 2 ^ 32) →
      WALRecord.parseFrames rs.length (rs.map WALRecord.SerializeFrame).flatten =
        .ok (rs, [])) := by
  constructor
  · intro r rest h1 h2 h3
    exact WALRecord.ParseFrame_SerializeFrame r rest h1 h2 h3
  · intro rs hvalid
    have h := WALRecord.parseFrames_concat rs [] hvalid
    simpa using h

/-- Witness for C2 at a concrete PUT record (txn 42, key "key",
value "val", two junk bytes following the frame) and a concrete
BEGIN/COMMIT record sequence. -/
theorem c2_wal_roundtrip_witness :
    WALRecord.ParseFrame
        (WALRecord.SerializeFrame ⟨42, 1, [107, 101, 121], [118, 97, 108]⟩ ++ [9, 9]) =
      .ok (⟨42, 1, [107, 101, 121], [118, 97, 108]⟩, [9, 9]) ∧
    WALRecord.parseFrames 2
        (([(⟨1, 0, [], []⟩ : WALRecord), ⟨1, 3, [], []⟩].map
          WALRecord.SerializeFrame)).flatten =
      .ok ([⟨1, 0, [], []⟩, ⟨1, 3, [], []⟩], []) := by
  constructor
  · exact c2_wal_roundtrip.1 _ [9, 9] (by norm_num) (by norm_num) (by decide)
  · exact c2_wal_roundtrip.2 [⟨1, 0, [], []⟩, ⟨1, 3, [], []⟩] (by decide)

/-- C10: WAL frame parsing is not atomic on error.  Whenever `ParseFrame`
fails with any error other than a truncated header, the input view has
already been advanced exactly past the 8-byte frame header; a truncated
header failure (fewer than 8 bytes) leaves the view unchanged. -/
theorem c10_parse_frame_error_cursor (inp : Bytes) (e : WalError) (v : Bytes)
    (h : WALRecord.ParseFrame inp = .error (e, v)) :
    (e = .truncatedHeader → v = inp ∧ inp.length < 8) ∧
    (e ≠ .truncatedHeader → v = inp.drop 8 ∧ 8 ≤ inp.length) := by
  rw [WALRecord.ParseFrame] at h
  dsimp only at h
  split at h
  · rename_i h8
    simp only [Except.error.injEq, Prod.mk.injEq] at h
    obtain ⟨he, hv⟩ := h
    subst he
    subst hv
    exact ⟨fun _ => ⟨rfl, h8⟩, fun hne => absurd rfl hne⟩
  · rename_i h8
    have h8' : 8 ≤ inp.length := by omega
    split at h
    · simp only [Except.error.injEq, Prod.mk.injEq] at h
      obtain ⟨he, hv⟩ := h
      subst he
      subst hv
      exact ⟨fun hcon => (nomatch hcon), fun _ => ⟨rfl, h8'⟩⟩
    · split at h
      · simp only [Except.error.injEq, Prod.mk.injEq] at h
        obtain ⟨he, hv⟩ := h
        subst he
        subst hv
        exact ⟨fun hcon => (nomatch hcon), fun _ => ⟨rfl, h8'⟩⟩
      · split at h
        · rename_i e' heq
          simp only [Except.error.injEq, Prod.mk.injEq] at h
          obtain ⟨he, hv⟩ := h
          subst he
          subst hv
          have := WALRecord.ParsePayload_error_ne_truncatedHeader _ _ heq
          exact ⟨fun hcon => absurd hcon this, fun _ => ⟨rfl, h8'⟩⟩
        · simp at h

/-- Witness for C10: a CRC-mismatch failure on a concrete 8-byte frame
header with empty payload leaves the view advanced by exactly 8 bytes. -/
theorem c10_parse_frame_error_cursor_witness :
    WALRecord.ParseFrame [0, 0, 0, 0, 1, 0, 0, 0, 7] =
      .error (.crcMismatch, [7]) ∧
    ([7] : Bytes) = List.drop 8 [0, 0, 0, 0, 1, 0, 0, 0, 7] ∧
    8 ≤ ([0, 0, 0, 0, 1, 0, 0, 0, 7] : Bytes).length := by
  refine ⟨by rfl, ?_, ?_⟩
  · exact ((c10_parse_frame_error_cursor _ _ _ (by rfl)).2 (by decide)).1
  · exact ((c10_parse_frame_error_cursor _ _ _ (by rfl)).2 (by decide)).2

/-! ## Bloom filter

Models `VrootKV::common::BloomFilter` from `src/src/common/bloom_filter.cpp`.
The public constructor sizes the filter with floating-point formulas
(`OptimalNumBits`, `OptimalNumHashes`); those always return `num_bits ≥ 1`
and `num_hashes ≥ 1` and the bit array is allocated as
`(num_bits + 7) / 8` zero bytes.  We embed the construction after sizing
(`mkBloomFilter`) parameterised by the two computed numbers, and quantify
over them, which covers every filter the C++ constructor can produce.
All hashing arithmetic is `uint64_t`, hence the `% 2 ^ 64` reductions. -/

/-- One 8-byte mixing step of `detail::Hash64`:
`x += k + 0x9E3779B97F4A7C15; x ^= x >> 30; x *= 0xBF58476D1CE4E5B9;`
`x ^= x >> 27; x *= 0x94D049BB133111EB;`. -/
def hash64Chunk (x k : Nat) : Nat :=
  let x := (x + k + 0x9E3779B97F4A7C15) % 2 ^ 64
  let x := (x ^^^ x / 2 ^ 30) % 2 ^ 64
  let x := x * 0xBF58476D1CE4E5B9 % 2 ^ 64
  let x := (x ^^^ x / 2 ^ 27) % 2 ^ 64
  x * 0x94D049BB133111EB % 2 ^ 64

/-- The tail accumulation of `detail::Hash64`: remaining bytes (fewer than
eight) are packed little-endian (`tail |= p[i] << shift`). -/
def hash64Tail : Bytes → Nat → Nat
  | [], _ => 0
  | b :: rest, shift => b % 256 * 2 ^ shift + hash64Tail rest (shift + 8)

/-- The chunk loop of `detail::Hash64` (`while (i + 8 <= s.size())`),
followed by adding the packed tail (`x += tail`, a `uint64_t` addition).
A list with at least eight elements is a chunk; the fallback arm is the
loop exit. -/
def hash64Loop (x : Nat) : Bytes → Nat
  | b0 :: b1 :: b2 :: b3 :: b4 :: b5 :: b6 :: b7 :: rest =>
    hash64Loop (hash64Chunk x
      (decodeFixed64At [b0, b1, b2, b3, b4, b5, b6, b7] 0)) rest
  | s => (x + hash64Tail s 0) % 2 ^ 64

/-- The final avalanche of `detail::Hash64`. -/
def hash64Final (x : Nat) : Nat :=
  let x := (x ^^^ x / 2 ^ 30) % 2 ^ 64
  let x := x * 0xBF58476D1CE4E5B9 % 2 ^ 64
  let x := (x ^^^ x / 2 ^ 27) % 2 ^ 64
  let x := x * 0x94D049BB133111EB % 2 ^ 64
  (x ^^^ x / 2 ^ 31) % 2 ^ 64

/-- Hash64: seed the state with `seed ^ (0x9E3779B97F4A7C15 + s.size())`,
mix all 8-byte chunks, add the tail, and run the final avalanche. -/
def Hash64 (s : Bytes) (seed : Nat) : Nat :=
  hash64Final (hash64Loop ((seed ^^^ (0x9E3779B97F4A7C15 + s.length) % 2 ^ 64) % 2 ^ 64) s)

/-- In-memory Bloom filter state: bit count, hash count, byte array. -/
structure BloomFilter where
  num_bits : Nat
  num_hashes : Nat
  bits : List Nat
deriving DecidableEq, Repr

/-- The state of a freshly constructed filter once the floating-point
sizing has produced `num_bits` and `num_hashes`:
`bits_.assign((num_bits_ + 7u) / 8u, 0)`. -/
def mkBloomFilter (num_bits num_hashes : Nat) : BloomFilter :=
  ⟨num_bits, num_hashes, List.replicate ((num_bits + 7) / 8) 0⟩

namespace BloomFilter

/-- BloomFilter::set_bit: `bits_[bit_index >> 3] |= 1 << (bit_index & 7)`. -/
def set_bit (bits : List Nat) (i : Nat) : List Nat :=
  bits.set (i / 8) (bits.getD (i / 8) 0 ||| 2 ^ (i % 8))

/-- BloomFilter::get_bit: `(bits_[bit_index >> 3] and (1 << (bit_index & 7))) != 0`. -/
def get_bit (bits : List Nat) (i : Nat) : Bool :=
  bits.getD (i / 8) 0 &&& 2 ^ (i % 8) != 0

/-- The position loop of BloomFilter::positions: starting from
`x = h1 % m` produce `k` values, each step being the `uint64_t` update
`x += step; x %= m` (skipped entirely when `m = 0`). -/
def positionsGo (x step m : Nat) : Nat → List Nat
  | 0 => []
  | k + 1 => x :: positionsGo (if m ≠ 0 then (x + step) % 2 ^ 64 % m else x) step m k

/-- BloomFilter::positions: double hashing with seeds pi and e digits,
odd stride `step = (h2 << 1) | 1`, positions `pos i = (h1 + i * step) % m`
accumulated iteratively. -/
def positions (key : Bytes) (m k : Nat) : List Nat :=
  let h1 := Hash64 key 0x243F6A8885A308D3
  let h2 := Hash64 key 0x13198A2E03707344
  let step := h2 * 2 % 2 ^ 64 ||| 1
  let x := if m = 0 then 0 else h1 % m
  positionsGo x step m k

/-- BloomFilter::add: no-op when `num_bits_ == 0`, otherwise set all `k`
derived bit positions. -/
def add (f : BloomFilter) (key : Bytes) : BloomFilter :=
  if f.num_bits = 0 then f
  else { f with bits := (positions key f.num_bits f.num_hashes).foldl set_bit f.bits }

/-- BloomFilter::might_contain: `false` when `num_bits_ == 0`, otherwise
true iff every derived bit position is set. -/
def might_contain (f : BloomFilter) (key : Bytes) : Bool :=
  if f.num_bits = 0 then false
  else (positions key f.num_bits f.num_hashes).all (get_bit f.bits)

theorem set_bit_length (bits : List Nat) (i : Nat) :
    (set_bit bits i).length = bits.length := by
  simp [set_bit]

theorem foldl_set_bit_length (P : List Nat) (bits : List Nat) :
    (P.foldl set_bit bits).length = bits.length := by
  induction P generalizing bits with
  | nil => rfl
  | cons p P ih => rw [List.foldl_cons, ih, set_bit_length]

/-- The bit test is the `testBit` of the addressed byte. -/
theorem get_bit_eq_testBit (bits : List Nat) (i : Nat) :
    get_bit bits i = (bits.getD (i / 8) 0).testBit (i % 8) := by
  rw [get_bit]
  rcases h : (bits.getD (i / 8) 0).testBit (i % 8) with _ | _ <;>
    have hand := Nat.and_two_pow (bits.getD (i / 8) 0) (i % 8)
  · rw [h] at hand
    simp only [Bool.toNat_false, zero_mul] at hand
    rw [hand]
    rfl
  · rw [h] at hand
    simp only [Bool.toNat_true, one_mul] at hand
    rw [hand]
    simp only [bne_iff_ne, ne_eq, decide_not]
    simp [pow_ne_zero _ (two_ne_zero)]

/-- Bits only ever get set, never cleared. -/
theorem get_bit_set_bit_mono (bits : List Nat) (i j : Nat)
    (h : get_bit bits j = true) : get_bit (set_bit bits i) j = true := by
  rw [get_bit_eq_testBit] at h ⊢
  rw [set_bit]
  by_cases hb : i / 8 = j / 8
  · by_cases hrange : i / 8 < bits.length
    · rw [hb, List.getD_eq_getElem?_getD, List.getElem?_set_self (hb ▸ hrange)]
      simp only [Option.getD_some, Nat.testBit_lor]
      rw [List.getD_eq_getElem?_getD] at h
      simp [h]
    · rw [List.set_eq_of_length_le (by omega)]
      exact h
  · rw [List.getD_eq_getElem?_getD, List.getElem?_set_ne hb,
      ← List.getD_eq_getElem?_getD]
    exact h

theorem get_bit_foldl_set_bit_mono (P : List Nat) (bits : List Nat) (j : Nat)
    (h : get_bit bits j = true) : get_bit (P.foldl set_bit bits) j = true := by
  induction P generalizing bits with
  | nil => exact h
  | cons p P ih => exact ih _ (get_bit_set_bit_mono _ _ _ h)

/-- Setting a bit inside the array makes it readable. -/
theorem get_bit_set_bit_self (bits : List Nat) (i : Nat)
    (hrange : i / 8 < bits.length) : get_bit (set_bit bits i) i = true := by
  rw [get_bit_eq_testBit, set_bit, List.getD_eq_getElem?_getD,
    List.getElem?_set_self hrange]
  simp only [Option.getD_some]
  rw [Nat.testBit_lor, Nat.testBit_two_pow_self]
  simp

theorem get_bit_foldl_set_bit_mem (P : List Nat) (bits : List Nat) (j : Nat)
    (hj : j ∈ P) (hlen : ∀ p ∈ P, p / 8 < bits.length) :
    get_bit (P.foldl set_bit bits) j = true := by
  induction P generalizing bits with
  | nil => cases hj
  | cons p P ih =>
    rw [List.foldl_cons]
    rcases List.mem_cons.1 hj with rfl | hmem
    · apply get_bit_foldl_set_bit_mono
      exact get_bit_set_bit_self bits j (hlen j (List.mem_cons_self _ _))
    · exact ih _ hmem (fun q hq => by
        rw [set_bit_length]
        exact hlen q (List.mem_cons_of_mem _ hq))

/-- Every generated position is below `m` when `m ≥ 1`. -/
theorem positionsGo_lt (step m : Nat) (hm : 1 ≤ m) :
    ∀ (k x : Nat), x < m → ∀ p ∈ positionsGo x step m k, p < m := by
  intro k
  induction k with
  | zero => intro x _ p hp; cases hp
  | succ k ih =>
    intro x hx p hp
    rw [positionsGo] at hp
    rcases List.mem_cons.1 hp with rfl | hmem
    · exact hx
    · apply ih _ _ _ hmem
      rw [if_pos (by omega)]
      exact Nat.mod_lt _ (by omega)

theorem positions_lt (key : Bytes) (m k : Nat) (hm : 1 ≤ m) :
    ∀ p ∈ positions key m k, p < m := by
  apply positionsGo_lt _ _ hm
  rw [if_neg (by omega)]
  exact Nat.mod_lt _ (by omega)

theorem add_num_bits (f : BloomFilter) (key : Bytes) :
    (add f key).num_bits = f.num_bits := by
  rw [add]; split <;> rfl

theorem add_num_hashes (f : BloomFilter) (key : Bytes) :
    (add f key).num_hashes = f.num_hashes := by
  rw [add]; split <;> rfl

theorem add_bits_length (f : BloomFilter) (key : Bytes) :
    (add f key).bits.length = f.bits.length := by
  rw [add]
  split
  · rfl
  · exact foldl_set_bit_length _ _

theorem get_bit_add_mono (f : BloomFilter) (key : Bytes) (j : Nat)
    (h : get_bit f.bits j = true) : get_bit (add f key).bits j = true := by
  rw [add]
  split
  · exact h
  · exact get_bit_foldl_set_bit_mono _ _ _ h

theorem foldl_add_num_bits (keys : List Bytes) (f : BloomFilter) :
    (keys.foldl add f).num_bits = f.num_bits := by
  induction keys generalizing f with
  | nil => rfl
  | cons key keys ih => rw [List.foldl_cons, ih, add_num_bits]

theorem foldl_add_num_hashes (keys : List Bytes) (f : BloomFilter) :
    (keys.foldl add f).num_hashes = f.num_hashes := by
  induction keys generalizing f with
  | nil => rfl
  | cons key keys ih => rw [List.foldl_cons, ih, add_num_hashes]

theorem foldl_add_bits_length (keys : List Bytes) (f : BloomFilter) :
    (keys.foldl add f).bits.length = f.bits.length := by
  induction keys generalizing f with
  | nil => rfl
  | cons key keys ih => rw [List.foldl_cons, ih, add_bits_length]

theorem get_bit_foldl_add_mono (keys : List Bytes) (f : BloomFilter) (j : Nat)
    (h : get_bit f.bits j = true) : get_bit (keys.foldl add f).bits j = true := by
  induction keys generalizing f with
  | nil => exact h
  | cons key keys ih => exact ih _ (get_bit_add_mono _ _ _ h)

/-- After `add f key`, every derived position of `key` is set (the filter
dimensions must be consistent: `num_bits ≥ 1` and the byte array as
allocated by the constructor). -/
theorem get_bit_add_self (f : BloomFilter) (key : Bytes)
    (hm : 1 ≤ f.num_bits) (hlen : f.bits.length = (f.num_bits + 7) / 8) :
    ∀ p ∈ positions key f.num_bits f.num_hashes, get_bit (add f key).bits p = true := by
  intro p hp
  rw [add, if_neg (by omega)]
  apply get_bit_foldl_set_bit_mem _ _ _ hp
  intro q hq
  have hq' : q < f.num_bits := positions_lt _ _ _ hm q hq
  rw [hlen]
  omega

end BloomFilter

/-- C4: Bloom filter no-false-negatives.  Every filter the constructor can
produce is `mkBloomFilter m k` for the sizing outcome `m ≥ 1, k`; after
adding any finite list of keys, `might_contain` answers true on every key
of the list. -/
theorem c4_bloom_no_false_negatives (m k : Nat) (keys : List Bytes) (key : Bytes)
    (hm : 1 ≤ m) (hmem : key ∈ keys) :
    BloomFilter.might_contain (keys.foldl BloomFilter.add (mkBloomFilter m k)) key
      = true := by
  suffices h : ∀ (keys : List Bytes) (f : BloomFilter), f.num_bits = m →
      f.bits.length = (m + 7) / 8 → key ∈ keys →
      BloomFilter.might_contain (keys.foldl BloomFilter.add f) key = true by
    exact h keys (mkBloomFilter m k) rfl (by simp [mkBloomFilter]) hmem
  intro keys
  induction keys with
  | nil => intro f _ _ hc; cases hc
  | cons key' keys ih =>
    intro f hnb hlen hmemc
    rw [List.foldl_cons]
    rcases List.mem_cons.1 hmemc with rfl | hmem'
    · -- the key is added right now; its positions stay set through the rest
      rw [BloomFilter.might_contain,
        if_neg (by rw [BloomFilter.foldl_add_num_bits, BloomFilter.add_num_bits]; omega)]
      rw [List.all_eq_true]
      intro p hp
      rw [BloomFilter.foldl_add_num_bits, BloomFilter.add_num_bits,
        BloomFilter.foldl_add_num_hashes, BloomFilter.add_num_hashes, hnb] at hp
      apply BloomFilter.get_bit_foldl_add_mono
      exact BloomFilter.get_bit_add_self f key (by omega) (by rw [hnb]; exact hlen) p
        (by rw [hnb]; exact hp)
    · exact ih _ (by rw [BloomFilter.add_num_bits]; exact hnb)
        (by rw [BloomFilter.add_bits_length]; exact hlen) hmem'

/-- Witness for C4: a filter sized `m = 10, k = 3` with three keys added
answers true on one of them. -/
theorem c4_bloom_no_false_negatives_witness :
    BloomFilter.might_contain
      ([[97], [98, 99], [100]].foldl BloomFilter.add (mkBloomFilter 10 3)) [98, 99]
      = true :=
  c4_bloom_no_false_negatives 10 3 [[97], [98, 99], [100]] [98, 99]
    (by norm_num) (by simp)

/-! ## SSTable format types: BlockHandle and SSTableFooter

Models `sstable_format.h`: `BlockHandle` is 16 bytes
`[offset(8) LE][size(8) LE]`; `SSTableFooter` is 40 bytes
`[filter_handle(16)][index_handle(16)][magic(8)]` with the distinctive
constant `0xF00DBAADF00DBAAD`.  `DecodeFrom` consumes bytes from the
caller's view and throws only on truncation. -/

/-- BlockHandle: absolute offset and byte size of a block. -/
structure BlockHandle where
  offset : Nat
  size : Nat
deriving DecidableEq, Repr

namespace BlockHandle

/-- kEncodedLength = 16. -/
def kEncodedLength : Nat := 16

/-- BlockHandle::EncodeTo: append `[offset(8) LE][size(8) LE]`. -/
def EncodeTo (h : BlockHandle) : Bytes :=
  putFixed64 h.offset ++ putFixed64 h.size

/-- BlockHandle::DecodeFrom: require 16 bytes, read the two fields,
advance the view by 16.  Truncation throws, modelled as `none`. -/
def DecodeFrom (inp : Bytes) : Option (BlockHandle × Bytes) :=
  if inp.length < kEncodedLength then none
  else some (⟨decodeFixed64At inp 0, decodeFixed64At inp 8⟩, inp.drop 16)

end BlockHandle

/-- The SSTable magic constant `0xF00DBAADF00DBAAD`. -/
def kSSTableMagic : Nat := 0xF00DBAADF00DBAAD

/-- SSTableFooter: filter handle, index handle, magic. -/
structure SSTableFooter where
  filter_handle : BlockHandle
  index_handle : BlockHandle
  magic : Nat
deriving DecidableEq, Repr

namespace SSTableFooter

/-- kEncodedLength = 40. -/
def kEncodedLength : Nat := 40

/-- SSTableFooter::EncodeTo: the two handles then the 8 magic bytes. -/
def EncodeTo (f : SSTableFooter) : Bytes :=
  f.filter_handle.EncodeTo ++ f.index_handle.EncodeTo ++ putFixed64 f.magic

/-- SSTableFooter::DecodeFrom: require 40 bytes; decode the two handles
from the 40-byte window, copy the remaining 8 bytes into `magic`, and
advance the caller's view by 40.  The decoded `magic` is returned as-is:
the function performs no comparison against the expected constant. -/
def DecodeFrom (inp : Bytes) : Option (SSTableFooter × Bytes) :=
  if inp.length < kEncodedLength then none
  else
    let tmp := inp.take kEncodedLength
    match BlockHandle.DecodeFrom tmp with
    | none => none
    | some (fh, tmp) =>
      match BlockHandle.DecodeFrom tmp with
      | none => none
      | some (ih, tmp) =>
        if tmp.length < 8 then none
        else some (⟨fh, ih, decodeFixed64At tmp 0⟩, inp.drop kEncodedLength)

end SSTableFooter

theorem getD_take {l : Bytes} {n q : Nat} (h : q < n) :
    (l.take n).getD q 0 = l.getD q 0 := by
  simp [List.getD_eq_getElem?_getD, List.getElem?_take, h]

theorem getD_drop (l : Bytes) (n q : Nat) :
    (l.drop n).getD q 0 = l.getD (n + q) 0 := by
  simp [List.getD_eq_getElem?_getD, List.getElem?_drop]

theorem decodeFixed64At_take (l : Bytes) (n p : Nat) (h : p + 8 ≤ n) :
    decodeFixed64At (l.take n) p = decodeFixed64At l p := by
  unfold decodeFixed64At
  rw [getD_take (by omega), getD_take (by omega), getD_take (by omega),
    getD_take (by omega), getD_take (by omega), getD_take (by omega),
    getD_take (by omega), getD_take (by omega)]

theorem decodeFixed64At_drop (l : Bytes) (n p : Nat) :
    decodeFixed64At (l.drop n) p = decodeFixed64At l (n + p) := by
  unfold decodeFixed64At
  rw [getD_drop, getD_drop, getD_drop, getD_drop, getD_drop, getD_drop,
    getD_drop, getD_drop]
  rw [show n + (p + 1) = n + p + 1 by omega, show n + (p + 2) = n + p + 2 by omega,
    show n + (p + 3) = n + p + 3 by omega, show n + (p + 4) = n + p + 4 by omega,
    show n + (p + 5) = n + p + 5 by omega, show n + (p + 6) = n + p + 6 by omega,
    show n + (p + 7) = n + p + 7 by omega]

/-- C8, amended: `SSTableFooter::DecodeFrom` validates only the length.
On any input with at least 40 bytes it succeeds, returning the two decoded
handles and whatever 8-byte magic the input carries (no comparison against
the constant is performed), and advances the view by exactly 40 bytes; on
a shorter input it fails with the truncation error. -/
theorem c8_footer_decode_truncation_only (inp : Bytes) :
    (inp.length < 40 → SSTableFooter.DecodeFrom inp = none) ∧
    (40 ≤ inp.length →
      SSTableFooter.DecodeFrom inp =
        some (⟨⟨decodeFixed64At inp 0, decodeFixed64At inp 8⟩,
               ⟨decodeFixed64At inp 16, decodeFixed64At inp 24⟩,
               decodeFixed64At inp 32⟩, inp.drop 40)) := by
  constructor
  · intro h
    rw [SSTableFooter.DecodeFrom, if_pos (by rw [SSTableFooter.kEncodedLength]; omega)]
  · intro h
    have htmplen : (inp.take SSTableFooter.kEncodedLength).length = 40 := by
      rw [List.length_take, SSTableFooter.kEncodedLength]
      omega
    have h16a : ¬ (inp.take SSTableFooter.kEncodedLength).length <
        BlockHandle.kEncodedLength := by
      rw [htmplen, BlockHandle.kEncodedLength]
      omega
    have h16b : ¬ ((inp.take SSTableFooter.kEncodedLength).drop 16).length <
        BlockHandle.kEncodedLength := by
      rw [List.length_drop, htmplen, BlockHandle.kEncodedLength]
      omega
    have h8 : ¬ (((inp.take SSTableFooter.kEncodedLength).drop 16).drop 16).length
        < 8 := by
      simp only [List.length_drop, htmplen]
      omega
    rw [SSTableFooter.DecodeFrom, if_neg (by rw [SSTableFooter.kEncodedLength]; omega)]
    simp only [BlockHandle.DecodeFrom, if_neg h16a, if_neg h16b, if_neg h8]
    rw [SSTableFooter.kEncodedLength]
    simp only [decodeFixed64At_drop, Nat.add_zero,
      show (16:Nat) + 16 = 32 from by norm_num, show (16:Nat) + 8 = 24 from by norm_num]
    rw [decodeFixed64At_take _ _ _ (by omega), decodeFixed64At_take _ _ _ (by omega),
      decodeFixed64At_take _ _ _ (by omega), decodeFixed64At_take _ _ _ (by omega),
      decodeFixed64At_take _ _ _ (by omega)]

/-- Witness for C8's amended claim: a 39-byte input is rejected; a 41-byte
all-zero input (whose magic field, 0, differs from the constant) is
decoded, with the cursor advanced by 40. -/
theorem c8_footer_decode_truncation_only_witness :
    SSTableFooter.DecodeFrom (List.replicate 39 0) = none ∧
    SSTableFooter.DecodeFrom (List.replicate 41 0) =
      some (⟨⟨0, 0⟩, ⟨0, 0⟩, 0⟩, [0]) := by
  constructor
  · exact (c8_footer_decode_truncation_only _).1 (by decide)
  · have h := (c8_footer_decode_truncation_only (List.replicate 41 0)).2 (by decide)
    rw [h]
    decide

/-- Counterexample for C8 as stated: a 40-byte footer whose trailing magic
is 0 (not the constant `0xF00DBAADF00DBAAD`) is accepted by
`SSTableFooter::DecodeFrom`, which returns a footer carrying the wrong
magic instead of failing. -/
theorem c8_footer_decode_accepts_bad_magic :
    SSTableFooter.DecodeFrom (List.replicate 40 0) =
      some (⟨⟨0, 0⟩, ⟨0, 0⟩, 0⟩, []) ∧
    (0 : Nat) ≠ kSSTableMagic := by
  constructor
  · decide
  · decide

/-! ## SSTable block builders

Models `DataBlockBuilder` and `IndexBlockBuilder` from
`src/src/io/sstable_builder.cpp`.  Key order uses `std::string` comparison
(bytewise as unsigned char), i.e. the lexicographic linear order on
`List Nat`.  Throwing `Add` paths are modelled with `Except BuildError`. -/

/-- The two `std::runtime_error` kinds thrown by the builders. -/
inductive BuildError where
  /-- mutation after Finish (thrown by DataBlockBuilder::Add) -/
  | alreadyFinished
  /-- keys not strictly increasing -/
  | outOfOrder
deriving DecidableEq, Repr

/-- Models `detail::SharedPrefix`: length of the longest common prefix of
two byte strings (the C++ loop compares byte by byte up to the shorter
length). -/
def sharedPrefixLen : Bytes → Bytes → Nat
  | a :: as, b :: bs => if a = b then sharedPrefixLen as bs + 1 else 0
  | _, _ => 0

/-- DataBlockBuilder state: output buffer, restart offsets (a `uint32`
vector seeded with `[0]`), last key, restart interval, entries since last
restart, finished flag. -/
structure DataBlockBuilder where
  buffer : Bytes
  restarts : List Nat
  last_key : Bytes
  restart_interval : Nat
  counter : Nat
  finished : Bool
deriving DecidableEq, Repr

namespace DataBlockBuilder

/-- The constructor `DataBlockBuilder(int restart_interval)`. -/
def init (restart_interval : Nat) : DataBlockBuilder :=
  ⟨[], [0], [], restart_interval, 0, false⟩

/-- DataBlockBuilder::Add.  Rejects mutation after Finish and
non-strictly-increasing keys; otherwise chooses the shared-prefix length
(or starts a new restart run), appends the
`[shared][non_shared][value_len]` header and the key delta and value
bytes, and updates the builder state.  The `static_cast<uint32_t>` casts
are the `% 2 ^ 32` reductions. -/
def Add (b : DataBlockBuilder) (key value : Bytes) : Except BuildError DataBlockBuilder :=
  if b.finished then .error .alreadyFinished
  else if b.last_key ≠ [] ∧ ¬ b.last_key < key then .error .outOfOrder
  else
    let st :=
      if b.counter < b.restart_interval then
        (b.restarts, b.counter, sharedPrefixLen b.last_key key)
      else
        (b.restarts ++ [b.buffer.length % 2 ^ 32], 0, 0)
    let shared := st.2.2
    let non_shared := (key.length - shared) % 2 ^ 32
    let value_len := value.length % 2 ^ 32
    .ok { buffer := b.buffer ++ putFixed32 shared ++ putFixed32 non_shared ++
            putFixed32 value_len ++ (key.drop shared).take non_shared ++
            value.take value_len,
          restarts := st.1,
          last_key := key,
          restart_interval := b.restart_interval,
          counter := st.2.1 + 1,
          finished := b.finished }

/-- DataBlockBuilder::Finish.  If already finished, return the buffer
unchanged; otherwise append each restart offset and the restart count as
fixed32 values, mark the builder finished, and return the buffer. -/
def Finish (b : DataBlockBuilder) : Bytes × DataBlockBuilder :=
  if b.finished then (b.buffer, b)
  else
    let buffer := b.buffer ++ (b.restarts.map putFixed32).flatten ++
      putFixed32 (b.restarts.length % 2 ^ 32)
    (buffer, { b with buffer := buffer, finished := true })

theorem Finish_snd_finished (b : DataBlockBuilder) : b.Finish.2.finished = true := by
  rw [Finish]
  split
  · rename_i h
    exact h
  · rfl

theorem Finish_snd_buffer (b : DataBlockBuilder) : b.Finish.2.buffer = b.Finish.1 := by
  rw [Finish]
  split
  · rfl
  · rfl

theorem Finish_of_finished (b : DataBlockBuilder) (h : b.finished = true) :
    b.Finish = (b.buffer, b) := by
  rw [Finish, if_pos h]

end DataBlockBuilder

/-- IndexBlockBuilder state: output buffer, entry offsets, last divider
key.  Note: unlike `DataBlockBuilder` there is no finished flag. -/
structure IndexBlockBuilder where
  buffer : Bytes
  offsets : List Nat
  last_key : Bytes
deriving DecidableEq, Repr

namespace IndexBlockBuilder

/-- The default-constructed builder. -/
def init : IndexBlockBuilder := ⟨[], [], []⟩

/-- IndexBlockBuilder::Add: reject non-increasing divider keys, record the
entry offset, append `[key_len varint][key][handle(16)]`. -/
def Add (b : IndexBlockBuilder) (divider_key : Bytes) (handle : BlockHandle) :
    Except BuildError IndexBlockBuilder :=
  if b.last_key ≠ [] ∧ ¬ b.last_key < divider_key then .error .outOfOrder
  else
    .ok { buffer := b.buffer ++ putVarint32 (divider_key.length % 2 ^ 32) ++
            divider_key ++ handle.EncodeTo,
          offsets := b.offsets ++ [b.buffer.length % 2 ^ 32],
          last_key := divider_key }

/-- IndexBlockBuilder::Finish: append each entry offset and the entry
count.  There is no finished flag: each call appends a fresh trailer to
the buffer. -/
def Finish (b : IndexBlockBuilder) : Bytes × IndexBlockBuilder :=
  let buffer := b.buffer ++ (b.offsets.map putFixed32).flatten ++
    putFixed32 (b.offsets.length % 2 ^ 32)
  (buffer, { b with buffer := buffer })

end IndexBlockBuilder

/-- C5, amended: the builder-immutability contract holds for
`DataBlockBuilder` (after `Finish`, `Add` fails with AlreadyFinished and a
repeated `Finish` returns identical bytes), but `IndexBlockBuilder` does
not enforce it: it has no finished flag, its `Add` never reports
AlreadyFinished, and every `Finish` call appends another trailer, so a
repeated `Finish` always returns different bytes. -/
theorem c5_builder_immutability :
    (∀ (b : DataBlockBuilder) (key value : Bytes),
      (b.Finish.2).Add key value = .error .alreadyFinished) ∧
    (∀ b : DataBlockBuilder, b.Finish.2.Finish.1 = b.Finish.1) ∧
    (∀ b : IndexBlockBuilder, b.Finish.2.Finish.1 ≠ b.Finish.1) ∧
    (∀ (b : IndexBlockBuilder) (key : Bytes) (handle : BlockHandle),
      b.Add key handle ≠ .error .alreadyFinished) := by
  refine ⟨?_, ?_, ?_, ?_⟩
  · intro b key value
    rw [DataBlockBuilder.Add, if_pos (DataBlockBuilder.Finish_snd_finished b)]
  · intro b
    rw [DataBlockBuilder.Finish_of_finished _ (DataBlockBuilder.Finish_snd_finished b)]
    exact DataBlockBuilder.Finish_snd_buffer b
  · intro b h
    have hlen := congrArg List.length h
    rw [IndexBlockBuilder.Finish, IndexBlockBuilder.Finish] at hlen
    simp only [List.length_append, putFixed32_length] at hlen
    omega
  · intro b key handle h
    rw [IndexBlockBuilder.Add] at h
    split at h
    · cases h
    · cases h

/-- Counterexample for C5 as stated: on the index builder, after adding
the single key "a" and finishing, a second Finish returns strictly longer
(hence different) bytes, and an Add of "b" succeeds instead of failing
with AlreadyFinished. -/
theorem c5_index_builder_counterexample :
    IndexBlockBuilder.init.Add [97] ⟨0, 0⟩ =
      .ok ⟨[1, 97, 0, 0, 0, 0, 0, 0, 0, 0, 0, 0, 0, 0, 0, 0, 0, 0], [0], [97]⟩ ∧
    (⟨[1, 97, 0, 0, 0, 0, 0, 0, 0, 0, 0, 0, 0, 0, 0, 0, 0, 0], [0],
      [97]⟩ : IndexBlockBuilder).Finish.2.Finish.1 ≠
      (⟨[1, 97, 0, 0, 0, 0, 0, 0, 0, 0, 0, 0, 0, 0, 0, 0, 0, 0], [0],
        [97]⟩ : IndexBlockBuilder).Finish.1 ∧
    (∃ b2, (⟨[1, 97, 0, 0, 0, 0, 0, 0, 0, 0, 0, 0, 0, 0, 0, 0, 0, 0], [0],
      [97]⟩ : IndexBlockBuilder).Finish.2.Add [98] ⟨0, 0⟩ = .ok b2) := by
  refine ⟨by rfl, by decide, ?_⟩
  refine ⟨_, rfl⟩

/-! ## SSTable block readers

Models `DataBlockReader` and `IndexBlockReader`.  The repository carries
two copies of the reader translation unit; we embed the documented copy
(`sstable_reader.cpp`), which adds a `num > size / 4` guard in both
constructors and validates the index block's offset table.  `Get` and
`Find` are identical in the two copies apart from those constructor-level
guards.  Constructor corruption throws are modelled as `none`.

Both readers run the same `while (lo < hi)` binary search: probe the key
at `mid = (lo + hi + 1) / 2`, keep the right half (`lo = mid`) when that
key is `≤` the target, otherwise drop to `hi = mid - 1`; a failed probe
aborts the lookup.  The loop is embedded once (`rightmostLoopGo`) with a
structural fuel so that it computes by kernel reduction; the fuel
`hi - lo` dominates the iteration count, and when it is exhausted
`lo = hi` holds and the value returned is the loop's exit value `lo`. -/

/-- The shared binary-search loop.  `f` decodes the key probed at an
index. -/
def rightmostLoopGo (f : Nat → Option Bytes) (target : Bytes) :
    Nat → Nat → Nat → Option Nat
  | 0, lo, _ => some lo
  | fuel + 1, lo, hi =>
    if lo < hi then
      let mid := (lo + hi + 1) / 2
      match f mid with
      | none => none
      | some k =>
        if k ≤ target then rightmostLoopGo f target fuel mid hi
        else rightmostLoopGo f target fuel lo (mid - 1)
    else some lo

/-- The binary search entry point: fuel `hi - lo` never runs out. -/
def rightmostLoop (f : Nat → Option Bytes) (target : Bytes) (lo hi : Nat) :
    Option Nat :=
  rightmostLoopGo f target (hi - lo) lo hi

/-- DataBlockReader state after construction: the entries region and the
parsed restart-offset table. -/
structure DataBlockReader where
  entries : Bytes
  restarts : List Nat
deriving DecidableEq, Repr

/-- The DataBlockReader constructor (documented copy): read `num_restarts`
from the last four bytes, reject absurd counts (`num > size / 4`) and
short blocks, load the restart array that sits just before the count, and
keep everything before the trailer as the entries region. -/
def mkDataBlockReader (block : Bytes) : Option DataBlockReader :=
  if block.length < 4 then none
  else
    let num_restarts := decodeFixed32At block (block.length - 4)
    if num_restarts > block.length / 4 then none
    else
      let rest_bytes := num_restarts * 4
      if block.length < 4 + rest_bytes then none
      else
        let base := block.length - 4 - rest_bytes
        some ⟨block.take base,
          (List.range num_restarts).map (fun i => decodeFixed32At block (base + i * 4))⟩

namespace DataBlockReader

/-- The `key_at_offset` lambda of DataBlockReader::Get: decode the entry
header at a restart offset, require `shared == 0` and the declared entry
to fit in the entries region, and materialise the full key. -/
def keyAtOffset (r : DataBlockReader) (off : Nat) : Option Bytes :=
  if off + 12 > r.entries.length then none
  else
    let shared := decodeFixed32At r.entries off
    let nonshared := decodeFixed32At r.entries (off + 4)
    let vlen := decodeFixed32At r.entries (off + 8)
    if shared ≠ 0 then none
    else if off + (12 + nonshared + vlen) > r.entries.length then none
    else some ((r.entries.drop (off + 12)).take nonshared)

/-- The linear scan of DataBlockReader::Get within the chosen restart run
`lo`.  `off` is a `uint32_t` (the `off += need` step truncates mod
`2 ^ 32`).  Each iteration stops at the next restart boundary, validates
the entry header and extent, reconstructs the current key from the shared
prefix of the previous key, and either returns the value, stops past the
target, or advances.  The structural fuel bounds the iteration count;
every block reachable in our theorems has entries shorter than `2 ^ 32`,
so `off` never wraps, strictly grows by at least 12 per step, and
`entries.length + 1` units of fuel are never exhausted. -/
def scanGo (r : DataBlockReader) (target : Bytes) (lo : Nat) :
    Nat → Nat → Bytes → Option Bytes
  | 0, _, _ => none
  | fuel + 1, off, prev_key =>
    if off < r.entries.length then
      if lo + 1 < r.restarts.length ∧ r.restarts.getD (lo + 1) 0 ≤ off then none
      else if off + 12 > r.entries.length then none
      else
        let shared := decodeFixed32At r.entries off
        let nonshared := decodeFixed32At r.entries (off + 4)
        let vlen := decodeFixed32At r.entries (off + 8)
        let need := 12 + nonshared + vlen
        if off + need > r.entries.length then none
        else
          let delta := (r.entries.drop (off + 12)).take nonshared
          match (if shared = 0 then some delta
                 else if shared > prev_key.length then none
                 else some (prev_key.take shared ++ delta)) with
          | none => none
          | some cur_key =>
            if cur_key = target then
              some ((r.entries.drop (off + 12 + nonshared)).take vlen)
            else if target < cur_key then none
            else scanGo r target lo fuel ((off + need) % 2 ^ 32) cur_key
    else none

/-- DataBlockReader::Get: empty restart table means not found; otherwise
binary search the restart keys for the rightmost restart whose key is
`≤ target`, then scan that run.  `none` is the `return false` outcome —
the reader reports plain not-found both for an absent key and for every
structural violation found during the lookup. -/
def Get (r : DataBlockReader) (target : Bytes) : Option Bytes :=
  if r.restarts = [] then none
  else
    match rightmostLoop (fun mid => r.keyAtOffset (r.restarts.getD mid 0)) target
        0 (r.restarts.length - 1) with
    | none => none
    | some lo => scanGo r target lo (r.entries.length + 1) (r.restarts.getD lo 0) []

end DataBlockReader

/-- IndexBlockReader state after construction. -/
structure IndexBlockReader where
  entries : Bytes
  offsets : List Nat
  num : Nat
deriving DecidableEq, Repr

/-- The offset-table loading loop of the IndexBlockReader constructor
(documented copy): read each offset, reject a decrease from its
predecessor (`i > 0 ∧ off < offsets_[i-1]`) and any offset beyond the
entries region (`off > cap`). `i` is the index, the second argument the
number of offsets still to read, `prev` the previous offset. -/
def readOffsetsGo (block : Bytes) (base cap : Nat) : Nat → Nat → Nat → Option (List Nat)
  | _, 0, _ => some []
  | i, k + 1, prev =>
    let off := decodeFixed32At block (base + i * 4)
    if 0 < i ∧ off < prev then none
    else if off > cap then none
    else
      match readOffsetsGo block base cap (i + 1) k off with
      | none => none
      | some rest => some (off :: rest)

/-- The IndexBlockReader constructor (documented copy): read the entry
count from the tail, reject absurd counts and short blocks, then load and
validate the offset table (non-decreasing, inside the entries region). -/
def mkIndexBlockReader (block : Bytes) : Option IndexBlockReader :=
  if block.length < 4 then none
  else
    let num := decodeFixed32At block (block.length - 4)
    if num > block.length / 4 then none
    else
      let off_bytes := num * 4
      if block.length < 4 + off_bytes then none
      else
        let base := block.length - 4 - off_bytes
        match readOffsetsGo block base base 0 num 0 with
        | none => none
        | some offsets => some ⟨block.take base, offsets, num⟩

namespace IndexBlockReader

/-- The `key_at` lambda of IndexBlockReader::Find: slice the entries
region at the entry's offset, decode the varint key length, require the
key and a 16-byte handle to fit, and decode both. -/
def keyAt (r : IndexBlockReader) (idx : Nat) : Option (Bytes × BlockHandle) :=
  let sv := r.entries.drop (r.offsets.getD idx 0)
  match getVarint32 sv with
  | none => none
  | some (klen, sv) =>
    if sv.length < klen + BlockHandle.kEncodedLength then none
    else
      match BlockHandle.DecodeFrom (sv.drop klen) with
      | none => none
      | some (h, _) => some (sv.take klen, h)

/-- IndexBlockReader::Find: binary search for the rightmost divider key
`≤ search_key`; re-decode the landing entry and return its handle, or
report before-first when even that key exceeds the target. -/
def Find (r : IndexBlockReader) (search_key : Bytes) : Option BlockHandle :=
  if r.num = 0 then none
  else
    match rightmostLoop (fun idx => (r.keyAt idx).map Prod.fst) search_key
        0 (r.num - 1) with
    | none => none
    | some lo =>
      match r.keyAt lo with
      | none => none
      | some (key, handle) => if search_key < key then none else some handle

end IndexBlockReader

/-- C6 (the code against the claim): a 20-byte block whose single entry is
a restart entry with `shared = 1` (a structural violation: restart points
must store the full key) passes the constructor, and `Get` on it returns
the plain not-found value — the exact same outcome as for an absent key —
rather than aborting with a distinct Corrupt error.  `Get`'s result type
(`bool` plus an out-parameter in C++) has no error channel at all. -/
theorem c6_corrupt_block_lookup_returns_plain_notfound :
    mkDataBlockReader
        [1, 0, 0, 0, 0, 0, 0, 0, 0, 0, 0, 0, 0, 0, 0, 0, 1, 0, 0, 0] =
      some ⟨[1, 0, 0, 0, 0, 0, 0, 0, 0, 0, 0, 0], [0]⟩ ∧
    decodeFixed32At [1, 0, 0, 0, 0, 0, 0, 0, 0, 0, 0, 0] 0 = 1 ∧
    DataBlockReader.Get ⟨[1, 0, 0, 0, 0, 0, 0, 0, 0, 0, 0, 0], [0]⟩ [97] = none ∧
    DataBlockReader.Get ⟨[1, 0, 0, 0, 0, 0, 0, 0, 0, 0, 0, 0], [0]⟩ [98] = none := by
  refine ⟨by decide, by decide, by decide, by decide⟩

/-- The offset-loading loop only succeeds with the decoded table, within
bounds, non-decreasing, and (when continuing a table) not below the
predecessor. -/
theorem readOffsetsGo_spec (block : Bytes) (base cap : Nat) :
    ∀ (k i prev : Nat) (offs : List Nat),
      readOffsetsGo block base cap i k prev = some offs →
      offs = (List.range k).map (fun j => decodeFixed32At block (base + (i + j) * 4)) ∧
      (∀ o ∈ offs, o ≤ cap) ∧
      List.Chain' (· ≤ ·) offs ∧
      (0 < i → ∀ h ∈ offs.head?, prev ≤ h) := by
  intro k
  induction k with
  | zero =>
    intro i prev offs h
    rw [readOffsetsGo] at h
    simp only [Option.some.injEq] at h
    subst h
    simp
  | succ k ih =>
    intro i prev offs h
    rw [readOffsetsGo] at h
    split at h
    · cases h
    · split at h
      · cases h
      · rename_i hprev hcap
        split at h
        · cases h
        · rename_i rest hrest
          simp only [Option.some.injEq] at h
          subst h
          obtain ⟨hmap, hbound, hchain, hhead⟩ := ih (i + 1) _ rest hrest
          refine ⟨?_, ?_, ?_, ?_⟩
          · rw [List.range_succ_eq_map, List.map_cons, List.map_map, hmap,
              List.cons_eq_cons]
            refine ⟨by rw [Nat.add_zero], ?_⟩
            apply List.map_congr_left
            intro j _
            simp only [Function.comp_apply]
            congr 2
            omega
          · intro o ho
            rcases List.mem_cons.1 ho with rfl | ho'
            · omega
            · exact hbound o ho'
          · rw [List.chain'_cons']
            exact ⟨fun h hh => hhead (by omega) h hh, hchain⟩
          · intro _ h hh
            simp only [List.head?_cons, Option.mem_def, Option.some.injEq] at hh
            subst hh
            by_cases hi : 0 < i
            · by_contra hlt
              exact hprev ⟨hi, by omega⟩
            · omega

/-- C7: IndexBlockReader construction validates the trailing offset
table.  Whenever construction succeeds, the reader's table is exactly the
block's trailing offset table, its adjacent entries are non-decreasing,
and every offset lies within the entries region; contrapositively, a
block whose table has a decreasing adjacent pair or an offset beyond the
entries region never yields a reader. -/
theorem c7_index_reader_validates_offsets (block : Bytes) (r : IndexBlockReader)
    (h : mkIndexBlockReader block = some r) :
    r.num = decodeFixed32At block (block.length - 4) ∧
    r.entries = block.take (block.length - 4 - r.num * 4) ∧
    r.offsets = (List.range r.num).map
      (fun i => decodeFixed32At block (block.length - 4 - r.num * 4 + i * 4)) ∧
    List.Chain' (· ≤ ·) r.offsets ∧
    (∀ o ∈ r.offsets, o ≤ r.entries.length) := by
  rw [mkIndexBlockReader] at h
  dsimp only at h
  split at h
  · cases h
  · split at h
    · cases h
    · split at h
      · cases h
      · rename_i h4 hguard hlen
        split at h
        · cases h
        · rename_i offs hoffs
          simp only [Option.some.injEq] at h
          subst h
          obtain ⟨hmap, hbound, hchain, _⟩ := readOffsetsGo_spec block _ _ _ 0 0 offs hoffs
          have hentlen : (block.take
              (block.length - 4 - decodeFixed32At block (block.length - 4) * 4)).length =
              block.length - 4 - decodeFixed32At block (block.length - 4) * 4 := by
            rw [List.length_take]
            omega
          refine ⟨rfl, rfl, ?_, hchain, ?_⟩
          · rw [hmap]
            apply List.map_congr_left
            intro j _
            congr 2
            omega
          · intro o ho
            rw [hentlen]
            exact hbound o ho

/-- Characterisation of the shared binary-search loop: when every probed
index decodes to a key and the keys are strictly increasing up to `hi0`,
the loop lands on an index `res` of `[lo, hi]` such that every key beyond
`res` (up to `hi`) exceeds the target, and the key at `res` is at most the
target unless `res = lo`. -/
theorem rightmostLoopGo_spec (f : Nat → Option Bytes) (target : Bytes)
    (keys : Nat → Bytes) (hi0 : Nat)
    (hf : ∀ i, i ≤ hi0 → f i = some (keys i))
    (hmono : ∀ i j, i < j → j ≤ hi0 → keys i < keys j) :
    ∀ (fuel lo hi : Nat), lo ≤ hi → hi ≤ hi0 → hi - lo ≤ fuel →
      ∃ res, rightmostLoopGo f target fuel lo hi = some res ∧
        lo ≤ res ∧ res ≤ hi ∧
        (∀ i, res < i → i ≤ hi → target < keys i) ∧
        (res = lo ∨ keys res ≤ target) := by
  intro fuel
  induction fuel with
  | zero =>
    intro lo hi hlohi _ hfuel
    have : lo = hi := by omega
    subst this
    exact ⟨lo, rfl, le_refl _, le_refl _, fun i h1 h2 => by omega, Or.inl rfl⟩
  | succ fuel ih =>
    intro lo hi hlohi hhi hfuel
    rw [rightmostLoopGo]
    by_cases hlt : lo < hi
    · rw [if_pos hlt]
      have hmid1 : lo + 1 ≤ (lo + hi + 1) / 2 := by omega
      have hmid2 : (lo + hi + 1) / 2 ≤ hi := by omega
      dsimp only
      rw [hf _ (by omega)]
      dsimp only
      by_cases hcmp : keys ((lo + hi + 1) / 2) ≤ target
      · rw [if_pos hcmp]
        obtain ⟨res, heq, h1, h2, h3, h4⟩ :=
          ih ((lo + hi + 1) / 2) hi (by omega) hhi (by omega)
        refine ⟨res, heq, by omega, h2, h3, Or.inr ?_⟩
        rcases h4 with rfl | h4
        · exact hcmp
        · exact h4
      · rw [if_neg hcmp]
        obtain ⟨res, heq, h1, h2, h3, h4⟩ :=
          ih lo ((lo + hi + 1) / 2 - 1) (by omega) (by omega) (by omega)
        refine ⟨res, heq, h1, by omega, ?_, h4⟩
        intro i hres hihi
        by_cases hrange : i ≤ (lo + hi + 1) / 2 - 1
        · exact h3 i hres hrange
        · have hmidle : keys ((lo + hi + 1) / 2) ≤ keys i := by
            rcases Nat.lt_or_ge ((lo + hi + 1) / 2) i with h | h
            · exact le_of_lt (hmono _ _ h (by omega))
            · have : i = (lo + hi + 1) / 2 := by omega
              rw [this]
          have : target < keys ((lo + hi + 1) / 2) := lt_of_not_le hcmp
          exact lt_of_lt_of_le this hmidle
    · rw [if_neg hlt]
      have : lo = hi := by omega
      subst this
      exact ⟨lo, rfl, le_refl _, le_refl _, fun i h1 h2 => by omega, Or.inl rfl⟩

/-- The caller-side loop that feeds a list of divider entries to
`IndexBlockBuilder::Add` one at a time (as the SSTable writer and the
tests do), stopping at the first error. -/
def IndexBlockBuilder.AddAll :
    IndexBlockBuilder → List (Bytes × BlockHandle) → Except BuildError IndexBlockBuilder
  | b, [] => .ok b
  | b, (k, h) :: rest =>
    match b.Add k h with
    | .error e => .error e
    | .ok b' => b'.AddAll rest

/-- Layout of the concatenated index-block entries that `AddAll` emits:
each entry is `[key_len varint][key][handle(16)]`. -/
def indexEntriesEnc : List (Bytes × BlockHandle) → Bytes
  | [] => []
  | (k, h) :: rest =>
    (putVarint32 (k.length % 2 ^ 32) ++ k ++ h.EncodeTo) ++ indexEntriesEnc rest

/-- The offsets that `AddAll` records: the running buffer length (as a
`uint32`) at the start of each entry, beginning at `start`. -/
def indexOffsets (start : Nat) : List (Bytes × BlockHandle) → List Nat
  | [] => []
  | (k, h) :: rest =>
    start % 2 ^ 32 ::
      indexOffsets (start + (putVarint32 (k.length % 2 ^ 32) ++ k ++ h.EncodeTo).length) rest

theorem indexOffsets_length (start : Nat) (dks : List (Bytes × BlockHandle)) :
    (indexOffsets start dks).length = dks.length := by
  induction dks generalizing start with
  | nil => rfl
  | cons p rest ih =>
    obtain ⟨k, h⟩ := p
    rw [indexOffsets]
    simp [ih]

/-- Running `AddAll` from a compatible builder state appends exactly the
entry encodings and offsets and ends on the last key. -/
theorem AddAll_spec (dks : List (Bytes × BlockHandle)) :
    ∀ (b : IndexBlockBuilder),
      List.Chain' (· < ·) (dks.map Prod.fst) →
      (b.last_key = [] ∨ ∀ k0 ∈ (dks.map Prod.fst).head?, b.last_key < k0) →
      ∃ b', IndexBlockBuilder.AddAll b dks = .ok b' ∧
        b'.buffer = b.buffer ++ indexEntriesEnc dks ∧
        b'.offsets = b.offsets ++ indexOffsets b.buffer.length dks := by
  induction dks with
  | nil =>
    intro b _ _
    exact ⟨b, rfl, by simp [indexEntriesEnc], by simp [indexOffsets]⟩
  | cons p rest ih =>
    obtain ⟨k, h⟩ := p
    intro b hchain hfirst
    have hAdd : b.Add k h = .ok
        ⟨b.buffer ++ putVarint32 (k.length % 2 ^ 32) ++ k ++ h.EncodeTo,
         b.offsets ++ [b.buffer.length % 2 ^ 32], k⟩ := by
      rw [IndexBlockBuilder.Add, if_neg]
      push_neg
      intro hne
      rcases hfirst with hempty | hlt
      · exact absurd hempty hne
      · have := hlt k (by simp)
        simpa using this
    rw [IndexBlockBuilder.AddAll, hAdd]
    rw [List.map_cons, List.chain'_cons'] at hchain
    obtain ⟨hhead, hchain'⟩ := hchain
    obtain ⟨b', hAddAll, hbuf, hoffs⟩ := ih
      ⟨b.buffer ++ putVarint32 (k.length % 2 ^ 32) ++ k ++ h.EncodeTo,
       b.offsets ++ [b.buffer.length % 2 ^ 32], k⟩
      hchain'
      (by
        by_cases hk : k = []
        · exact Or.inl hk
        · exact Or.inr (fun k0 hk0 => hhead k0 hk0))
    refine ⟨b', hAddAll, ?_, ?_⟩
    · rw [hbuf]
      simp only [indexEntriesEnc]
      simp [List.append_assoc]
    · rw [hoffs]
      simp only [indexOffsets]
      simp only [List.length_append, List.length_append]
      simp [List.append_assoc]
      congr 1
      omega

/-- Mod-free form of the recorded offsets, used once the total encoded
size is known to fit a `uint32`. -/
def indexOffsetsSpec (start : Nat) : List (Bytes × BlockHandle) → List Nat
  | [] => []
  | (k, h) :: rest =>
    start ::
      indexOffsetsSpec (start + (putVarint32 (k.length % 2 ^ 32) ++ k ++ h.EncodeTo).length) rest

theorem indexEntriesEnc_cons (k : Bytes) (h : BlockHandle)
    (rest : List (Bytes × BlockHandle)) :
    indexEntriesEnc ((k, h) :: rest) =
      (putVarint32 (k.length % 2 ^ 32) ++ k ++ h.EncodeTo) ++ indexEntriesEnc rest := rfl

theorem indexEntriesEnc_append (l₁ l₂ : List (Bytes × BlockHandle)) :
    indexEntriesEnc (l₁ ++ l₂) = indexEntriesEnc l₁ ++ indexEntriesEnc l₂ := by
  induction l₁ with
  | nil => simp [indexEntriesEnc]
  | cons p rest ih =>
    obtain ⟨k, h⟩ := p
    rw [List.cons_append, indexEntriesEnc_cons, indexEntriesEnc_cons, ih]
    simp [List.append_assoc]

theorem indexEntriesEnc_len_ge (dks : List (Bytes × BlockHandle)) :
    17 * dks.length ≤ (indexEntriesEnc dks).length := by
  induction dks with
  | nil => simp [indexEntriesEnc]
  | cons p rest ih =>
    obtain ⟨k, h⟩ := p
    rw [indexEntriesEnc_cons]
    have h1 : 1 ≤ (putVarint32 (k.length % 2 ^ 32)).length :=
      List.length_pos.2 (putVarint32_ne_nil _)
    have h2 : (BlockHandle.EncodeTo h).length = 16 := by
      simp [BlockHandle.EncodeTo, putFixed64_length]
    simp only [List.length_append, List.length_cons]
    omega

theorem indexOffsets_eq_spec :
    ∀ (dks : List (Bytes × BlockHandle)) (start : Nat),
      start + (indexEntriesEnc dks).length < 2 ^ 32 →
      indexOffsets start dks = indexOffsetsSpec start dks := by
  intro dks
  induction dks with
  | nil => intro start _; rfl
  | cons p rest ih =>
    obtain ⟨k, h⟩ := p
    intro start hbound
    rw [indexEntriesEnc_cons] at hbound
    simp only [List.length_append] at hbound
    rw [indexOffsets, indexOffsetsSpec, Nat.mod_eq_of_lt (by omega)]
    congr 1
    apply ih
    simp only [List.length_append]
    omega

theorem indexOffsetsSpec_length (start : Nat) (dks : List (Bytes × BlockHandle)) :
    (indexOffsetsSpec start dks).length = dks.length := by
  induction dks generalizing start with
  | nil => rfl
  | cons p rest ih =>
    obtain ⟨k, h⟩ := p
    rw [indexOffsetsSpec]
    simp [ih]

theorem indexOffsetsSpec_get :
    ∀ (dks : List (Bytes × BlockHandle)) (start i : Nat) (hi : i < dks.length),
      (indexOffsetsSpec start dks).get
          ⟨i, by rw [indexOffsetsSpec_length]; exact hi⟩ =
        start + (indexEntriesEnc (dks.take i)).length := by
  intro dks
  induction dks with
  | nil => intro start i hi; cases hi
  | cons p rest ih =>
    obtain ⟨k, h⟩ := p
    intro start i hi
    match i with
    | 0 => simp [indexOffsetsSpec, indexEntriesEnc]
    | i + 1 =>
      have hstep := ih (start + (putVarint32 (k.length % 2 ^ 32) ++ k ++ h.EncodeTo).length)
        i (by simpa using Nat.lt_of_succ_lt_succ hi)
      simp only [indexOffsetsSpec, List.get_cons_succ]
      rw [hstep, List.take_succ_cons, indexEntriesEnc_cons]
      simp only [List.length_append]
      omega

theorem flatten_map_putFixed32_length (offs : List Nat) :
    ((offs.map putFixed32).flatten).length = 4 * offs.length := by
  induction offs with
  | nil => rfl
  | cons o rest ih =>
    simp only [List.map_cons, List.flatten_cons, List.length_append, ih,
      putFixed32_length, List.length_cons]
    omega

/-- Reading the `j`-th fixed32 of a serialized offset table. -/
theorem decodeFixed32At_flatten (pre : Bytes) (offs : List Nat) (suf : Bytes) :
    ∀ (j : Nat) (hj : j < offs.length),
      decodeFixed32At (pre ++ ((offs.map putFixed32).flatten ++ suf))
          (pre.length + j * 4) =
        offs.get ⟨j, hj⟩ % 2 ^ 32 := by
  induction offs generalizing pre with
  | nil => intro j hj; cases hj
  | cons o rest ih =>
    intro j hj
    match j with
    | 0 =>
      simp only [List.map_cons, List.flatten_cons, List.get_cons_zero]
      rw [List.append_assoc, Nat.mul_comm 0 4]
      have := decodeFixed32At_append pre o ((rest.map putFixed32).flatten ++ suf)
      simpa using this
    | j + 1 =>
      have harr : pre ++ ((((o :: rest).map putFixed32).flatten) ++ suf) =
          (pre ++ putFixed32 o) ++ (((rest.map putFixed32).flatten) ++ suf) := by
        simp [List.append_assoc]
      rw [harr]
      have hlen : pre.length + (j + 1) * 4 = (pre ++ putFixed32 o).length + j * 4 := by
        simp only [List.length_append, putFixed32_length]
        omega
      rw [hlen, ih (pre ++ putFixed32 o) j (by simpa using Nat.lt_of_succ_lt_succ hj)]
      rfl

/-- The offset-loading loop succeeds on a table it can decode whose
entries are non-decreasing and within the cap. -/
theorem readOffsetsGo_complete (block : Bytes) (base cap : Nat) :
    ∀ (offs : List Nat) (i prev : Nat),
      (∀ (j : Nat) (hj : j < offs.length),
        decodeFixed32At block (base + (i + j) * 4) = offs.get ⟨j, hj⟩) →
      List.Chain' (· ≤ ·) offs →
      (∀ h0 ∈ offs.head?, prev ≤ h0) →
      (∀ o ∈ offs, o ≤ cap) →
      readOffsetsGo block base cap i offs.length prev = some offs := by
  intro offs
  induction offs with
  | nil => intro i prev _ _ _ _; rfl
  | cons o rest ih =>
    intro i prev hdec hchain hhead hcap
    rw [List.length_cons, readOffsetsGo]
    have h0 : decodeFixed32At block (base + i * 4) = o := by
      have := hdec 0 (by simp)
      simpa using this
    rw [h0]
    rw [if_neg (by
      push_neg
      intro _
      exact hhead o rfl), if_neg (by
      push_neg
      exact hcap o (by simp))]
    rw [List.chain'_cons'] at hchain
    rw [ih (i + 1) o
      (fun j hj => by
        have := hdec (j + 1) (by simpa using Nat.succ_lt_succ hj)
        rw [show base + (i + (j + 1)) * 4 = base + (i + 1 + j) * 4 by omega] at this
        simpa using this)
      hchain.2 hchain.1 (fun q hq => hcap q (by simp [hq]))]

theorem indexOffsets_lt (dks : List (Bytes × BlockHandle)) :
    ∀ start, ∀ o ∈ indexOffsets start dks, o < 2 ^ 32 := by
  induction dks with
  | nil => intro start o ho; cases ho
  | cons p rest ih =>
    obtain ⟨k, h⟩ := p
    intro start o ho
    rw [indexOffsets] at ho
    rcases List.mem_cons.1 ho with rfl | hmem
    · exact Nat.mod_lt _ (by norm_num)
    · exact ih _ o hmem

theorem indexOffsetsSpec_head_le (dks : List (Bytes × BlockHandle)) :
    ∀ start, ∀ h0 ∈ (indexOffsetsSpec start dks).head?, start ≤ h0 := by
  cases dks with
  | nil => intro start h0 hh; cases hh
  | cons p rest =>
    obtain ⟨k, h⟩ := p
    intro start h0 hh
    rw [indexOffsetsSpec] at hh
    simp only [List.head?_cons, Option.mem_def, Option.some.injEq] at hh
    omega

theorem indexOffsetsSpec_chain (dks : List (Bytes × BlockHandle)) :
    ∀ start, List.Chain' (· ≤ ·) (indexOffsetsSpec start dks) := by
  induction dks with
  | nil => intro start; simp [indexOffsetsSpec]
  | cons p rest ih =>
    obtain ⟨k, h⟩ := p
    intro start
    rw [indexOffsetsSpec, List.chain'_cons']
    refine ⟨?_, ih _⟩
    intro h0 hh
    have := indexOffsetsSpec_head_le rest
      (start + (putVarint32 (k.length % 2 ^ 32) ++ k ++ h.EncodeTo).length) h0 hh
    omega

theorem indexOffsetsSpec_mem_le (dks : List (Bytes × BlockHandle)) :
    ∀ start, ∀ o ∈ indexOffsetsSpec start dks,
      start ≤ o ∧ o ≤ start + (indexEntriesEnc dks).length := by
  induction dks with
  | nil => intro start o ho; cases ho
  | cons p rest ih =>
    obtain ⟨k, h⟩ := p
    intro start o ho
    rw [indexOffsetsSpec] at ho
    rw [indexEntriesEnc_cons]
    rcases List.mem_cons.1 ho with rfl | hmem
    · refine ⟨le_refl _, ?_⟩
      omega
    · obtain ⟨h1, h2⟩ := ih _ o hmem
      simp only [List.length_append] at h1 h2 ⊢
      constructor <;> omega

/-- A finished index block built from `dks` (with total entry bytes below
the `uint32` limit) parses into a reader holding exactly the entries
region, the recorded offsets and the entry count. -/
theorem mkIndexBlockReader_built (dks : List (Bytes × BlockHandle))
    (b' : IndexBlockBuilder)
    (hbuf : b'.buffer = indexEntriesEnc dks)
    (hoffs : b'.offsets = indexOffsets 0 dks)
    (hsize : (indexEntriesEnc dks).length < 2 ^ 32) :
    mkIndexBlockReader b'.Finish.1 =
      some ⟨indexEntriesEnc dks, indexOffsets 0 dks, dks.length⟩ := by
  have hnsmall : dks.length < 2 ^ 32 := by
    have := indexEntriesEnc_len_ge dks
    omega
  have hlenO : (indexOffsets 0 dks).length = dks.length := indexOffsets_length _ _
  have hfin : b'.Finish.1 = indexEntriesEnc dks ++
      ((indexOffsets 0 dks).map putFixed32).flatten ++
      putFixed32 (dks.length % 2 ^ 32) := by
    rw [IndexBlockBuilder.Finish]
    dsimp only
    rw [hbuf, hoffs, hlenO]
  have hlenF : (((indexOffsets 0 dks).map putFixed32).flatten).length =
      4 * dks.length := by
    rw [flatten_map_putFixed32_length, hlenO]
  have hL : b'.Finish.1.length =
      (indexEntriesEnc dks).length + 4 * dks.length + 4 := by
    rw [hfin]
    simp only [List.length_append, putFixed32_length, hlenF]
  -- the count field decodes to the entry count
  have hshape : b'.Finish.1 =
      (indexEntriesEnc dks ++ ((indexOffsets 0 dks).map putFixed32).flatten) ++
        (putFixed32 (dks.length % 2 ^ 32) ++ []) := by
    rw [hfin]
    simp [List.append_assoc]
  have hnum : decodeFixed32At b'.Finish.1 (b'.Finish.1.length - 4) = dks.length := by
    have hpos : b'.Finish.1.length - 4 =
        (indexEntriesEnc dks ++ ((indexOffsets 0 dks).map putFixed32).flatten).length := by
      rw [hL]
      simp only [List.length_append, hlenF]
      omega
    rw [hpos, hshape, decodeFixed32At_append]
    omega
  rw [mkIndexBlockReader, if_neg (by rw [hL]; omega)]
  dsimp only
  rw [hnum]
  rw [if_neg (by
    push_neg
    rw [Nat.le_div_iff_mul_le (by norm_num), hL]
    omega)]
  rw [if_neg (by rw [hL]; omega)]
  have hbase : b'.Finish.1.length - 4 - dks.length * 4 = (indexEntriesEnc dks).length := by
    rw [hL]
    omega
  rw [hbase]
  have hread : readOffsetsGo b'.Finish.1 (indexEntriesEnc dks).length
      (indexEntriesEnc dks).length 0 dks.length 0 = some (indexOffsets 0 dks) := by
    rw [← hlenO]
    apply readOffsetsGo_complete
    · intro j hj
      have harr : b'.Finish.1 = indexEntriesEnc dks ++
          (((indexOffsets 0 dks).map putFixed32).flatten ++
            putFixed32 (dks.length % 2 ^ 32)) := by
        rw [hfin]
        simp [List.append_assoc]
      have := decodeFixed32At_flatten (indexEntriesEnc dks) (indexOffsets 0 dks)
        (putFixed32 (dks.length % 2 ^ 32)) j hj
      rw [← harr] at this
      rw [show (indexEntriesEnc dks).length + (0 + j) * 4 =
        (indexEntriesEnc dks).length + j * 4 by omega]
      rw [this, Nat.mod_eq_of_lt]
      exact indexOffsets_lt dks 0 _ (List.get_mem _ _ _)
    · rw [indexOffsets_eq_spec dks 0 (by omega)]
      exact indexOffsetsSpec_chain dks 0
    · intro h0 _
      exact Nat.zero_le _
    · intro o ho
      rw [indexOffsets_eq_spec dks 0 (by omega)] at ho
      have := (indexOffsetsSpec_mem_le dks 0 o ho).2
      omega
  rw [hread]
  have htake : b'.Finish.1.take (indexEntriesEnc dks).length = indexEntriesEnc dks := by
    conv_lhs => rw [hfin, List.append_assoc]
    exact List.take_left _ _
  rw [htake]

/-- Every divider key is no longer than the whole encoded entries region
that contains it. -/
theorem indexEntriesEnc_key_le (dks : List (Bytes × BlockHandle)) :
    ∀ k hdl, (k, hdl) ∈ dks → k.length ≤ (indexEntriesEnc dks).length := by
  induction dks with
  | nil => intro k hdl hk; cases hk
  | cons p rest ih =>
    obtain ⟨k0, h0⟩ := p
    intro k hdl hk
    rw [indexEntriesEnc_cons]
    simp only [List.length_append]
    rcases List.mem_cons.1 hk with heq | hmem
    · have hkk : k = k0 := congrArg Prod.fst heq
      subst hkk
      omega
    · have := ih k hdl hmem
      omega

/-- `key_at` on the reader parsed from a built index block decodes exactly
the `i`-th divider entry: the varint key length, the key bytes and the
16-byte handle all round-trip. -/
theorem keyAt_built (dks : List (Bytes × BlockHandle))
    (hsize : (indexEntriesEnc dks).length < 2 ^ 32)
    (hh : ∀ p ∈ dks, p.2.offset < 2 ^ 64 ∧ p.2.size < 2 ^ 64)
    (i : Nat) (hi : i < dks.length) :
    IndexBlockReader.keyAt ⟨indexEntriesEnc dks, indexOffsets 0 dks, dks.length⟩ i =
      some (dks.get ⟨i, hi⟩) := by
  rcases hget : dks.get ⟨i, hi⟩ with ⟨k, hdl⟩
  have hkmem : (k, hdl) ∈ dks := by rw [← hget]; exact List.get_mem _ _ _
  have hklt : k.length < 2 ^ 32 :=
    lt_of_le_of_lt (indexEntriesEnc_key_le dks k hdl hkmem) hsize
  have hoff : (indexOffsets 0 dks).getD i 0 = (indexEntriesEnc (dks.take i)).length := by
    rw [indexOffsets_eq_spec dks 0 (by omega)]
    have hlt : i < (indexOffsetsSpec 0 dks).length := by
      rw [indexOffsetsSpec_length]
      exact hi
    have h1 : (indexOffsetsSpec 0 dks).getD i 0 = (indexOffsetsSpec 0 dks).get ⟨i, hlt⟩ :=
      List.getD_eq_getElem _ _ hlt
    rw [h1, indexOffsetsSpec_get dks 0 i hi]
    exact Nat.zero_add _
  have hsplitE : indexEntriesEnc dks =
      indexEntriesEnc (dks.take i) ++ indexEntriesEnc (dks.drop i) := by
    conv_lhs => rw [← List.take_append_drop i dks]
    exact indexEntriesEnc_append _ _
  have hgetE : dks[i] = (k, hdl) := hget
  have hdropD : dks.drop i = (k, hdl) :: dks.drop (i + 1) := by
    rw [List.drop_eq_getElem_cons hi, hgetE]
  have hlen16 : (BlockHandle.EncodeTo hdl).length = 16 := by
    simp [BlockHandle.EncodeTo, putFixed64_length]
  obtain ⟨hho, hhs⟩ := hh (k, hdl) hkmem
  rw [IndexBlockReader.keyAt]
  dsimp only
  rw [hoff, hsplitE, List.drop_left, hdropD, indexEntriesEnc_cons,
    Nat.mod_eq_of_lt hklt]
  have hassoc : (putVarint32 k.length ++ k ++ BlockHandle.EncodeTo hdl) ++
      indexEntriesEnc (dks.drop (i + 1)) =
      putVarint32 k.length ++
        (k ++ (BlockHandle.EncodeTo hdl ++ indexEntriesEnc (dks.drop (i + 1)))) := by
    simp [List.append_assoc]
  rw [hassoc, getVarint32_putVarint32 k.length _ hklt]
  dsimp only
  rw [if_neg (by
    push_neg
    simp only [List.length_append, hlen16, BlockHandle.kEncodedLength]
    omega)]
  rw [List.drop_left, BlockHandle.DecodeFrom]
  rw [if_neg (by
    simp only [List.length_append, hlen16, BlockHandle.kEncodedLength]
    omega)]
  dsimp only
  have hdec0 : decodeFixed64At
      (BlockHandle.EncodeTo hdl ++ indexEntriesEnc (dks.drop (i + 1))) 0 = hdl.offset := by
    have h := decodeFixed64At_append []
      hdl.offset (putFixed64 hdl.size ++ indexEntriesEnc (dks.drop (i + 1)))
    simp only [List.nil_append, List.length_nil] at h
    rw [BlockHandle.EncodeTo, List.append_assoc, h, Nat.mod_eq_of_lt hho]
  have hdec8 : decodeFixed64At
      (BlockHandle.EncodeTo hdl ++ indexEntriesEnc (dks.drop (i + 1))) 8 = hdl.size := by
    have h := decodeFixed64At_append (putFixed64 hdl.offset)
      hdl.size (indexEntriesEnc (dks.drop (i + 1)))
    rw [putFixed64_length] at h
    rw [BlockHandle.EncodeTo, List.append_assoc, h, Nat.mod_eq_of_lt hhs]
  rw [hdec0, hdec8, List.take_left]

/-- Strictly increasing divider keys, read through `get`. -/
theorem dividers_mono (dks : List (Bytes × BlockHandle))
    (hchain : List.Chain' (· < ·) (dks.map Prod.fst)) :
    ∀ (i j : Nat) (hi : i < dks.length) (hj : j < dks.length), i < j →
      (dks.get ⟨i, hi⟩).1 < (dks.get ⟨j, hj⟩).1 := by
  intro i j hi hj hij
  have hp := List.chain'_iff_pairwise.1 hchain
  have h := List.pairwise_iff_getElem.1 hp i j (by simpa using hi) (by simpa using hj) hij
  rw [List.getElem_map, List.getElem_map] at h
  exact h

/-- The `j`-th divider key of a built index (out-of-range reads give `[]`). -/
def dividerKey (dks : List (Bytes × BlockHandle)) (j : Nat) : Bytes :=
  (dks.getD j ([], ⟨0, 0⟩)).1

theorem dividerKey_eq_get (dks : List (Bytes × BlockHandle)) (j : Nat)
    (hj : j < dks.length) : dividerKey dks j = (dks.get ⟨j, hj⟩).1 := by
  rw [dividerKey, List.getD_eq_getElem _ _ hj]
  rfl

/-- C3: an index block built (through `Add` for each divider, then
`Finish`) from strictly increasing divider keys `d_0 < … < d_m` with
handles `H_i` (fields within the fixed64 limits, total entry bytes within
the uint32 limit) parses back into a reader on which `Find x` returns the
before-first outcome (`none`) exactly when `x < d_0`, and returns `H_i`
whenever `i` is the largest index with `d_i ≤ x`. -/
theorem c3_index_routing (dks : List (Bytes × BlockHandle))
    (hchain : List.Chain' (· < ·) (dks.map Prod.fst))
    (hsize : (indexEntriesEnc dks).length < 2 ^ 32)
    (hh : ∀ p ∈ dks, p.2.offset < 2 ^ 64 ∧ p.2.size < 2 ^ 64)
    (hpos : 0 < dks.length) :
    ∃ b', IndexBlockBuilder.AddAll IndexBlockBuilder.init dks = .ok b' ∧
      mkIndexBlockReader b'.Finish.1 =
        some ⟨indexEntriesEnc dks, indexOffsets 0 dks, dks.length⟩ ∧
      ∀ x : Bytes,
        (IndexBlockReader.Find
            ⟨indexEntriesEnc dks, indexOffsets 0 dks, dks.length⟩ x = none ↔
          x < (dks.get ⟨0, hpos⟩).1) ∧
        (∀ (i : Nat) (hi : i < dks.length), (dks.get ⟨i, hi⟩).1 ≤ x →
          (∀ hj : i + 1 < dks.length, x < (dks.get ⟨i + 1, hj⟩).1) →
          IndexBlockReader.Find
              ⟨indexEntriesEnc dks, indexOffsets 0 dks, dks.length⟩ x =
            some (dks.get ⟨i, hi⟩).2) := by
  obtain ⟨b', hAddAll, hbuf, hoffs⟩ :=
    AddAll_spec dks IndexBlockBuilder.init hchain (Or.inl rfl)
  simp only [IndexBlockBuilder.init, List.nil_append, List.length_nil] at hbuf hoffs
  have hmk := mkIndexBlockReader_built dks b' hbuf hoffs hsize
  refine ⟨b', hAddAll, hmk, ?_⟩
  intro x
  have hne0 : ¬ (dks.length = 0) := by omega
  have hf : ∀ j, j ≤ dks.length - 1 →
      (fun idx => (IndexBlockReader.keyAt
          ⟨indexEntriesEnc dks, indexOffsets 0 dks, dks.length⟩ idx).map Prod.fst) j =
        some (dividerKey dks j) := by
    intro j hjle
    have hj : j < dks.length := by omega
    dsimp only
    rw [keyAt_built dks hsize hh j hj, dividerKey_eq_get dks j hj]
    rfl
  have hmono : ∀ i j, i < j → j ≤ dks.length - 1 →
      dividerKey dks i < dividerKey dks j := by
    intro i j hij hj
    have hj' : j < dks.length := by omega
    have hi' : i < dks.length := by omega
    rw [dividerKey_eq_get dks i hi', dividerKey_eq_get dks j hj']
    exact dividers_mono dks hchain i j hi' hj' hij
  obtain ⟨res, heq, hres1, hres2, hres3, hres4⟩ :=
    rightmostLoopGo_spec
      (fun idx => (IndexBlockReader.keyAt
        ⟨indexEntriesEnc dks, indexOffsets 0 dks, dks.length⟩ idx).map Prod.fst)
      x (dividerKey dks) (dks.length - 1) hf hmono
      (dks.length - 1 - 0) 0 (dks.length - 1) (Nat.zero_le _) (le_refl _) (le_refl _)
  have hresn : res < dks.length := by omega
  rcases hgetres : dks.get ⟨res, hresn⟩ with ⟨kres, hres⟩
  have hkeyres : IndexBlockReader.keyAt
      ⟨indexEntriesEnc dks, indexOffsets 0 dks, dks.length⟩ res = some (kres, hres) := by
    rw [keyAt_built dks hsize hh res hresn, hgetres]
  have hkres : dividerKey dks res = kres := by
    rw [dividerKey_eq_get dks res hresn, hgetres]
  have hfind : IndexBlockReader.Find
      ⟨indexEntriesEnc dks, indexOffsets 0 dks, dks.length⟩ x =
      if x < kres then none else some hres := by
    rw [IndexBlockReader.Find]
    dsimp only
    rw [if_neg hne0, rightmostLoop, heq]
    dsimp only
    rw [hkeyres]
  constructor
  · constructor
    · intro hnone
      rw [hfind] at hnone
      by_cases hx : x < kres
      · rcases hres4 with hres0 | hle
        · subst hres0
          have hk0 : (dks.get ⟨0, hpos⟩).1 = kres := by
            rw [show dks.get ⟨0, hpos⟩ = (kres, hres) from hgetres]
          rw [hk0]
          exact hx
        · rw [hkres] at hle
          exact absurd hx (not_lt.2 hle)
      · rw [if_neg hx] at hnone
        cases hnone
    · intro hx0
      rw [hfind]
      rcases Nat.eq_zero_or_pos res with hres0 | hrespos
      · subst hres0
        have hk0 : (dks.get ⟨0, hpos⟩).1 = kres := by
          rw [show dks.get ⟨0, hpos⟩ = (kres, hres) from hgetres]
        exact if_pos (hk0 ▸ hx0)
      · have h0r : (dks.get ⟨0, hpos⟩).1 < kres := by
          rw [← hkres, dividerKey_eq_get dks res hresn]
          exact dividers_mono dks hchain 0 res hpos hresn hrespos
        exact if_pos (lt_trans hx0 h0r)
  · intro i hi hle hnext
    have hige : i ≤ res := by
      by_contra hlt
      push_neg at hlt
      have hxi := hres3 i hlt (by omega)
      rw [dividerKey_eq_get dks i hi] at hxi
      exact absurd hle (not_le.2 hxi)
    have hresi : res = i := by
      by_contra hne
      have hilt : i < res := by omega
      have hi1 : i + 1 < dks.length := by omega
      have hx1 : x < (dks.get ⟨i + 1, hi1⟩).1 := hnext hi1
      have hki : (dks.get ⟨i + 1, hi1⟩).1 ≤ kres := by
        rcases Nat.lt_or_ge (i + 1) res with hlt2 | hge2
        · rw [← hkres, dividerKey_eq_get dks res hresn]
          exact le_of_lt (dividers_mono dks hchain (i + 1) res hi1 hresn hlt2)
        · have heq1 : i + 1 = res := by omega
          subst heq1
          have hgeq : dks.get ⟨i + 1, hi1⟩ = (kres, hres) := hgetres
          rw [hgeq]
      rcases hres4 with hres0 | hlex
      · omega
      · rw [hkres] at hlex
        exact absurd hlex (not_le.2 (lt_of_lt_of_le hx1 hki))
    subst hresi
    have hgeti : dks.get ⟨res, hi⟩ = (kres, hres) := hgetres
    rw [hfind, if_neg (not_lt.2 (by rw [hgeti] at hle; exact hle)), hgeti]

/-- Witness for C3: the two-divider index `a ↦ (0, 10)`, `c ↦ (20, 30)`
routes the key `b` to the first handle. -/
theorem c3_index_routing_witness :
    IndexBlockReader.Find
      ⟨indexEntriesEnc [([97], (⟨0, 10⟩ : BlockHandle)), ([99], ⟨20, 30⟩)],
        indexOffsets 0 [([97], (⟨0, 10⟩ : BlockHandle)), ([99], ⟨20, 30⟩)],
        [([97], (⟨0, 10⟩ : BlockHandle)), ([99], ⟨20, 30⟩)].length⟩ [98] =
      some ⟨0, 10⟩ := by
  obtain ⟨b', hA, hmk, hx⟩ := c3_index_routing
    [([97], (⟨0, 10⟩ : BlockHandle)), ([99], ⟨20, 30⟩)]
    (List.chain'_cons.2 ⟨by decide, List.chain'_singleton _⟩)
    (by decide) (by decide) (by decide)
  exact (hx [98]).2 0 (by decide) (by decide)
    (fun hj => (by decide : ([98] : Bytes) < [99]))

/-- Witness for C7: a hand-made 14-byte index block with entries region
`[9, 9]` and offset table `[0, 2]` constructs successfully, and the
theorem yields its validity facts. -/
theorem c7_index_reader_validates_offsets_witness :
    mkIndexBlockReader [9, 9, 0, 0, 0, 0, 2, 0, 0, 0, 2, 0, 0, 0] =
      some ⟨[9, 9], [0, 2], 2⟩ ∧
    List.Chain' (· ≤ ·) (⟨[9, 9], [0, 2], 2⟩ : IndexBlockReader).offsets ∧
    (∀ o ∈ (⟨[9, 9], [0, 2], 2⟩ : IndexBlockReader).offsets,
      o ≤ (⟨[9, 9], [0, 2], 2⟩ : IndexBlockReader).entries.length) := by
  have h := c7_index_reader_validates_offsets
    [9, 9, 0, 0, 0, 0, 2, 0, 0, 0, 2, 0, 0, 0] ⟨[9, 9], [0, 2], 2⟩ (by decide)
  exact ⟨by decide, h.2.2.2.1, h.2.2.2.2⟩

/-! ## C1: data block build / lookup round trip

The caller-side loop feeding `DataBlockBuilder::Add`, the exact byte
layout it produces (`dataLayoutGo`, one entry at a time mirroring `Add`),
and a run-structured view of the same bytes (`dataGroups` /
`dataGroupsEnc` / `dataGroupOffs`) on which the reader lemmas work. -/

theorem sharedPrefixLen_nil (k : Bytes) : sharedPrefixLen [] k = 0 := by
  cases k <;> rfl

theorem sharedPrefixLen_le_left : ∀ a b : Bytes, sharedPrefixLen a b ≤ a.length := by
  intro a
  induction a with
  | nil => intro b; rw [sharedPrefixLen_nil]; exact Nat.zero_le _
  | cons x as ih =>
    intro b
    cases b with
    | nil => exact Nat.zero_le _
    | cons y bs =>
      rw [sharedPrefixLen]
      split
      · have := ih bs
        simp only [List.length_cons]
        omega
      · exact Nat.zero_le _

theorem sharedPrefixLen_le_right : ∀ a b : Bytes, sharedPrefixLen a b ≤ b.length := by
  intro a
  induction a with
  | nil => intro b; rw [sharedPrefixLen_nil]; exact Nat.zero_le _
  | cons x as ih =>
    intro b
    cases b with
    | nil => exact Nat.zero_le _
    | cons y bs =>
      rw [sharedPrefixLen]
      split
      · have := ih bs
        simp only [List.length_cons]
        omega
      · exact Nat.zero_le _

/-- The shared prefix really is shared: both strings agree on it. -/
theorem take_sharedPrefixLen : ∀ a b : Bytes,
    a.take (sharedPrefixLen a b) = b.take (sharedPrefixLen a b) := by
  intro a
  induction a with
  | nil => intro b; rw [sharedPrefixLen_nil]; rfl
  | cons x as ih =>
    intro b
    cases b with
    | nil => rfl
    | cons y bs =>
      rw [sharedPrefixLen]
      split
      · rename_i hxy
        subst hxy
        simp only [List.take_succ_cons, List.cons.injEq, true_and]
        exact ih bs
      · rfl

/-- The caller-side loop that feeds key-value pairs to
`DataBlockBuilder::Add` one at a time (as the SSTable writer and the
tests do), stopping at the first error. -/
def DataBlockBuilder.AddEntries :
    DataBlockBuilder → List (Bytes × Bytes) → Except BuildError DataBlockBuilder
  | b, [] => .ok b
  | b, (k, v) :: rest =>
    match b.Add k v with
    | .error e => .error e
    | .ok b' => b'.AddEntries rest

/-- The bytes `Add` appends for one entry:
`[shared][non_shared][value_len][key delta][value]`, with the
`static_cast<uint32_t>` truncations of the C++. -/
def dataEntryEnc (shared : Nat) (kv : Bytes × Bytes) : Bytes :=
  putFixed32 shared ++ putFixed32 ((kv.1.length - shared) % 2 ^ 32) ++
    putFixed32 (kv.2.length % 2 ^ 32) ++
    (kv.1.drop shared).take ((kv.1.length - shared) % 2 ^ 32) ++
    kv.2.take (kv.2.length % 2 ^ 32)

/-- A maximal prefix-compressed run: the first entry is encoded against
`prev` (`[]` at a restart point, so its stored shared length is 0), each
later entry against its predecessor. -/
def chainEnc : Bytes → List (Bytes × Bytes) → Bytes
  | _, [] => []
  | prev, (k, v) :: rest =>
    dataEntryEnc (sharedPrefixLen prev k) (k, v) ++ chainEnc k rest

/-- The buffer bytes and extra restart offsets the `Add` loop appends,
one entry at a time: `prev`/`c`/`pos` are the builder's last key, counter
and buffer length. -/
def dataLayoutGo (r : Nat) : List (Bytes × Bytes) → Bytes → Nat → Nat → Bytes × List Nat
  | [], _, _, _ => ([], [])
  | (k, v) :: rest, prev, c, pos =>
    if c < r then
      (dataEntryEnc (sharedPrefixLen prev k) (k, v) ++
          (dataLayoutGo r rest k (c + 1)
            (pos + (dataEntryEnc (sharedPrefixLen prev k) (k, v)).length)).1,
        (dataLayoutGo r rest k (c + 1)
          (pos + (dataEntryEnc (sharedPrefixLen prev k) (k, v)).length)).2)
    else
      (dataEntryEnc 0 (k, v) ++
          (dataLayoutGo r rest k 1 (pos + (dataEntryEnc 0 (k, v)).length)).1,
        pos % 2 ^ 32 ::
          (dataLayoutGo r rest k 1 (pos + (dataEntryEnc 0 (k, v)).length)).2)

/-- The entries grouped into restart runs of `r` (fuel-based chunking). -/
def dataGroups (r : Nat) : Nat → List (Bytes × Bytes) → List (List (Bytes × Bytes))
  | 0, _ => []
  | _ + 1, [] => []
  | fuel + 1, p :: rest => ((p :: rest).take r) :: dataGroups r fuel ((p :: rest).drop r)

/-- The concatenated encodings of all runs. -/
def dataGroupsEnc (gs : List (List (Bytes × Bytes))) : Bytes :=
  (gs.map (chainEnc [])).flatten

/-- The restart offset of each run: the running block position (as a
`uint32`) at the start of the run. -/
def dataGroupOffs (pos : Nat) : List (List (Bytes × Bytes)) → List Nat
  | [] => []
  | g :: gs => pos % 2 ^ 32 :: dataGroupOffs (pos + (chainEnc [] g).length) gs

/-- Mod-free form of the restart offsets, valid once the block is known to
fit a `uint32`. -/
def dataGroupOffsSpec (pos : Nat) : List (List (Bytes × Bytes)) → List Nat
  | [] => []
  | g :: gs => pos :: dataGroupOffsSpec (pos + (chainEnc [] g).length) gs

/-- With the key and value below the `uint32` limit and a shared length
within the key, the entry bytes take their untruncated form. -/
theorem dataEntryEnc_eq (sh : Nat) (k v : Bytes) (hk : k.length < 2 ^ 32)
    (hv : v.length < 2 ^ 32) (hsh : sh ≤ k.length) :
    dataEntryEnc sh (k, v) =
      putFixed32 sh ++ putFixed32 (k.length - sh) ++ putFixed32 v.length ++
        k.drop sh ++ v := by
  rw [dataEntryEnc]
  dsimp only
  rw [Nat.mod_eq_of_lt (by omega), Nat.mod_eq_of_lt hv,
    List.take_of_length_le (by rw [List.length_drop]), List.take_length]

theorem dataEntryEnc_length (sh : Nat) (k v : Bytes) (hk : k.length < 2 ^ 32)
    (hv : v.length < 2 ^ 32) (hsh : sh ≤ k.length) :
    (dataEntryEnc sh (k, v)).length = 12 + (k.length - sh) + v.length := by
  rw [dataEntryEnc_eq sh k v hk hv hsh]
  simp only [List.length_append, putFixed32_length, List.length_drop]

theorem dataEntryEnc_len_ge (sh : Nat) (kv : Bytes × Bytes) :
    12 ≤ (dataEntryEnc sh kv).length := by
  rw [dataEntryEnc]
  simp only [List.length_append, putFixed32_length]
  omega

theorem chainEnc_len_ge : ∀ (prev : Bytes) (run : List (Bytes × Bytes)),
    12 * run.length ≤ (chainEnc prev run).length := by
  intro prev run
  induction run generalizing prev with
  | nil => simp [chainEnc]
  | cons p rest ih =>
    obtain ⟨k, v⟩ := p
    rw [chainEnc]
    have h1 := dataEntryEnc_len_ge (sharedPrefixLen prev k) (k, v)
    have h2 := ih k
    simp only [List.length_append, List.length_cons]
    omega

/-- Running the `Add` loop from a compatible unfinished builder appends
exactly the bytes and restart offsets of `dataLayoutGo` and stays
unfinished. -/
theorem AddEntries_spec (r : Nat) (kvs : List (Bytes × Bytes)) :
    ∀ b : DataBlockBuilder, b.finished = false → b.restart_interval = r →
      List.Chain' (· < ·) (kvs.map Prod.fst) →
      (b.last_key = [] ∨ ∀ k0 ∈ (kvs.map Prod.fst).head?, b.last_key < k0) →
      ∃ b', DataBlockBuilder.AddEntries b kvs = .ok b' ∧
        b'.buffer = b.buffer ++ (dataLayoutGo r kvs b.last_key b.counter b.buffer.length).1 ∧
        b'.restarts = b.restarts ++ (dataLayoutGo r kvs b.last_key b.counter b.buffer.length).2 ∧
        b'.finished = false := by
  induction kvs with
  | nil =>
    intro b hfin _ _ _
    exact ⟨b, rfl, by simp [dataLayoutGo], by simp [dataLayoutGo], hfin⟩
  | cons p rest ih =>
    obtain ⟨k, v⟩ := p
    intro b hfin hri hchain hlast
    have hnotrej : ¬ (b.last_key ≠ [] ∧ ¬ b.last_key < k) := by
      push_neg
      intro hne
      rcases hlast with hempty | hlt
      · exact absurd hempty hne
      · simpa using hlt k (by simp)
    rw [List.map_cons, List.chain'_cons'] at hchain
    obtain ⟨hhead, hchain'⟩ := hchain
    have hlast' : k = [] ∨ ∀ k0 ∈ (rest.map Prod.fst).head?, k < k0 := by
      by_cases hk : k = []
      · exact Or.inl hk
      · exact Or.inr (fun k0 hk0 => hhead k0 hk0)
    by_cases hc : b.counter < b.restart_interval
    · have hAdd : b.Add k v = .ok
          ⟨b.buffer ++ dataEntryEnc (sharedPrefixLen b.last_key k) (k, v),
           b.restarts, k, b.restart_interval, b.counter + 1, b.finished⟩ := by
        rw [DataBlockBuilder.Add, if_neg (by simp [hfin]), if_neg hnotrej]
        dsimp only
        rw [if_pos hc]
        simp [dataEntryEnc, List.append_assoc]
      rw [DataBlockBuilder.AddEntries, hAdd]
      obtain ⟨b', hAE, hbuf, hrs, hfin'⟩ := ih
        ⟨b.buffer ++ dataEntryEnc (sharedPrefixLen b.last_key k) (k, v),
         b.restarts, k, b.restart_interval, b.counter + 1, b.finished⟩
        hfin hri hchain' hlast'
      refine ⟨b', hAE, ?_, ?_, hfin'⟩
      · rw [hbuf]
        dsimp only
        rw [dataLayoutGo, if_pos (by omega : b.counter < r)]
        simp [List.append_assoc, List.length_append]
      · rw [hrs]
        dsimp only
        rw [dataLayoutGo, if_pos (by omega : b.counter < r)]
        simp [List.length_append]
    · have hAdd : b.Add k v = .ok
          ⟨b.buffer ++ dataEntryEnc 0 (k, v),
           b.restarts ++ [b.buffer.length % 2 ^ 32], k, b.restart_interval,
           0 + 1, b.finished⟩ := by
        rw [DataBlockBuilder.Add, if_neg (by simp [hfin]), if_neg hnotrej]
        dsimp only
        rw [if_neg hc]
        simp [dataEntryEnc, List.append_assoc]
      rw [DataBlockBuilder.AddEntries, hAdd]
      obtain ⟨b', hAE, hbuf, hrs, hfin'⟩ := ih
        ⟨b.buffer ++ dataEntryEnc 0 (k, v),
         b.restarts ++ [b.buffer.length % 2 ^ 32], k, b.restart_interval,
         0 + 1, b.finished⟩
        hfin hri hchain' hlast'
      refine ⟨b', hAE, ?_, ?_, hfin'⟩
      · rw [hbuf]
        dsimp only
        rw [dataLayoutGo, if_neg (by omega : ¬ b.counter < r)]
        simp [List.append_assoc, List.length_append]
      · rw [hrs]
        dsimp only
        rw [dataLayoutGo, if_neg (by omega : ¬ b.counter < r)]
        simp [List.append_assoc, List.length_append]

/-- Within-run bridge: from counter `c`, the loop emits one
prefix-compressed chain for the next `r - c` entries and then continues
at a fresh restart (counter `r`). -/
theorem dataLayoutGo_take (r : Nat) :
    ∀ (kvs : List (Bytes × Bytes)) (prev : Bytes) (c pos : Nat), c ≤ r →
      dataLayoutGo r kvs prev c pos =
        (chainEnc prev (kvs.take (r - c)) ++
            (dataLayoutGo r (kvs.drop (r - c)) [] r
              (pos + (chainEnc prev (kvs.take (r - c))).length)).1,
          (dataLayoutGo r (kvs.drop (r - c)) [] r
            (pos + (chainEnc prev (kvs.take (r - c))).length)).2) := by
  intro kvs
  induction kvs with
  | nil =>
    intro prev c pos hc
    simp [dataLayoutGo, chainEnc]
  | cons p rest ih =>
    obtain ⟨k, v⟩ := p
    intro prev c pos hc
    by_cases hlt : c < r
    · have hrc : r - c = (r - (c + 1)) + 1 := by omega
      rw [dataLayoutGo, if_pos hlt, hrc, List.take_succ_cons, List.drop_succ_cons,
        chainEnc]
      rw [ih k (c + 1) (pos + (dataEntryEnc (sharedPrefixLen prev k) (k, v)).length)
        (by omega)]
      simp [List.append_assoc, List.length_append, Nat.add_assoc]
    · have hc0 : r - c = 0 := by omega
      have hcr : c = r := by omega
      subst hcr
      rw [hc0]
      simp only [List.take_zero, List.drop_zero]
      rw [show chainEnc prev [] = [] from rfl]
      simp only [List.nil_append, List.length_nil, Nat.add_zero]
      rw [dataLayoutGo, dataLayoutGo, if_neg hlt, if_neg hlt]

/-- Chunking does not depend on the fuel, once it covers the list. -/
theorem dataGroups_congr (r : Nat) (hr : 1 ≤ r) :
    ∀ (f1 f2 : Nat) (kvs : List (Bytes × Bytes)),
      kvs.length ≤ f1 → kvs.length ≤ f2 →
      dataGroups r f1 kvs = dataGroups r f2 kvs := by
  intro f1
  induction f1 with
  | zero =>
    intro f2 kvs h1 _
    have : kvs = [] := by
      cases kvs with
      | nil => rfl
      | cons a l => simp at h1
    subst this
    cases f2 <;> rfl
  | succ f1 ih =>
    intro f2 kvs h1 h2
    cases kvs with
    | nil => cases f2 <;> rfl
    | cons p rest =>
      cases f2 with
      | zero => simp at h2
      | succ f2 =>
        simp only [List.length_cons] at h1 h2
        have hd : ((p :: rest).drop r).length = rest.length + 1 - r := by
          rw [List.length_drop]
          simp
        rw [dataGroups, dataGroups]
        rw [ih f2 ((p :: rest).drop r) (by omega) (by omega)]

/-- Run-structured form of the layout from a fresh-restart state. -/
theorem dataLayoutGo_groups (r : Nat) (hr : 1 ≤ r) :
    ∀ (fuel : Nat) (kvs : List (Bytes × Bytes)) (pos : Nat), kvs.length ≤ fuel →
      dataLayoutGo r kvs [] r pos =
        (dataGroupsEnc (dataGroups r fuel kvs),
          dataGroupOffs pos (dataGroups r fuel kvs)) := by
  obtain ⟨r', rfl⟩ : ∃ r', r = r' + 1 := ⟨r - 1, by omega⟩
  intro fuel
  induction fuel with
  | zero =>
    intro kvs pos hlen
    have : kvs = [] := by
      cases kvs with
      | nil => rfl
      | cons a l => simp at hlen
    subst this
    simp [dataLayoutGo, dataGroups, dataGroupsEnc, dataGroupOffs]
  | succ fuel ih =>
    intro kvs pos hlen
    cases kvs with
    | nil => simp [dataLayoutGo, dataGroups, dataGroupsEnc, dataGroupOffs]
    | cons p rest =>
      obtain ⟨k, v⟩ := p
      rw [dataGroups, dataLayoutGo, if_neg (lt_irrefl (r' + 1))]
      rw [dataLayoutGo_take (r' + 1) rest k 1
        (pos + (dataEntryEnc 0 (k, v)).length) (by omega)]
      rw [show r' + 1 - 1 = r' from rfl]
      rw [ih (rest.drop r') (pos + (dataEntryEnc 0 (k, v)).length +
        (chainEnc k (rest.take r')).length) (by
          rw [List.length_drop]
          simp only [List.length_cons] at hlen
          omega)]
      rw [List.take_succ_cons, List.drop_succ_cons]
      have hg0 : chainEnc [] ((k, v) :: rest.take r') =
          dataEntryEnc 0 (k, v) ++ chainEnc k (rest.take r') := by
        rw [chainEnc, sharedPrefixLen_nil]
      simp only [dataGroupsEnc, List.map_cons, List.flatten_cons, dataGroupOffs, hg0]
      simp [List.append_assoc, List.length_append, Nat.add_assoc]

/-- Run-structured form of the layout from the initial builder state: the
first run's restart offset is the pre-seeded 0, the loop emits the rest. -/
theorem dataLayout_init (r : Nat) (hr : 1 ≤ r) (kvs : List (Bytes × Bytes))
    (hne : kvs ≠ []) :
    (dataLayoutGo r kvs [] 0 0).1 = dataGroupsEnc (dataGroups r kvs.length kvs) ∧
    0 :: (dataLayoutGo r kvs [] 0 0).2 =
      dataGroupOffs 0 (dataGroups r kvs.length kvs) := by
  rw [dataLayoutGo_take r kvs [] 0 0 (by omega)]
  simp only [Nat.sub_zero, Nat.zero_add]
  rw [dataLayoutGo_groups r hr (kvs.drop r).length (kvs.drop r)
    (chainEnc [] (kvs.take r)).length (le_refl _)]
  cases kvs with
  | nil => exact absurd rfl hne
  | cons p rest =>
    obtain ⟨k, v⟩ := p
    have hlen : ((k, v) :: rest).length = rest.length + 1 := by simp
    rw [hlen, dataGroups]
    have hgc : dataGroups r ((((k, v) :: rest)).drop r).length (((k, v) :: rest).drop r) =
        dataGroups r (rest.length) (((k, v) :: rest).drop r) := by
      apply dataGroups_congr r hr
      · exact le_refl _
      · rw [List.length_drop]
        simp only [List.length_cons]
        omega
    rw [hgc]
    constructor
    · simp only [dataGroupsEnc, List.map_cons, List.flatten_cons]
    · simp only [dataGroupOffs, Nat.zero_mod, Nat.zero_add, dataGroupsEnc]

theorem dataGroupsEnc_append (l₁ l₂ : List (List (Bytes × Bytes))) :
    dataGroupsEnc (l₁ ++ l₂) = dataGroupsEnc l₁ ++ dataGroupsEnc l₂ := by
  simp [dataGroupsEnc]

theorem dataGroupsEnc_cons (g : List (Bytes × Bytes)) (gs : List (List (Bytes × Bytes))) :
    dataGroupsEnc (g :: gs) = chainEnc [] g ++ dataGroupsEnc gs := by
  simp [dataGroupsEnc]

theorem dataGroupOffs_length (pos : Nat) (gs : List (List (Bytes × Bytes))) :
    (dataGroupOffs pos gs).length = gs.length := by
  induction gs generalizing pos with
  | nil => rfl
  | cons g gs ih => rw [dataGroupOffs]; simp [ih]

theorem dataGroupOffsSpec_length (pos : Nat) (gs : List (List (Bytes × Bytes))) :
    (dataGroupOffsSpec pos gs).length = gs.length := by
  induction gs generalizing pos with
  | nil => rfl
  | cons g gs ih => rw [dataGroupOffsSpec]; simp [ih]

theorem dataGroupOffs_lt (gs : List (List (Bytes × Bytes))) :
    ∀ pos, ∀ o ∈ dataGroupOffs pos gs, o < 2 ^ 32 := by
  induction gs with
  | nil => intro pos o ho; cases ho
  | cons g gs ih =>
    intro pos o ho
    rw [dataGroupOffs] at ho
    rcases List.mem_cons.1 ho with rfl | hmem
    · exact Nat.mod_lt _ (by norm_num)
    · exact ih _ o hmem

theorem dataGroupOffs_eq_spec :
    ∀ (gs : List (List (Bytes × Bytes))) (pos : Nat),
      pos + (dataGroupsEnc gs).length < 2 ^ 32 →
      dataGroupOffs pos gs = dataGroupOffsSpec pos gs := by
  intro gs
  induction gs with
  | nil => intro pos _; rfl
  | cons g gs ih =>
    intro pos hbound
    rw [dataGroupsEnc_cons] at hbound
    simp only [List.length_append] at hbound
    rw [dataGroupOffs, dataGroupOffsSpec, Nat.mod_eq_of_lt (by omega)]
    congr 1
    apply ih
    omega

theorem dataGroupOffsSpec_get :
    ∀ (gs : List (List (Bytes × Bytes))) (pos j : Nat) (hj : j < gs.length),
      (dataGroupOffsSpec pos gs).get
          ⟨j, by rw [dataGroupOffsSpec_length]; exact hj⟩ =
        pos + (dataGroupsEnc (gs.take j)).length := by
  intro gs
  induction gs with
  | nil => intro pos j hj; cases hj
  | cons g gs ih =>
    intro pos j hj
    match j with
    | 0 => simp [dataGroupOffsSpec, dataGroupsEnc]
    | j + 1 =>
      have hstep := ih (pos + (chainEnc [] g).length) j
        (by simpa using Nat.lt_of_succ_lt_succ hj)
      simp only [dataGroupOffsSpec, List.get_cons_succ]
      rw [hstep, List.take_succ_cons, dataGroupsEnc_cons]
      simp only [List.length_append]
      omega

/-- The runs concatenate back to the original entry list. -/
theorem dataGroups_flatten (r : Nat) (hr : 1 ≤ r) :
    ∀ (fuel : Nat) (kvs : List (Bytes × Bytes)), kvs.length ≤ fuel →
      (dataGroups r fuel kvs).flatten = kvs := by
  intro fuel
  induction fuel with
  | zero =>
    intro kvs hlen
    have : kvs = [] := by
      cases kvs with
      | nil => rfl
      | cons a l => simp at hlen
    subst this
    rfl
  | succ fuel ih =>
    intro kvs hlen
    cases kvs with
    | nil => rfl
    | cons p rest =>
      rw [dataGroups, List.flatten_cons]
      rw [ih ((p :: rest).drop r) (by
        rw [List.length_drop]
        simp only [List.length_cons] at hlen ⊢
        omega)]
      exact List.take_append_drop r (p :: rest)

/-- No run is empty. -/
theorem dataGroups_ne_nil (r : Nat) (hr : 1 ≤ r) :
    ∀ (fuel : Nat) (kvs : List (Bytes × Bytes)),
      ∀ g ∈ dataGroups r fuel kvs, g ≠ [] := by
  intro fuel
  induction fuel with
  | zero => intro kvs g hg; cases hg
  | succ fuel ih =>
    intro kvs g hg
    cases kvs with
    | nil => cases hg
    | cons p rest =>
      rw [dataGroups] at hg
      rcases List.mem_cons.1 hg with rfl | hmem
      · obtain ⟨r', rfl⟩ : ∃ r', r = r' + 1 := ⟨r - 1, by omega⟩
        rw [List.take_succ_cons]
        simp
      · exact ih _ g hmem

/-- The DataBlockReader constructor on a block laid out as
`entries ++ restart array ++ count` recovers exactly the entries region
and the restart offsets. -/
theorem mkDataBlockReader_built (B : Bytes) (offs : List Nat)
    (ho : ∀ o ∈ offs, o < 2 ^ 32) (hn : offs.length < 2 ^ 32) :
    mkDataBlockReader (B ++ ((offs.map putFixed32).flatten ++
        putFixed32 (offs.length % 2 ^ 32))) = some ⟨B, offs⟩ := by
  set block := B ++ ((offs.map putFixed32).flatten ++ putFixed32 (offs.length % 2 ^ 32))
    with hblock
  have hlenF : ((offs.map putFixed32).flatten).length = 4 * offs.length :=
    flatten_map_putFixed32_length offs
  have hL : block.length = B.length + 4 * offs.length + 4 := by
    rw [hblock]
    simp only [List.length_append, putFixed32_length, hlenF]
    omega
  have hshape : block = (B ++ (offs.map putFixed32).flatten) ++
      (putFixed32 (offs.length % 2 ^ 32) ++ []) := by
    rw [hblock]
    simp [List.append_assoc]
  have hnum : decodeFixed32At block (block.length - 4) = offs.length := by
    have hpos : block.length - 4 = (B ++ (offs.map putFixed32).flatten).length := by
      rw [hL]
      simp only [List.length_append, hlenF]
      omega
    rw [hpos, hshape, decodeFixed32At_append]
    omega
  rw [mkDataBlockReader, if_neg (by rw [hL]; omega)]
  dsimp only
  rw [hnum]
  rw [if_neg (by
    push_neg
    rw [Nat.le_div_iff_mul_le (by norm_num), hL]
    omega)]
  rw [if_neg (by rw [hL]; omega)]
  have hbase : block.length - 4 - offs.length * 4 = B.length := by
    rw [hL]
    omega
  have hmap : (List.range offs.length).map
      (fun i => decodeFixed32At block (B.length + i * 4)) = offs := by
    apply List.ext_getElem
    · simp
    · intro j h1 h2
      simp only [List.getElem_map, List.getElem_range]
      have hd := decodeFixed32At_flatten B offs (putFixed32 (offs.length % 2 ^ 32)) j
        (by simpa using h2)
      rw [hblock, hd]
      exact Nat.mod_eq_of_lt (ho _ (List.get_mem _ _ _))
  simp only [hbase]
  rw [hmap]
  have htake : block.take B.length = B := by
    rw [hblock]
    exact List.take_left _ _
  rw [htake]

theorem decodeFixed32At_at0 (a : Bytes) (v : Nat) (b : Bytes) :
    decodeFixed32At (a ++ (putFixed32 v ++ b)) a.length = v % 2 ^ 32 :=
  decodeFixed32At_append a v b

theorem decodeFixed32At_at4 (a : Bytes) (x v : Nat) (b : Bytes) :
    decodeFixed32At (a ++ (putFixed32 x ++ (putFixed32 v ++ b)))
      (a.length + 4) = v % 2 ^ 32 := by
  have h := decodeFixed32At_append (a ++ putFixed32 x) v b
  rw [List.length_append, putFixed32_length] at h
  rw [show a ++ (putFixed32 x ++ (putFixed32 v ++ b)) =
    (a ++ putFixed32 x) ++ (putFixed32 v ++ b) from by simp [List.append_assoc]]
  exact h

theorem decodeFixed32At_at8 (a : Bytes) (x y v : Nat) (b : Bytes) :
    decodeFixed32At (a ++ (putFixed32 x ++ (putFixed32 y ++ (putFixed32 v ++ b))))
      (a.length + 8) = v % 2 ^ 32 := by
  have h := decodeFixed32At_append (a ++ putFixed32 x ++ putFixed32 y) v b
  rw [List.length_append, List.length_append, putFixed32_length, putFixed32_length] at h
  rw [show a ++ (putFixed32 x ++ (putFixed32 y ++ (putFixed32 v ++ b))) =
    (a ++ putFixed32 x ++ putFixed32 y) ++ (putFixed32 v ++ b) from by
      simp [List.append_assoc]]
  rw [show a.length + 8 = a.length + 4 + 4 from rfl]
  exact h

theorem drop_at12 (a : Bytes) (x y z : Nat) (b : Bytes) :
    (a ++ (putFixed32 x ++ (putFixed32 y ++ (putFixed32 z ++ b)))).drop
      (a.length + 12) = b := by
  have h := List.drop_left (a ++ putFixed32 x ++ putFixed32 y ++ putFixed32 z) b
  rw [show (a ++ putFixed32 x ++ putFixed32 y ++ putFixed32 z).length =
    a.length + 12 from by simp [putFixed32_length]] at h
  rw [show a ++ (putFixed32 x ++ (putFixed32 y ++ (putFixed32 z ++ b))) =
    (a ++ putFixed32 x ++ putFixed32 y ++ putFixed32 z) ++ b from by
      simp [List.append_assoc]]
  exact h

/-- `key_at_offset` at the start of run `j` of a built block materialises
that run's restart key. -/
theorem keyAtOffset_built (rd : DataBlockReader) (gs : List (List (Bytes × Bytes)))
    (hE : rd.entries = dataGroupsEnc gs)
    (j : Nat) (hj : j < gs.length)
    (k0 v0 : Bytes) (grest : List (Bytes × Bytes))
    (hg : gs.get ⟨j, hj⟩ = (k0, v0) :: grest)
    (hk : k0.length < 2 ^ 32) (hv : v0.length < 2 ^ 32) :
    rd.keyAtOffset (dataGroupsEnc (gs.take j)).length = some k0 := by
  have hgE : gs[j] = (k0, v0) :: grest := hg
  have hsplit : rd.entries = dataGroupsEnc (gs.take j) ++
      (putFixed32 0 ++ (putFixed32 k0.length ++ (putFixed32 v0.length ++
        (k0 ++ (v0 ++ (chainEnc k0 grest ++ dataGroupsEnc (gs.drop (j + 1)))))))) := by
    rw [hE]
    conv_lhs => rw [← List.take_append_drop j gs]
    rw [dataGroupsEnc_append, List.drop_eq_getElem_cons hj, hgE, dataGroupsEnc_cons,
      chainEnc, sharedPrefixLen_nil,
      dataEntryEnc_eq 0 k0 v0 hk hv (Nat.zero_le _)]
    simp [List.append_assoc]
  set U := dataGroupsEnc (gs.take j) with hU
  have hlenE : rd.entries.length = U.length + 12 + k0.length + v0.length +
      ((chainEnc k0 grest).length + (dataGroupsEnc (gs.drop (j + 1))).length) := by
    rw [hsplit]
    simp only [List.length_append, putFixed32_length]
    omega
  have hd0 : decodeFixed32At rd.entries U.length = 0 := by
    rw [hsplit]
    simpa using decodeFixed32At_at0 U 0 _
  have hd4 : decodeFixed32At rd.entries (U.length + 4) = k0.length := by
    rw [hsplit, decodeFixed32At_at4]
    exact Nat.mod_eq_of_lt hk
  have hd8 : decodeFixed32At rd.entries (U.length + 8) = v0.length := by
    rw [hsplit, decodeFixed32At_at8]
    exact Nat.mod_eq_of_lt hv
  have hd12 : rd.entries.drop (U.length + 12) =
      k0 ++ (v0 ++ (chainEnc k0 grest ++ dataGroupsEnc (gs.drop (j + 1)))) := by
    rw [hsplit, drop_at12]
  rw [DataBlockReader.keyAtOffset]
  rw [if_neg (by omega)]
  dsimp only
  rw [hd0, hd4, hd8]
  rw [if_neg (by omega : ¬ (0 : Nat) ≠ 0)]
  rw [if_neg (by omega)]
  rw [hd12, List.take_left]

theorem drop_at12d (a : Bytes) (x y z : Nat) (d b : Bytes) :
    (a ++ (putFixed32 x ++ (putFixed32 y ++ (putFixed32 z ++ (d ++ b))))).drop
      (a.length + 12 + d.length) = b := by
  have h := List.drop_left (a ++ putFixed32 x ++ putFixed32 y ++ putFixed32 z ++ d) b
  rw [show (a ++ putFixed32 x ++ putFixed32 y ++ putFixed32 z ++ d).length =
    a.length + 12 + d.length from by
      simp only [List.length_append, putFixed32_length]] at h
  rw [show a ++ (putFixed32 x ++ (putFixed32 y ++ (putFixed32 z ++ (d ++ b)))) =
    (a ++ putFixed32 x ++ putFixed32 y ++ putFixed32 z ++ d) ++ b from by
      simp [List.append_assoc]]
  exact h

/-- Scanning a prefix-compressed run laid out at offset `U.length`: the
scan returns the stored value when the target is one of the run's keys,
and `none` when it is none of them.  `W` is whatever follows the run
(later runs), delimited by the next restart offset — or nothing, when the
run is the block's last. -/
theorem scanGo_run (rd : DataBlockReader) (target : Bytes) (lo : Nat)
    (hsizeE : rd.entries.length < 2 ^ 32) :
    ∀ (run : List (Bytes × Bytes)) (fuel : Nat) (prev : Bytes) (U W : Bytes),
      rd.entries = U ++ (chainEnc prev run ++ W) →
      (lo + 1 < rd.restarts.length →
        rd.restarts.getD (lo + 1) 0 = U.length + (chainEnc prev run).length) →
      (¬ lo + 1 < rd.restarts.length → W = []) →
      (∀ p ∈ run, p.1.length < 2 ^ 32 ∧ p.2.length < 2 ^ 32) →
      run.length < fuel →
      List.Chain' (· < ·) (run.map Prod.fst) →
      (∀ v, (target, v) ∈ run →
        DataBlockReader.scanGo rd target lo fuel U.length prev = some v) ∧
      ((∀ p ∈ run, p.1 ≠ target) →
        DataBlockReader.scanGo rd target lo fuel U.length prev = none) := by
  intro run
  induction run with
  | nil =>
    intro fuel prev U W hE hbnd hlast _ hfuel _
    refine ⟨fun v hv => absurd hv (List.not_mem_nil _), fun _ => ?_⟩
    cases fuel with
    | zero => omega
    | succ f =>
      rw [DataBlockReader.scanGo]
      by_cases hoff : U.length < rd.entries.length
      · rw [if_pos hoff]
        have hlo : lo + 1 < rd.restarts.length := by
          by_contra hno
          have hW := hlast hno
          rw [hE, hW] at hoff
          simp [chainEnc] at hoff
        rw [if_pos ⟨hlo, by rw [hbnd hlo]; simp [chainEnc]⟩]
      · rw [if_neg hoff]
  | cons p rest ih =>
    obtain ⟨k0, v0⟩ := p
    intro fuel prev U W hE hbnd hlast hkb hfuel hchain
    cases fuel with
    | zero => simp at hfuel
    | succ f =>
      obtain ⟨hk, hv⟩ := hkb (k0, v0) (List.mem_cons_self _ _)
      dsimp only at hk hv
      have hsh : sharedPrefixLen prev k0 ≤ k0.length := sharedPrefixLen_le_right prev k0
      have hshp : sharedPrefixLen prev k0 ≤ prev.length := sharedPrefixLen_le_left prev k0
      have hsplit : rd.entries = U ++ (putFixed32 (sharedPrefixLen prev k0) ++
          (putFixed32 (k0.length - sharedPrefixLen prev k0) ++
            (putFixed32 v0.length ++
              ((k0.drop (sharedPrefixLen prev k0)) ++
                (v0 ++ (chainEnc k0 rest ++ W)))))) := by
        rw [hE, chainEnc, dataEntryEnc_eq (sharedPrefixLen prev k0) k0 v0 hk hv hsh]
        simp [List.append_assoc]
      have hlenE : rd.entries.length = U.length + 12 +
          (k0.length - sharedPrefixLen prev k0) + v0.length +
          ((chainEnc k0 rest).length + W.length) := by
        rw [hsplit]
        simp only [List.length_append, putFixed32_length, List.length_drop]
        omega
      have hd0 : decodeFixed32At rd.entries U.length = sharedPrefixLen prev k0 := by
        rw [hsplit, decodeFixed32At_at0]
        exact Nat.mod_eq_of_lt (by omega)
      have hd4 : decodeFixed32At rd.entries (U.length + 4) =
          k0.length - sharedPrefixLen prev k0 := by
        rw [hsplit, decodeFixed32At_at4]
        exact Nat.mod_eq_of_lt (by omega)
      have hd8 : decodeFixed32At rd.entries (U.length + 8) = v0.length := by
        rw [hsplit, decodeFixed32At_at8]
        exact Nat.mod_eq_of_lt hv
      have hd12 : rd.entries.drop (U.length + 12) =
          (k0.drop (sharedPrefixLen prev k0)) ++
            (v0 ++ (chainEnc k0 rest ++ W)) := by
        rw [hsplit, drop_at12]
      have hdelta : ((k0.drop (sharedPrefixLen prev k0)) ++
          (v0 ++ (chainEnc k0 rest ++ W))).take
            (k0.length - sharedPrefixLen prev k0) = k0.drop (sharedPrefixLen prev k0) := by
        rw [← List.length_drop]
        exact List.take_left _ _
      have hcur : (if sharedPrefixLen prev k0 = 0 then
            some (k0.drop (sharedPrefixLen prev k0))
          else if sharedPrefixLen prev k0 > prev.length then none
          else some (prev.take (sharedPrefixLen prev k0) ++
            k0.drop (sharedPrefixLen prev k0))) = some k0 := by
        by_cases h0 : sharedPrefixLen prev k0 = 0
        · rw [if_pos h0, h0, List.drop_zero]
        · rw [if_neg h0, if_neg (by omega : ¬ sharedPrefixLen prev k0 > prev.length),
            take_sharedPrefixLen prev k0, List.take_append_drop]
      have hval : (rd.entries.drop (U.length + 12 +
          (k0.length - sharedPrefixLen prev k0))).take v0.length = v0 := by
        have hdropv : rd.entries.drop (U.length + 12 +
            (k0.length - sharedPrefixLen prev k0)) =
            v0 ++ (chainEnc k0 rest ++ W) := by
          rw [show U.length + 12 + (k0.length - sharedPrefixLen prev k0) =
            U.length + 12 + (k0.drop (sharedPrefixLen prev k0)).length from by
              rw [List.length_drop]]
          rw [hsplit]
          exact drop_at12d U _ _ _ _ _
        rw [hdropv]
        exact List.take_left _ _
      have hmod : (U.length + (12 + (k0.length - sharedPrefixLen prev k0) +
          v0.length)) % 2 ^ 32 =
          U.length + (12 + (k0.length - sharedPrefixLen prev k0) + v0.length) :=
        Nat.mod_eq_of_lt (by omega)
      have hclen : 12 ≤ (chainEnc prev ((k0, v0) :: rest)).length := by
        rw [chainEnc]
        have := dataEntryEnc_len_ge (sharedPrefixLen prev k0) (k0, v0)
        simp only [List.length_append]
        omega
      have hstep : DataBlockReader.scanGo rd target lo (f + 1) U.length prev =
          (if k0 = target then some v0
           else if target < k0 then none
           else DataBlockReader.scanGo rd target lo f
             (U.length + (12 + (k0.length - sharedPrefixLen prev k0) + v0.length))
             k0) := by
        rw [DataBlockReader.scanGo]
        rw [if_pos (by omega : U.length < rd.entries.length)]
        rw [if_neg (by
          push_neg
          intro h1
          rw [hbnd h1]
          omega)]
        rw [if_neg (by omega : ¬ U.length + 12 > rd.entries.length)]
        dsimp only
        rw [hd0, hd4, hd8, hd12, hdelta]
        rw [if_neg (by omega)]
        rw [hcur]
        dsimp only
        rw [hval, hmod]
      -- the next-entry invariants for the recursive call
      have hlen' : (U ++ dataEntryEnc (sharedPrefixLen prev k0) (k0, v0)).length =
          U.length + (12 + (k0.length - sharedPrefixLen prev k0) + v0.length) := by
        rw [List.length_append, dataEntryEnc_length _ k0 v0 hk hv hsh]
      have hE' : rd.entries = (U ++ dataEntryEnc (sharedPrefixLen prev k0) (k0, v0)) ++
          (chainEnc k0 rest ++ W) := by
        rw [hE, chainEnc]
        simp [List.append_assoc]
      have hbnd' : lo + 1 < rd.restarts.length →
          rd.restarts.getD (lo + 1) 0 =
            (U ++ dataEntryEnc (sharedPrefixLen prev k0) (k0, v0)).length +
              (chainEnc k0 rest).length := by
        intro h1
        rw [hbnd h1, chainEnc, hlen']
        simp only [List.length_append, dataEntryEnc_length _ k0 v0 hk hv hsh]
        omega
      have hchain' : List.Chain' (· < ·) (rest.map Prod.fst) := by
        rw [List.map_cons, List.chain'_cons'] at hchain
        exact hchain.2
      have hhead : ∀ q ∈ rest, k0 < q.1 := by
        intro q hq
        have hp := List.chain'_iff_pairwise.1 hchain
        rw [List.map_cons, List.pairwise_cons] at hp
        exact hp.1 q.1 (List.mem_map.2 ⟨q, hq, rfl⟩)
      have hIH := ih f k0 (U ++ dataEntryEnc (sharedPrefixLen prev k0) (k0, v0)) W
        hE' hbnd' hlast (fun q hq => hkb q (List.mem_cons_of_mem _ hq))
        (by simp only [List.length_cons] at hfuel; omega) hchain'
      rw [hlen'] at hIH
      constructor
      · intro v hvmem
        rcases List.mem_cons.1 hvmem with heqp | hmem
        · have h1 : k0 = target := (congrArg Prod.fst heqp).symm
          have h2 : v = v0 := congrArg Prod.snd heqp
          rw [hstep, if_pos h1, h2]
        · have hgt : k0 < target :=
            hhead (target, v) hmem
          rw [hstep, if_neg (ne_of_lt hgt), if_neg (not_lt.2 (le_of_lt hgt))]
          exact hIH.1 v hmem
      · intro hnone
        have hk0ne : k0 ≠ target := hnone (k0, v0) (List.mem_cons_self _ _)
        rw [hstep, if_neg hk0ne]
        by_cases htlt : target < k0
        · rw [if_pos htlt]
        · rw [if_neg htlt]
          exact hIH.2 (fun q hq => hnone q (List.mem_cons_of_mem _ hq))

theorem dataEntryEnc_len_le (sh : Nat) (kv : Bytes × Bytes) :
    (dataEntryEnc sh kv).length ≤ 12 + kv.1.length + kv.2.length := by
  simp only [dataEntryEnc, List.length_append, putFixed32_length, List.length_take,
    List.length_drop]
  omega

theorem chainEnc_len_le : ∀ (prev : Bytes) (run : List (Bytes × Bytes)),
    (chainEnc prev run).length ≤
      (run.map (fun p => 12 + p.1.length + p.2.length)).sum := by
  intro prev run
  induction run generalizing prev with
  | nil => simp [chainEnc]
  | cons p rest ih =>
    obtain ⟨k, v⟩ := p
    rw [chainEnc]
    have h1 := dataEntryEnc_len_le (sharedPrefixLen prev k) (k, v)
    have h2 := ih k
    simp only [List.length_append, List.map_cons, List.sum_cons]
    dsimp only at h1
    omega

theorem dataGroupsEnc_len_le : ∀ gs : List (List (Bytes × Bytes)),
    (dataGroupsEnc gs).length ≤
      ((gs.flatten).map (fun p => 12 + p.1.length + p.2.length)).sum := by
  intro gs
  induction gs with
  | nil => simp [dataGroupsEnc]
  | cons g rest ih =>
    rw [dataGroupsEnc_cons, List.flatten_cons, List.map_append, List.sum_append]
    have h1 := chainEnc_len_le [] g
    simp only [List.length_append]
    omega

theorem sum_ge_length (kvs : List (Bytes × Bytes)) :
    kvs.length ≤ (kvs.map (fun p => 12 + p.1.length + p.2.length)).sum := by
  induction kvs with
  | nil => simp
  | cons p rest ih =>
    simp only [List.length_cons, List.map_cons, List.sum_cons]
    omega

theorem length_le_flatten_length (gs : List (List (Bytes × Bytes)))
    (hne : ∀ g ∈ gs, g ≠ []) : gs.length ≤ gs.flatten.length := by
  induction gs with
  | nil => simp
  | cons g rest ih =>
    rw [List.flatten_cons]
    have h1 : g ≠ [] := hne g (List.mem_cons_self _ _)
    have h2 : 1 ≤ g.length := List.length_pos.2 h1
    have h3 := ih (fun g' hg' => hne g' (List.mem_cons_of_mem _ hg'))
    simp only [List.length_cons, List.length_append]
    omega

/-- The restart key of run `j`: the first key of the `j`-th group. -/
def groupKey (gs : List (List (Bytes × Bytes))) (j : Nat) : Bytes :=
  ((gs.getD j []).getD 0 ([], [])).1

theorem groupKey_head (gs : List (List (Bytes × Bytes))) (j : Nat)
    (hj : j < gs.length) (k0 v0 : Bytes) (grest : List (Bytes × Bytes))
    (hg : gs.get ⟨j, hj⟩ = (k0, v0) :: grest) : groupKey gs j = k0 := by
  rw [groupKey, List.getD_eq_getElem _ _ hj,
    show gs[j] = (k0, v0) :: grest from hg]
  rfl

theorem groupKey_head_exists (gs : List (List (Bytes × Bytes))) (j : Nat)
    (hj : j < gs.length) (hne : ∀ g ∈ gs, g ≠ []) :
    ∃ v0 grest, gs.get ⟨j, hj⟩ = (groupKey gs j, v0) :: grest := by
  rcases hgj : gs.get ⟨j, hj⟩ with _ | ⟨⟨k0, v0⟩, grest⟩
  · have hmem := hne (gs.get ⟨j, hj⟩) (List.get_mem _ _ _)
    rw [hgj] at hmem
    exact absurd rfl hmem
  · exact ⟨v0, grest, by rw [groupKey_head gs j hj k0 v0 grest hgj]⟩

/-- `Get` on a reader holding a run-structured block: every key stored in
some run is found with its value; a key in no run is reported not found. -/
theorem dataGet_spec (gs : List (List (Bytes × Bytes)))
    (hgne : ∀ g ∈ gs, g ≠ [])
    (hin : ∀ g ∈ gs, List.Pairwise (fun p q : Bytes × Bytes => p.1 < q.1) g)
    (hcross : List.Pairwise
      (fun g1 g2 => ∀ p ∈ g1, ∀ q ∈ g2,
        (p : Bytes × Bytes).1 < (q : Bytes × Bytes).1) gs)
    (hbound : ∀ g ∈ gs, ∀ p ∈ g,
      (p : Bytes × Bytes).1.length < 2 ^ 32 ∧ p.2.length < 2 ^ 32)
    (hElen : (dataGroupsEnc gs).length < 2 ^ 32)
    (hgsne : gs ≠ []) :
    (∀ (j : Nat) (hj : j < gs.length) (target v : Bytes),
      (target, v) ∈ gs.get ⟨j, hj⟩ →
      DataBlockReader.Get ⟨dataGroupsEnc gs, dataGroupOffs 0 gs⟩ target = some v) ∧
    (∀ target : Bytes, (∀ g ∈ gs, ∀ p ∈ g, (p : Bytes × Bytes).1 ≠ target) →
      DataBlockReader.Get ⟨dataGroupsEnc gs, dataGroupOffs 0 gs⟩ target = none) := by
  have hgspos : 0 < gs.length := List.length_pos.2 hgsne
  have hcross' : ∀ (j1 j2 : Nat) (h1 : j1 < gs.length) (h2 : j2 < gs.length),
      j1 < j2 → ∀ p ∈ gs.get ⟨j1, h1⟩, ∀ q ∈ gs.get ⟨j2, h2⟩,
        (p : Bytes × Bytes).1 < (q : Bytes × Bytes).1 := by
    intro j1 j2 h1 h2 hlt p hp q hq
    exact List.pairwise_iff_getElem.1 hcross j1 j2 h1 h2 hlt p hp q hq
  have hfirstle : ∀ (j : Nat) (hj : j < gs.length),
      ∀ p ∈ gs.get ⟨j, hj⟩, groupKey gs j ≤ (p : Bytes × Bytes).1 := by
    intro j hj p hp
    obtain ⟨v0, grest, hg⟩ := groupKey_head_exists gs j hj hgne
    have hing := hin _ (List.get_mem gs j hj)
    rw [hg] at hp
    rw [hg, List.pairwise_cons] at hing
    rcases List.mem_cons.1 hp with rfl | hmem
    · exact le_refl _
    · exact le_of_lt (hing.1 p hmem)
  have hgkmono : ∀ i j, i < j → j ≤ gs.length - 1 →
      groupKey gs i < groupKey gs j := by
    intro i j hij hj
    have hj' : j < gs.length := by omega
    have hi' : i < gs.length := by omega
    obtain ⟨vi, gi, hgi⟩ := groupKey_head_exists gs i hi' hgne
    obtain ⟨vj, gj, hgj⟩ := groupKey_head_exists gs j hj' hgne
    exact hcross' i j hi' hj' hij (groupKey gs i, vi)
      (by rw [hgi]; exact List.mem_cons_self _ _)
      (groupKey gs j, vj)
      (by rw [hgj]; exact List.mem_cons_self _ _)
  have hoffs_eq : dataGroupOffs 0 gs = dataGroupOffsSpec 0 gs :=
    dataGroupOffs_eq_spec gs 0 (by omega)
  have hoffslen : (dataGroupOffs 0 gs).length = gs.length := dataGroupOffs_length 0 gs
  have hoffsgetD : ∀ (j : Nat), j < gs.length →
      (dataGroupOffs 0 gs).getD j 0 = (dataGroupsEnc (gs.take j)).length := by
    intro j hj
    rw [hoffs_eq]
    have hlt : j < (dataGroupOffsSpec 0 gs).length := by
      rw [dataGroupOffsSpec_length]
      exact hj
    have h1 : (dataGroupOffsSpec 0 gs).getD j 0 =
        (dataGroupOffsSpec 0 gs).get ⟨j, hlt⟩ :=
      List.getD_eq_getElem _ _ hlt
    rw [h1, dataGroupOffsSpec_get gs 0 j hj]
    exact Nat.zero_add _
  have hkeyat : ∀ (j : Nat) (hj : j < gs.length),
      DataBlockReader.keyAtOffset ⟨dataGroupsEnc gs, dataGroupOffs 0 gs⟩
        ((dataGroupOffs 0 gs).getD j 0) = some (groupKey gs j) := by
    intro j hj
    obtain ⟨v0, grest, hg⟩ := groupKey_head_exists gs j hj hgne
    have hmem0 : (groupKey gs j, v0) ∈ gs.get ⟨j, hj⟩ := by
      rw [hg]
      exact List.mem_cons_self _ _
    obtain ⟨hk0, hv0⟩ := hbound _ (List.get_mem gs j hj) _ hmem0
    rw [hoffsgetD j hj]
    exact keyAtOffset_built _ gs rfl j hj _ v0 grest hg hk0 hv0
  have hne : ¬ (dataGroupOffs 0 gs = []) := by
    intro h
    have := dataGroupOffs_length 0 gs
    rw [h] at this
    simp at this
    omega
  have hsearch : ∀ target : Bytes, ∃ res : Nat,
      rightmostLoopGo
        (fun mid => DataBlockReader.keyAtOffset
          ⟨dataGroupsEnc gs, dataGroupOffs 0 gs⟩ ((dataGroupOffs 0 gs).getD mid 0))
        target ((dataGroupOffs 0 gs).length - 1 - 0) 0
        ((dataGroupOffs 0 gs).length - 1) = some res ∧
      res < gs.length ∧
      (∀ i, res < i → i ≤ gs.length - 1 → target < groupKey gs i) ∧
      (res = 0 ∨ groupKey gs res ≤ target) := by
    intro target
    obtain ⟨res, heq, h1, h2, h3, h4⟩ :=
      rightmostLoopGo_spec
        (fun mid => DataBlockReader.keyAtOffset
          ⟨dataGroupsEnc gs, dataGroupOffs 0 gs⟩ ((dataGroupOffs 0 gs).getD mid 0))
        target (groupKey gs) (gs.length - 1)
        (fun i hi => hkeyat i (by omega)) hgkmono
        ((dataGroupOffs 0 gs).length - 1 - 0) 0 ((dataGroupOffs 0 gs).length - 1)
        (Nat.zero_le _) (by rw [hoffslen]) (le_refl _)
    rw [hoffslen] at h2 h3
    exact ⟨res, heq, by omega, h3, h4⟩
  have hscan : ∀ (target : Bytes) (res : Nat) (hres : res < gs.length),
      (∀ v, (target, v) ∈ gs.get ⟨res, hres⟩ →
        DataBlockReader.scanGo ⟨dataGroupsEnc gs, dataGroupOffs 0 gs⟩ target res
          ((dataGroupsEnc gs).length + 1)
          ((dataGroupOffs 0 gs).getD res 0) [] = some v) ∧
      ((∀ p ∈ gs.get ⟨res, hres⟩, (p : Bytes × Bytes).1 ≠ target) →
        DataBlockReader.scanGo ⟨dataGroupsEnc gs, dataGroupOffs 0 gs⟩ target res
          ((dataGroupsEnc gs).length + 1)
          ((dataGroupOffs 0 gs).getD res 0) [] = none) := by
    intro target res hres
    have hgres : gs[res] = gs.get ⟨res, hres⟩ := rfl
    have hE : (⟨dataGroupsEnc gs, dataGroupOffs 0 gs⟩ : DataBlockReader).entries =
        dataGroupsEnc (gs.take res) ++
          (chainEnc [] (gs.get ⟨res, hres⟩) ++ dataGroupsEnc (gs.drop (res + 1))) := by
      show dataGroupsEnc gs = _
      conv_lhs => rw [← List.take_append_drop res gs]
      rw [dataGroupsEnc_append, List.drop_eq_getElem_cons hres, hgres,
        dataGroupsEnc_cons]
    have hclen : (chainEnc [] (gs.get ⟨res, hres⟩)).length ≤ (dataGroupsEnc gs).length := by
      have h := congrArg List.length hE
      simp only [List.length_append] at h
      omega
    have hbnd : res + 1 < (dataGroupOffs 0 gs).length →
        (dataGroupOffs 0 gs).getD (res + 1) 0 =
          (dataGroupsEnc (gs.take res)).length +
            (chainEnc [] (gs.get ⟨res, hres⟩)).length := by
      intro h1
      rw [hoffslen] at h1
      rw [hoffsgetD (res + 1) h1]
      rw [List.take_succ, List.getElem?_eq_getElem hres, hgres]
      rw [show (some (gs.get ⟨res, hres⟩)).toList = [gs.get ⟨res, hres⟩] from rfl]
      rw [dataGroupsEnc_append, dataGroupsEnc_cons]
      rw [show dataGroupsEnc ([] : List (List (Bytes × Bytes))) = [] from rfl]
      simp only [List.length_append, List.length_nil]
      omega
    have hlast : ¬ (res + 1 < (dataGroupOffs 0 gs).length) →
        dataGroupsEnc (gs.drop (res + 1)) = [] := by
      intro h1
      rw [hoffslen] at h1
      rw [List.drop_eq_nil_of_le (by omega)]
      rfl
    have hkb : ∀ p ∈ gs.get ⟨res, hres⟩,
        (p : Bytes × Bytes).1.length < 2 ^ 32 ∧ p.2.length < 2 ^ 32 :=
      hbound _ (List.get_mem gs res hres)
    have hfuel : (gs.get ⟨res, hres⟩).length < (dataGroupsEnc gs).length + 1 := by
      have h1 := chainEnc_len_ge [] (gs.get ⟨res, hres⟩)
      omega
    have hchg : List.Chain' (· < ·) ((gs.get ⟨res, hres⟩).map Prod.fst) := by
      apply List.chain'_iff_pairwise.2
      apply List.pairwise_map.2
      exact hin _ (List.get_mem gs res hres)
    have h := scanGo_run ⟨dataGroupsEnc gs, dataGroupOffs 0 gs⟩ target res hElen
      (gs.get ⟨res, hres⟩) ((dataGroupsEnc gs).length + 1) []
      (dataGroupsEnc (gs.take res)) (dataGroupsEnc (gs.drop (res + 1)))
      hE hbnd hlast hkb hfuel hchg
    rw [show (dataGroupsEnc (gs.take res)).length =
      (dataGroupOffs 0 gs).getD res 0 from (hoffsgetD res hres).symm] at h
    exact h
  constructor
  · intro j hj target v hmem
    obtain ⟨res, heq, hres, h3, h4⟩ := hsearch target
    have hjle : groupKey gs j ≤ target := hfirstle j hj _ hmem
    have hresj : res = j := by
      by_contra hne2
      rcases Nat.lt_or_ge res j with hlt | hge
      · have := h3 j hlt (by omega)
        exact absurd hjle (not_le.2 this)
      · have hjlt : j < res := by omega
        obtain ⟨v0, grest, hg⟩ := groupKey_head_exists gs res hres hgne
        have hkres : target < groupKey gs res := by
          have := hcross' j res hj hres hjlt _ hmem _
            (by rw [hg]; exact List.mem_cons_self _ _)
          exact this
        rcases h4 with h40 | h4le
        · omega
        · exact absurd h4le (not_le.2 hkres)
    rw [DataBlockReader.Get]
    dsimp only
    rw [if_neg hne, rightmostLoop, heq]
    dsimp only
    subst hresj
    exact (hscan target res hres).1 v hmem
  · intro target hnone
    obtain ⟨res, heq, hres, h3, h4⟩ := hsearch target
    rw [DataBlockReader.Get]
    dsimp only
    rw [if_neg hne, rightmostLoop, heq]
    dsimp only
    exact (hscan target res hres).2
      (fun p hp => hnone _ (List.get_mem gs res hres) p hp)

/-- General data-block round trip: for any restart interval at least 1,
strictly increasing keys, and total encoded size within `uint32`,
building then reading finds every stored pair and misses every absent
key. -/
theorem c1_general (r : Nat) (hr : 1 ≤ r) (kvs : List (Bytes × Bytes))
    (hchain : List.Chain' (· < ·) (kvs.map Prod.fst))
    (hsum : (kvs.map (fun p => 12 + p.1.length + p.2.length)).sum < 2 ^ 32) :
    ∃ b', DataBlockBuilder.AddEntries (DataBlockBuilder.init r) kvs = .ok b' ∧
      ∃ rd, mkDataBlockReader b'.Finish.1 = some rd ∧
        (∀ k v, (k, v) ∈ kvs → rd.Get k = some v) ∧
        (∀ x : Bytes, (∀ p ∈ kvs, p.1 ≠ x) → rd.Get x = none) := by
  by_cases hnil : kvs = []
  · subst hnil
    refine ⟨DataBlockBuilder.init r, rfl, ⟨[], [0]⟩, ?_, ?_, ?_⟩
    · have hfin : (DataBlockBuilder.init r).Finish.1 =
          [] ++ ((([0] : List Nat).map putFixed32).flatten ++
            putFixed32 (([0] : List Nat).length % 2 ^ 32)) := by
        rw [DataBlockBuilder.init, DataBlockBuilder.Finish]
        simp
      rw [hfin]
      exact mkDataBlockReader_built [] [0] (by decide) (by decide)
    · intro k v hkv
      cases hkv
    · intro x _
      rfl
  · obtain ⟨b', hAE, hbuf, hrs, hfin'⟩ :=
      AddEntries_spec r kvs (DataBlockBuilder.init r) rfl rfl hchain (Or.inl rfl)
    simp only [DataBlockBuilder.init, List.nil_append, List.cons_append,
      List.length_nil] at hbuf hrs
    obtain ⟨hL1, hL2⟩ := dataLayout_init r hr kvs hnil
    have hflat : (dataGroups r kvs.length kvs).flatten = kvs :=
      dataGroups_flatten r hr kvs.length kvs (le_refl _)
    have hgne : ∀ g ∈ dataGroups r kvs.length kvs, g ≠ [] :=
      dataGroups_ne_nil r hr kvs.length kvs
    have hElen : (dataGroupsEnc (dataGroups r kvs.length kvs)).length < 2 ^ 32 := by
      have h1 := dataGroupsEnc_len_le (dataGroups r kvs.length kvs)
      rw [hflat] at h1
      omega
    have hgslen : (dataGroups r kvs.length kvs).length < 2 ^ 32 := by
      have h1 := length_le_flatten_length _ hgne
      rw [hflat] at h1
      have h2 := sum_ge_length kvs
      omega
    have hFin : b'.Finish.1 = dataGroupsEnc (dataGroups r kvs.length kvs) ++
        (((dataGroupOffs 0 (dataGroups r kvs.length kvs)).map putFixed32).flatten ++
          putFixed32 ((dataGroupOffs 0 (dataGroups r kvs.length kvs)).length % 2 ^ 32)) := by
      rw [DataBlockBuilder.Finish, if_neg (by simp [hfin'])]
      dsimp only
      rw [hbuf, hrs, hL1, hL2]
      simp [List.append_assoc]
    have hmk : mkDataBlockReader b'.Finish.1 =
        some ⟨dataGroupsEnc (dataGroups r kvs.length kvs),
          dataGroupOffs 0 (dataGroups r kvs.length kvs)⟩ := by
      rw [hFin]
      exact mkDataBlockReader_built _ _ (dataGroupOffs_lt _ 0)
        (by rw [dataGroupOffs_length]; exact hgslen)
    have hpkvs : List.Pairwise (fun p q : Bytes × Bytes => p.1 < q.1) kvs :=
      List.pairwise_map.1 (List.chain'_iff_pairwise.1 hchain)
    have hpflat : List.Pairwise (fun p q : Bytes × Bytes => p.1 < q.1)
        (dataGroups r kvs.length kvs).flatten := by
      rw [hflat]
      exact hpkvs
    obtain ⟨hin, hcross⟩ := List.pairwise_flatten.1 hpflat
    have hboundkv : ∀ p ∈ kvs, (p : Bytes × Bytes).1.length < 2 ^ 32 ∧
        p.2.length < 2 ^ 32 := by
      intro p hp
      have h1 : 12 + p.1.length + p.2.length ≤
          (kvs.map (fun q => 12 + q.1.length + q.2.length)).sum :=
        List.single_le_sum (fun x _ => Nat.zero_le x) _ (List.mem_map.2 ⟨p, hp, rfl⟩)
      omega
    have hboundg : ∀ g ∈ dataGroups r kvs.length kvs, ∀ p ∈ g,
        (p : Bytes × Bytes).1.length < 2 ^ 32 ∧ p.2.length < 2 ^ 32 := by
      intro g hg p hp
      exact hboundkv p (by rw [← hflat]; exact List.mem_flatten.2 ⟨g, hg, hp⟩)
    have hgsne : dataGroups r kvs.length kvs ≠ [] := by
      intro h
      exact hnil (by rw [← hflat, h]; rfl)
    obtain ⟨hfound, hmiss⟩ := dataGet_spec (dataGroups r kvs.length kvs)
      hgne hin hcross hboundg hElen hgsne
    refine ⟨b', hAE, _, hmk, ?_, ?_⟩
    · intro k v hkv
      have hmemf : (k, v) ∈ (dataGroups r kvs.length kvs).flatten := by
        rw [hflat]
        exact hkv
      obtain ⟨g, hg, hpg⟩ := List.mem_flatten.1 hmemf
      obtain ⟨j, hj, hgj⟩ := List.mem_iff_getElem.1 hg
      exact hfound j hj k v
        (by rw [show (dataGroups r kvs.length kvs).get ⟨j, hj⟩ = g from hgj]; exact hpg)
    · intro x hx
      exact hmiss x
        (fun g hg p hp => hx p (by rw [← hflat]; exact List.mem_flatten.2 ⟨g, hg, hp⟩))

/-- C1: for every strictly increasing key-value sequence (total encoded
size within the `uint32` limit, as the C++ size arithmetic presumes) and
every restart interval in {1, 2, 4, 16}, adding all pairs to a
`DataBlockBuilder`, finishing, and constructing a `DataBlockReader` on
the block succeeds, `Get` returns the stored value for every built key,
and `Get` returns not-found for every key not among the built keys. -/
theorem c1_data_block_roundtrip (r : Nat)
    (hr : r = 1 ∨ r = 2 ∨ r = 4 ∨ r = 16) (kvs : List (Bytes × Bytes))
    (hchain : List.Chain' (· < ·) (kvs.map Prod.fst))
    (hsum : (kvs.map (fun p => 12 + p.1.length + p.2.length)).sum < 2 ^ 32) :
    ∃ b', DataBlockBuilder.AddEntries (DataBlockBuilder.init r) kvs = .ok b' ∧
      ∃ rd, mkDataBlockReader b'.Finish.1 = some rd ∧
        (∀ k v, (k, v) ∈ kvs → rd.Get k = some v) ∧
        (∀ x : Bytes, (∀ p ∈ kvs, p.1 ≠ x) → rd.Get x = none) :=
  c1_general r (by rcases hr with rfl | rfl | rfl | rfl <;> norm_num) kvs hchain hsum

/-- Witness for C1: the three pairs `a ↦ [1]`, `b ↦ [2]`, `c ↦ [3]` with
restart interval 2. -/
theorem c1_data_block_roundtrip_witness :
    ((2 : Nat) = 1 ∨ (2 : Nat) = 2 ∨ (2 : Nat) = 4 ∨ (2 : Nat) = 16) ∧
    ∃ b', DataBlockBuilder.AddEntries (DataBlockBuilder.init 2)
        [(([97] : Bytes), ([1] : Bytes)), ([98], [2]), ([99], [3])] = .ok b' ∧
      ∃ rd, mkDataBlockReader b'.Finish.1 = some rd ∧
        (∀ k v, (k, v) ∈ [(([97] : Bytes), ([1] : Bytes)), ([98], [2]), ([99], [3])] →
          rd.Get k = some v) ∧
        (∀ x : Bytes,
          (∀ p ∈ [(([97] : Bytes), ([1] : Bytes)), ([98], [2]), ([99], [3])], p.1 ≠ x) →
          rd.Get x = none) :=
  ⟨Or.inr (Or.inl rfl),
    c1_data_block_roundtrip 2 (Or.inr (Or.inl rfl))
      [([97], [1]), ([98], [2]), ([99], [3])]
      (List.chain'_cons.2 ⟨by decide,
        List.chain'_cons.2 ⟨by decide, List.chain'_singleton _⟩⟩)
      (by decide)⟩

/-! ## C9: the skip list (src/src/memtable/skip_list.h)

Derived-pointer model.  A node stores its key, value and tower height
(`next_.size()`); the C++ pointer graph is a function of the bottom chain
and the heights: the level-`i` chain links exactly the nodes of height
`> i`, in bottom-chain order, and `head_->next_[i]` is the first such
node.  Each splice in `Insert`/`Put`/`Erase` rewires every level to
precisely these derived chains (each `update[i]` is the last level-`i`
node before the affected position), so the model tracks the bottom chain
and `level_` and reads the per-level links off the heights.  `randomLevel`
draws from a `std::mt19937`, modelled as an explicit parameter. -/

/-- A node: key, value, tower height. -/
structure SLNode where
  key : Bytes
  value : Bytes
  height : Nat
deriving DecidableEq, Repr

/-- Skip list state: bottom chain in order, `level_`, `max_level_`.
`size_` is the chain length. -/
structure SkipList where
  nodes : List SLNode
  level : Nat
  max_level : Nat
deriving DecidableEq, Repr

namespace SkipList

/-- The default-constructed list (`max_level = 16`, `level_ = 1`). -/
def init : SkipList := ⟨[], 1, 16⟩

/-- The first node at index `≥ idx` whose tower reaches above `lvl`
(the list argument is the bottom-chain suffix starting at `idx`). -/
def findTower : List SLNode → Nat → Nat → Option Nat
  | [], _, _ => none
  | n :: rest, lvl, idx =>
    if lvl < n.height then some idx else findTower rest lvl (idx + 1)

/-- `x->next_[lvl]` where `x` is the head (`none`) or the node at `i`. -/
def nextAt (nodes : List SLNode) (lvl : Nat) : Option Nat → Option Nat
  | none => findTower nodes lvl 0
  | some i => findTower (nodes.drop (i + 1)) lvl (i + 1)

/-- The key at index `i` (head reads give `[]`, never used). -/
def keyAtIdx (nodes : List SLNode) (i : Nat) : Bytes :=
  (nodes.getD i ⟨[], [], 0⟩).key

/-- The `while (x->next_[i] && x->next_[i]->key < target) x = x->next_[i]`
loop of the search routines; `nodes.length` fuel always suffices. -/
def advanceAt (nodes : List SLNode) (target : Bytes) (lvl : Nat) :
    Nat → Option Nat → Option Nat
  | 0, pos => pos
  | fuel + 1, pos =>
    match nextAt nodes lvl pos with
    | none => pos
    | some j =>
      if keyAtIdx nodes j < target then advanceAt nodes target lvl fuel (some j)
      else pos

/-- The top-down `for (int i = level_ - 1; i >= 0; --i)` walk of
`findGreaterOrEqual` (the argument counts the levels still to handle). -/
def fgeLoop (nodes : List SLNode) (target : Bytes) : Nat → Option Nat → Option Nat
  | 0, pos => pos
  | i + 1, pos => fgeLoop nodes target i (advanceAt nodes target i nodes.length pos)

/-- `findGreaterOrEqual`: the predecessor walk, then one bottom-level
step — the first node with `key ≥ target`, or `none`. -/
def findGreaterOrEqual (st : SkipList) (target : Bytes) : Option Nat :=
  nextAt st.nodes 0 (fgeLoop st.nodes target st.level none)

/-- SkipList::Contains. -/
def Contains (st : SkipList) (key : Bytes) : Bool :=
  match st.findGreaterOrEqual key with
  | none => false
  | some i => keyAtIdx st.nodes i = key

/-- SkipList::Get (the out-parameter becomes an `Option`). -/
def Get (st : SkipList) (key : Bytes) : Option Bytes :=
  match st.findGreaterOrEqual key with
  | none => none
  | some i =>
    if keyAtIdx st.nodes i = key then some (st.nodes.getD i ⟨[], [], 0⟩).value
    else none

/-- SkipList::Insert, with the `randomLevel()` outcome `lvl` explicit:
duplicate keys are rejected; otherwise the node is spliced in right
before the first `key ≥` node (at every level of its tower) and `level_`
rises to `lvl` when `lvl > level_`. -/
def Insert (st : SkipList) (key value : Bytes) (lvl : Nat) : Bool × SkipList :=
  match st.findGreaterOrEqual key with
  | some i =>
    if keyAtIdx st.nodes i = key then (false, st)
    else (true, ⟨st.nodes.insertIdx i ⟨key, value, lvl⟩, max st.level lvl, st.max_level⟩)
  | none =>
    (true, ⟨st.nodes ++ [⟨key, value, lvl⟩], max st.level lvl, st.max_level⟩)

/-- SkipList::Put: like `Insert`, but an existing key's value is
overwritten in place (returning `false`). -/
def Put (st : SkipList) (key value : Bytes) (lvl : Nat) : Bool × SkipList :=
  match st.findGreaterOrEqual key with
  | some i =>
    if keyAtIdx st.nodes i = key then
      (false, ⟨st.nodes.set i ⟨key, value, (st.nodes.getD i ⟨[], [], 0⟩).height⟩,
        st.level, st.max_level⟩)
    else (true, ⟨st.nodes.insertIdx i ⟨key, value, lvl⟩, max st.level lvl, st.max_level⟩)
  | none =>
    (true, ⟨st.nodes ++ [⟨key, value, lvl⟩], max st.level lvl, st.max_level⟩)

/-- The `while (level_ > 1 && head_->next_[level_ - 1] == nullptr)
--level_;` loop at the end of `Erase`. -/
def shrinkLevel (nodes : List SLNode) : Nat → Nat
  | 0 => 0
  | 1 => 1
  | l + 2 =>
    if nextAt nodes (l + 1) none = none then shrinkLevel nodes (l + 1) else l + 2

/-- SkipList::Erase: its own predecessor walk (the same traversal as
`findGreaterOrEqual`), then splice the node out of every level and shrink
`level_` while the top chain is empty. -/
def Erase (st : SkipList) (key : Bytes) : Bool × SkipList :=
  match nextAt st.nodes 0 (fgeLoop st.nodes key st.level none) with
  | none => (false, st)
  | some i =>
    if keyAtIdx st.nodes i = key then
      (true, ⟨st.nodes.eraseIdx i, shrinkLevel (st.nodes.eraseIdx i) st.level,
        st.max_level⟩)
    else (false, st)

/-- Forward iteration from `Begin()`: the bottom chain's keys in order. -/
def toKeys (st : SkipList) : List Bytes := st.nodes.map SLNode.key

/-- `size()`. -/
def size (st : SkipList) : Nat := st.nodes.length

theorem findTower_some : ∀ (l : List SLNode) (lvl s j : Nat),
    findTower l lvl s = some j → s ≤ j ∧ j - s < l.length := by
  intro l
  induction l with
  | nil => intro lvl s j h; cases h
  | cons n rest ih =>
    intro lvl s j h
    by_cases hn : lvl < n.height
    · rw [findTower, if_pos hn] at h
      cases h
      simp only [List.length_cons]
      omega
    · rw [findTower, if_neg hn] at h
      have := ih lvl (s + 1) j h
      simp only [List.length_cons]
      omega

/-- At level 0 every node is in the chain (towers have height ≥ 1), so
`findTower` returns its starting index whenever any node remains. -/
theorem findTower_zero (l : List SLNode) (h1 : ∀ n ∈ l, 1 ≤ n.height) (s : Nat) :
    findTower l 0 s = if l.length = 0 then none else some s := by
  cases l with
  | nil => rfl
  | cons n rest =>
    rw [findTower, if_pos (by have := h1 n (List.mem_cons_self _ _); omega)]
    simp

theorem nextAt_zero_none (nodes : List SLNode) (h1 : ∀ n ∈ nodes, 1 ≤ n.height) :
    nextAt nodes 0 none = if nodes.length = 0 then none else some 0 := by
  rw [nextAt]
  exact findTower_zero nodes h1 0

theorem nextAt_zero_some (nodes : List SLNode) (h1 : ∀ n ∈ nodes, 1 ≤ n.height)
    (i : Nat) :
    nextAt nodes 0 (some i) = if nodes.length ≤ i + 1 then none else some (i + 1) := by
  rw [nextAt]
  have h2 : ∀ n ∈ nodes.drop (i + 1), 1 ≤ n.height :=
    fun n hn => h1 n (List.mem_of_mem_drop hn)
  rw [findTower_zero _ h2 (i + 1), List.length_drop]
  by_cases h : nodes.length ≤ i + 1
  · rw [if_pos (by omega), if_pos h]
  · rw [if_neg (by omega), if_neg h]

theorem nextAt_some (nodes : List SLNode) (lvl : Nat) (pos : Option Nat) (j : Nat)
    (h : nextAt nodes lvl pos = some j) :
    j < nodes.length ∧ ∀ i, pos = some i → i < j := by
  match pos with
  | none =>
    rw [nextAt] at h
    have := findTower_some nodes lvl 0 j h
    exact ⟨by omega, fun i hi => by cases hi⟩
  | some i =>
    rw [nextAt] at h
    have := findTower_some _ lvl (i + 1) j h
    rw [List.length_drop] at this
    refine ⟨by omega, fun i' hi' => ?_⟩
    cases hi'
    omega

/-- The bottom-level advance loop lands exactly on the last node with
`key < target` (`c` counts those nodes; the list is sorted around `c`). -/
theorem advanceAt_zero (nodes : List SLNode) (target : Bytes) (c : Nat)
    (h1 : ∀ n ∈ nodes, 1 ≤ n.height)
    (hc : c ≤ nodes.length)
    (hlt : ∀ j, j < c → keyAtIdx nodes j < target)
    (hge : ∀ j, c ≤ j → j < nodes.length → ¬ keyAtIdx nodes j < target) :
    ∀ (fuel : Nat) (pos : Option Nat),
      (pos = none ∧ c ≤ fuel) ∨ (∃ i, pos = some i ∧ i < c ∧ c - i - 1 ≤ fuel) →
      advanceAt nodes target 0 fuel pos = if c = 0 then none else some (c - 1) := by
  intro fuel
  induction fuel with
  | zero =>
    intro pos hpos
    rcases hpos with ⟨rfl, hc0⟩ | ⟨i, rfl, hic, hf⟩
    · rw [advanceAt, if_pos (by omega : c = 0)]
    · rw [advanceAt, if_neg (by omega : ¬ c = 0)]
      exact congrArg some (by omega)
  | succ f ih =>
    intro pos hpos
    rcases hpos with ⟨rfl, hcf⟩ | ⟨i, rfl, hic, hf⟩
    · rw [advanceAt, nextAt_zero_none nodes h1]
      by_cases hn : nodes.length = 0
      · rw [if_pos hn]
        dsimp only
        rw [if_pos (by omega)]
      · rw [if_neg hn]
        dsimp only
        by_cases hc0 : c = 0
        · rw [if_neg (hge 0 (by omega) (by omega)), if_pos hc0]
        · rw [if_pos (hlt 0 (by omega))]
          exact ih (some 0) (Or.inr ⟨0, rfl, by omega, by omega⟩)
    · rw [advanceAt, nextAt_zero_some nodes h1 i]
      by_cases hend : nodes.length ≤ i + 1
      · rw [if_pos hend]
        dsimp only
        rw [if_neg (by omega)]
        exact congrArg some (by omega)
      · rw [if_neg hend]
        dsimp only
        by_cases hnext : i + 1 < c
        · rw [if_pos (hlt (i + 1) hnext)]
          exact ih (some (i + 1)) (Or.inr ⟨i + 1, rfl, hnext, by omega⟩)
        · rw [if_neg (hge (i + 1) (by omega) (by omega)), if_neg (by omega)]
          exact congrArg some (by omega)

/-- Upper-level advance loops stay among the head and the nodes with
`key < target`. -/
theorem advanceAt_allowed (nodes : List SLNode) (target : Bytes) (lvl c : Nat)
    (hge : ∀ j, c ≤ j → j < nodes.length → ¬ keyAtIdx nodes j < target) :
    ∀ (fuel : Nat) (pos : Option Nat),
      (pos = none ∨ ∃ i, pos = some i ∧ i < c) →
      (advanceAt nodes target lvl fuel pos = none ∨
        ∃ i, advanceAt nodes target lvl fuel pos = some i ∧ i < c) := by
  intro fuel
  induction fuel with
  | zero =>
    intro pos h
    rw [advanceAt]
    exact h
  | succ f ih =>
    intro pos h
    rw [advanceAt]
    rcases hn : nextAt nodes lvl pos with _ | j
    · dsimp only
      exact h
    · dsimp only
      by_cases hk : keyAtIdx nodes j < target
      · rw [if_pos hk]
        apply ih
        right
        refine ⟨j, rfl, ?_⟩
        by_contra hjc
        push_neg at hjc
        exact absurd hk (hge j hjc (nextAt_some nodes lvl pos j hn).1)
      · rw [if_neg hk]
        exact h

/-- The whole top-down walk ends on the last node with `key < target`. -/
theorem fgeLoop_exact (nodes : List SLNode) (target : Bytes) (c : Nat)
    (h1 : ∀ n ∈ nodes, 1 ≤ n.height)
    (hc : c ≤ nodes.length)
    (hlt : ∀ j, j < c → keyAtIdx nodes j < target)
    (hge : ∀ j, c ≤ j → j < nodes.length → ¬ keyAtIdx nodes j < target) :
    ∀ (i : Nat), 1 ≤ i → ∀ pos, (pos = none ∨ ∃ k, pos = some k ∧ k < c) →
      fgeLoop nodes target i pos = if c = 0 then none else some (c - 1) := by
  intro i
  induction i with
  | zero => intro h; omega
  | succ i ih =>
    intro _ pos hpos
    rw [fgeLoop]
    by_cases hi : i = 0
    · subst hi
      rw [fgeLoop]
      apply advanceAt_zero nodes target c h1 hc hlt hge nodes.length pos
      rcases hpos with rfl | ⟨k, rfl, hk⟩
      · exact Or.inl ⟨rfl, by omega⟩
      · exact Or.inr ⟨k, rfl, hk, by omega⟩
    · exact ih (by omega) _
        (advanceAt_allowed nodes target i c hge nodes.length pos hpos)

/-- `findGreaterOrEqual` returns the index of the first node with
`key ≥ target` (`c` of the reader's nodes precede it), or `none`. -/
theorem fge_spec (st : SkipList) (target : Bytes) (c : Nat)
    (h1 : ∀ n ∈ st.nodes, 1 ≤ n.height)
    (hlevel : 1 ≤ st.level)
    (hc : c ≤ st.nodes.length)
    (hlt : ∀ j, j < c → keyAtIdx st.nodes j < target)
    (hge : ∀ j, c ≤ j → j < st.nodes.length → ¬ keyAtIdx st.nodes j < target) :
    st.findGreaterOrEqual target = if c < st.nodes.length then some c else none := by
  rw [findGreaterOrEqual,
    fgeLoop_exact st.nodes target c h1 hc hlt hge st.level hlevel none (Or.inl rfl)]
  by_cases hc0 : c = 0
  · subst hc0
    rw [if_pos rfl, nextAt_zero_none st.nodes h1]
    by_cases hn : st.nodes.length = 0
    · rw [if_pos hn, if_neg (by omega)]
    · rw [if_neg hn, if_pos (by omega)]
  · rw [if_neg hc0, nextAt_zero_some st.nodes h1]
    by_cases hend : st.nodes.length ≤ (c - 1) + 1
    · rw [if_pos hend, if_neg (by omega)]
    · rw [if_neg hend, if_pos (by omega)]
      exact congrArg some (by omega)

/-- Converts the decidable per-index height bound into the membership
form the traversal lemmas use. -/
theorem heights_of_getD (nodes : List SLNode)
    (h : ∀ j, j < nodes.length → 1 ≤ (nodes.getD j ⟨[], [], 0⟩).height) :
    ∀ n ∈ nodes, 1 ≤ n.height := by
  intro n hn
  obtain ⟨j, hj, hgj⟩ := List.mem_iff_getElem.1 hn
  have hx := h j hj
  rw [List.getD_eq_getElem _ _ hj, hgj] at hx
  exact hx

theorem shrinkLevel_ge_one (nodes : List SLNode) :
    ∀ l : Nat, 1 ≤ l → 1 ≤ shrinkLevel nodes l := by
  intro l
  induction l with
  | zero => intro h; omega
  | succ l ih =>
    intro _
    match l with
    | 0 => rw [shrinkLevel]
    | l' + 1 =>
      rw [shrinkLevel]
      split
      · exact ih (by omega)
      · omega

theorem insertIdx_self (l : List SLNode) (a : SLNode) :
    l.insertIdx l.length a = l ++ [a] := by
  induction l with
  | nil => rfl
  | cons x xs ih => simp [List.insertIdx_succ_cons, ih]

/-- `Insert` of an absent key: the node enters right before the first
`key ≥` node (index `c`) and `level_` rises to `lvl` when needed. -/
theorem Insert_fresh (st : SkipList) (key value : Bytes) (lvl c : Nat)
    (h1 : ∀ n ∈ st.nodes, 1 ≤ n.height)
    (hlevel : 1 ≤ st.level)
    (hc : c ≤ st.nodes.length)
    (hlt : ∀ j, j < c → keyAtIdx st.nodes j < key)
    (hge : ∀ j, j < st.nodes.length → c ≤ j → ¬ keyAtIdx st.nodes j < key)
    (hne : c < st.nodes.length → ¬ keyAtIdx st.nodes c = key) :
    st.Insert key value lvl =
      (true, ⟨st.nodes.insertIdx c ⟨key, value, lvl⟩, max st.level lvl,
        st.max_level⟩) := by
  rw [Insert, fge_spec st key c h1 hlevel hc hlt (fun j hcj hjl => hge j hjl hcj)]
  by_cases hlen : c < st.nodes.length
  · rw [if_pos hlen]
    dsimp only
    rw [if_neg (hne hlen)]
  · rw [if_neg hlen]
    dsimp only
    have hceq : c = st.nodes.length := by omega
    subst hceq
    rw [insertIdx_self]

/-- `Put` of an absent key behaves like `Insert`. -/
theorem Put_fresh (st : SkipList) (key value : Bytes) (lvl c : Nat)
    (h1 : ∀ n ∈ st.nodes, 1 ≤ n.height)
    (hlevel : 1 ≤ st.level)
    (hc : c ≤ st.nodes.length)
    (hlt : ∀ j, j < c → keyAtIdx st.nodes j < key)
    (hge : ∀ j, j < st.nodes.length → c ≤ j → ¬ keyAtIdx st.nodes j < key)
    (hne : c < st.nodes.length → ¬ keyAtIdx st.nodes c = key) :
    st.Put key value lvl =
      (true, ⟨st.nodes.insertIdx c ⟨key, value, lvl⟩, max st.level lvl,
        st.max_level⟩) := by
  rw [Put, fge_spec st key c h1 hlevel hc hlt (fun j hcj hjl => hge j hjl hcj)]
  by_cases hlen : c < st.nodes.length
  · rw [if_pos hlen]
    dsimp only
    rw [if_neg (hne hlen)]
  · rw [if_neg hlen]
    dsimp only
    have hceq : c = st.nodes.length := by omega
    subst hceq
    rw [insertIdx_self]

/-- `Put` of a present key overwrites the value in place and reports an
overwrite (`false`). -/
theorem Put_overwrite (st : SkipList) (key value : Bytes) (lvl c : Nat)
    (h1 : ∀ n ∈ st.nodes, 1 ≤ n.height)
    (hlevel : 1 ≤ st.level)
    (hclen : c < st.nodes.length)
    (hlt : ∀ j, j < c → keyAtIdx st.nodes j < key)
    (hge : ∀ j, j < st.nodes.length → c ≤ j → ¬ keyAtIdx st.nodes j < key)
    (heq : keyAtIdx st.nodes c = key) :
    st.Put key value lvl =
      (false, ⟨st.nodes.set c ⟨key, value, (st.nodes.getD c ⟨[], [], 0⟩).height⟩,
        st.level, st.max_level⟩) := by
  rw [Put, fge_spec st key c h1 hlevel (by omega) hlt (fun j hcj hjl => hge j hjl hcj), if_pos hclen]
  dsimp only
  rw [if_pos heq]

/-- `Get` of a present key returns its value. -/
theorem Get_found (st : SkipList) (key : Bytes) (c : Nat)
    (h1 : ∀ n ∈ st.nodes, 1 ≤ n.height)
    (hlevel : 1 ≤ st.level)
    (hclen : c < st.nodes.length)
    (hlt : ∀ j, j < c → keyAtIdx st.nodes j < key)
    (hge : ∀ j, j < st.nodes.length → c ≤ j → ¬ keyAtIdx st.nodes j < key)
    (heq : keyAtIdx st.nodes c = key) :
    st.Get key = some (st.nodes.getD c ⟨[], [], 0⟩).value := by
  rw [Get, fge_spec st key c h1 hlevel (by omega) hlt (fun j hcj hjl => hge j hjl hcj), if_pos hclen]
  dsimp only
  rw [if_pos heq]

/-- `Get` of an absent key returns nothing. -/
theorem Get_miss (st : SkipList) (key : Bytes) (c : Nat)
    (h1 : ∀ n ∈ st.nodes, 1 ≤ n.height)
    (hlevel : 1 ≤ st.level)
    (hc : c ≤ st.nodes.length)
    (hlt : ∀ j, j < c → keyAtIdx st.nodes j < key)
    (hge : ∀ j, j < st.nodes.length → c ≤ j → ¬ keyAtIdx st.nodes j < key)
    (hne : c < st.nodes.length → ¬ keyAtIdx st.nodes c = key) :
    st.Get key = none := by
  rw [Get, fge_spec st key c h1 hlevel hc hlt (fun j hcj hjl => hge j hjl hcj)]
  by_cases hlen : c < st.nodes.length
  · rw [if_pos hlen]
    dsimp only
    rw [if_neg (hne hlen)]
  · rw [if_neg hlen]

/-- `Erase` of an absent key reports `false` and leaves the list as is. -/
theorem Erase_miss (st : SkipList) (key : Bytes) (c : Nat)
    (h1 : ∀ n ∈ st.nodes, 1 ≤ n.height)
    (hlevel : 1 ≤ st.level)
    (hc : c ≤ st.nodes.length)
    (hlt : ∀ j, j < c → keyAtIdx st.nodes j < key)
    (hge : ∀ j, j < st.nodes.length → c ≤ j → ¬ keyAtIdx st.nodes j < key)
    (hne : c < st.nodes.length → ¬ keyAtIdx st.nodes c = key) :
    st.Erase key = (false, st) := by
  rw [Erase,
    show nextAt st.nodes 0 (fgeLoop st.nodes key st.level none) =
      findGreaterOrEqual st key from rfl,
    fge_spec st key c h1 hlevel hc hlt (fun j hcj hjl => hge j hjl hcj)]
  by_cases hlen : c < st.nodes.length
  · rw [if_pos hlen]
    dsimp only
    rw [if_neg (hne hlen)]
  · rw [if_neg hlen]

/-- `Erase` of a present key removes its node and shrinks `level_`. -/
theorem Erase_hit (st : SkipList) (key : Bytes) (c : Nat)
    (h1 : ∀ n ∈ st.nodes, 1 ≤ n.height)
    (hlevel : 1 ≤ st.level)
    (hclen : c < st.nodes.length)
    (hlt : ∀ j, j < c → keyAtIdx st.nodes j < key)
    (hge : ∀ j, j < st.nodes.length → c ≤ j → ¬ keyAtIdx st.nodes j < key)
    (heq : keyAtIdx st.nodes c = key) :
    st.Erase key =
      (true, ⟨st.nodes.eraseIdx c, shrinkLevel (st.nodes.eraseIdx c) st.level,
        st.max_level⟩) := by
  rw [Erase,
    show nextAt st.nodes 0 (fgeLoop st.nodes key st.level none) =
      findGreaterOrEqual st key from rfl,
    fge_spec st key c h1 hlevel (by omega) hlt (fun j hcj hjl => hge j hjl hcj), if_pos hclen]
  dsimp only
  rw [if_pos heq]

end SkipList


/-- The keys of scenario S7 (byte lists of the ASCII words). -/
def kalpha : Bytes := [97, 108, 112, 104, 97]

def kbravo : Bytes := [98, 114, 97, 118, 111]

def kcharlie : Bytes := [99, 104, 97, 114, 108, 105, 101]

def kdelta : Bytes := [100, 101, 108, 116, 97]

def kecho : Bytes := [101, 99, 104, 111]

def kfoxtrot : Bytes := [102, 111, 120, 116, 114, 111, 116]

/-- C9 (amended): for every sequence of `randomLevel` outcomes (each in
`[1, 16]`, written `m + 1`), scenario S7 behaves as follows.  Inserting
`delta, alpha, charlie, bravo, echo, foxtrot` makes forward iteration
yield the sorted keys.  `put("x","100")` then `put("x","101")` reports an
insert then an overwrite and leaves a single entry with `get("x") =
"101"`.  The six-key list never contained the key `"b"` (only the full
word `"bravo"`), so *both* calls of `erase("b")` on it return `false` —
not `true` then `false` as the claim states.  The true-then-false pattern
belongs to the unit test (`Erase_Basic`) that first inserts `"a"`, `"b"`,
`"c"`: on that list `erase("b")` returns `true` then `false`. -/
theorem c9_skip_list_ordered_ops
    (m1 m2 m3 m4 m5 m6 mx1 mx2 ma mb mc : Nat)
    (hmax : ∀ m ∈ [m1, m2, m3, m4, m5, m6, mx1, mx2, ma, mb, mc], m + 1 ≤ 16) :
    SkipList.toKeys ((((((SkipList.init.Insert kdelta [52] (m1 + 1)).2.Insert kalpha [49] (m2 + 1)).2.Insert kcharlie [51] (m3 + 1)).2.Insert kbravo [50] (m4 + 1)).2.Insert kecho [53] (m5 + 1)).2.Insert kfoxtrot [54] (m6 + 1)).2 =
      [kalpha, kbravo, kcharlie, kdelta, kecho, kfoxtrot] ∧
    ((SkipList.init.Put [120] [49, 48, 48] (mx1 + 1)).1 = true ∧
      ((SkipList.init.Put [120] [49, 48, 48] (mx1 + 1)).2.Put [120] [49, 48, 49] (mx2 + 1)).1 = false ∧
      SkipList.size ((SkipList.init.Put [120] [49, 48, 48] (mx1 + 1)).2.Put [120] [49, 48, 49] (mx2 + 1)).2 = 1 ∧
      SkipList.Get ((SkipList.init.Put [120] [49, 48, 48] (mx1 + 1)).2.Put [120] [49, 48, 49] (mx2 + 1)).2 [120] = some [49, 48, 49]) ∧
    ((((((((SkipList.init.Insert kdelta [52] (m1 + 1)).2.Insert kalpha [49] (m2 + 1)).2.Insert kcharlie [51] (m3 + 1)).2.Insert kbravo [50] (m4 + 1)).2.Insert kecho [53] (m5 + 1)).2.Insert kfoxtrot [54] (m6 + 1)).2.Erase [98]).1 = false ∧
      ((((((((SkipList.init.Insert kdelta [52] (m1 + 1)).2.Insert kalpha [49] (m2 + 1)).2.Insert kcharlie [51] (m3 + 1)).2.Insert kbravo [50] (m4 + 1)).2.Insert kecho [53] (m5 + 1)).2.Insert kfoxtrot [54] (m6 + 1)).2.Erase [98]).2.Erase [98]).1 = false) ∧
    (((((SkipList.init.Insert [97] [49] (ma + 1)).2.Insert [98] [50] (mb + 1)).2.Insert [99] [51] (mc + 1)).2.Erase [98]).1 = true ∧
      (((((SkipList.init.Insert [97] [49] (ma + 1)).2.Insert [98] [50] (mb + 1)).2.Insert [99] [51] (mc + 1)).2.Erase [98]).2.Erase [98]).1 = false) := by
  have e1 : SkipList.init.Insert kdelta [52] (m1 + 1) = (true, (⟨[⟨kdelta, [52], m1 + 1⟩], max 1 (m1 + 1), 16⟩ : SkipList)) := by
    rw [SkipList.Insert_fresh _ kdelta [52] (m1 + 1) 0
      (SkipList.heights_of_getD _ (by decide))
      (by decide)
      (by decide)
      (by decide)
      (by decide)
      (by decide)]
    rfl
  have e2 : (⟨[⟨kdelta, [52], m1 + 1⟩], max 1 (m1 + 1), 16⟩ : SkipList).Insert kalpha [49] (m2 + 1) = (true, (⟨[⟨kalpha, [49], m2 + 1⟩, ⟨kdelta, [52], m1 + 1⟩], max (max 1 (m1 + 1)) (m2 + 1), 16⟩ : SkipList)) := by
    rw [SkipList.Insert_fresh _ kalpha [49] (m2 + 1) 0
      (SkipList.heights_of_getD _ (by
      intro j hj
      simp only [List.length_cons, List.length_nil] at hj
      interval_cases j <;> simp only [List.getD_cons_zero, List.getD_cons_succ] <;> omega))
      (by dsimp only; omega)
      (by simp only [List.length_cons, List.length_nil]; omega)
      (by intro j hj; omega)
      (by
      intro j hj hcj
      simp only [List.length_cons, List.length_nil] at hj
      interval_cases j <;>
        first
          | omega
          | (simp only [SkipList.keyAtIdx, List.getD_cons_zero, List.getD_cons_succ]
             decide))
      (by
      intro hx
      simp only [SkipList.keyAtIdx, List.getD_cons_zero, List.getD_cons_succ]
      decide)]
    rfl
  have e3 : (⟨[⟨kalpha, [49], m2 + 1⟩, ⟨kdelta, [52], m1 + 1⟩], max (max 1 (m1 + 1)) (m2 + 1), 16⟩ : SkipList).Insert kcharlie [51] (m3 + 1) = (true, (⟨[⟨kalpha, [49], m2 + 1⟩, ⟨kcharlie, [51], m3 + 1⟩, ⟨kdelta, [52], m1 + 1⟩], max (max (max 1 (m1 + 1)) (m2 + 1)) (m3 + 1), 16⟩ : SkipList)) := by
    rw [SkipList.Insert_fresh _ kcharlie [51] (m3 + 1) 1
      (SkipList.heights_of_getD _ (by
      intro j hj
      simp only [List.length_cons, List.length_nil] at hj
      interval_cases j <;> simp only [List.getD_cons_zero, List.getD_cons_succ] <;> omega))
      (by dsimp only; omega)
      (by simp only [List.length_cons, List.length_nil]; omega)
      (by
      intro j hj
      interval_cases j <;>
        simp only [SkipList.keyAtIdx, List.getD_cons_zero, List.getD_cons_succ] <;> decide)
      (by
      intro j hj hcj
      simp only [List.length_cons, List.length_nil] at hj
      interval_cases j <;>
        first
          | omega
          | (simp only [SkipList.keyAtIdx, List.getD_cons_zero, List.getD_cons_succ]
             decide))
      (by
      intro hx
      simp only [SkipList.keyAtIdx, List.getD_cons_zero, List.getD_cons_succ]
      decide)]
    rfl
  have e4 : (⟨[⟨kalpha, [49], m2 + 1⟩, ⟨kcharlie, [51], m3 + 1⟩, ⟨kdelta, [52], m1 + 1⟩], max (max (max 1 (m1 + 1)) (m2 + 1)) (m3 + 1), 16⟩ : SkipList).Insert kbravo [50] (m4 + 1) = (true, (⟨[⟨kalpha, [49], m2 + 1⟩, ⟨kbravo, [50], m4 + 1⟩, ⟨kcharlie, [51], m3 + 1⟩, ⟨kdelta, [52], m1 + 1⟩], max (max (max (max 1 (m1 + 1)) (m2 + 1)) (m3 + 1)) (m4 + 1), 16⟩ : SkipList)) := by
    rw [SkipList.Insert_fresh _ kbravo [50] (m4 + 1) 1
      (SkipList.heights_of_getD _ (by
      intro j hj
      simp only [List.length_cons, List.length_nil] at hj
      interval_cases j <;> simp only [List.getD_cons_zero, List.getD_cons_succ] <;> omega))
      (by dsimp only; omega)
      (by simp only [List.length_cons, List.length_nil]; omega)
      (by
      intro j hj
      interval_cases j <;>
        simp only [SkipList.keyAtIdx, List.getD_cons_zero, List.getD_cons_succ] <;> decide)
      (by
      intro j hj hcj
      simp only [List.length_cons, List.length_nil] at hj
      interval_cases j <;>
        first
          | omega
          | (simp only [SkipList.keyAtIdx, List.getD_cons_zero, List.getD_cons_succ]
             decide))
      (by
      intro hx
      simp only [SkipList.keyAtIdx, List.getD_cons_zero, List.getD_cons_succ]
      decide)]
    rfl
  have e5 : (⟨[⟨kalpha, [49], m2 + 1⟩, ⟨kbravo, [50], m4 + 1⟩, ⟨kcharlie, [51], m3 + 1⟩, ⟨kdelta, [52], m1 + 1⟩], max (max (max (max 1 (m1 + 1)) (m2 + 1)) (m3 + 1)) (m4 + 1), 16⟩ : SkipList).Insert kecho [53] (m5 + 1) = (true, (⟨[⟨kalpha, [49], m2 + 1⟩, ⟨kbravo, [50], m4 + 1⟩, ⟨kcharlie, [51], m3 + 1⟩, ⟨kdelta, [52], m1 + 1⟩, ⟨kecho, [53], m5 + 1⟩], max (max (max (max (max 1 (m1 + 1)) (m2 + 1)) (m3 + 1)) (m4 + 1)) (m5 + 1), 16⟩ : SkipList)) := by
    rw [SkipList.Insert_fresh _ kecho [53] (m5 + 1) 4
      (SkipList.heights_of_getD _ (by
      intro j hj
      simp only [List.length_cons, List.length_nil] at hj
      interval_cases j <;> simp only [List.getD_cons_zero, List.getD_cons_succ] <;> omega))
      (by dsimp only; omega)
      (by simp only [List.length_cons, List.length_nil]; omega)
      (by
      intro j hj
      interval_cases j <;>
        simp only [SkipList.keyAtIdx, List.getD_cons_zero, List.getD_cons_succ] <;> decide)
      (by
      intro j hj hcj
      simp only [List.length_cons, List.length_nil] at hj
      omega)
      (by
      intro hx
      simp only [List.length_cons, List.length_nil] at hx
      omega)]
    rfl
  have e6 : (⟨[⟨kalpha, [49], m2 + 1⟩, ⟨kbravo, [50], m4 + 1⟩, ⟨kcharlie, [51], m3 + 1⟩, ⟨kdelta, [52], m1 + 1⟩, ⟨kecho, [53], m5 + 1⟩], max (max (max (max (max 1 (m1 + 1)) (m2 + 1)) (m3 + 1)) (m4 + 1)) (m5 + 1), 16⟩ : SkipList).Insert kfoxtrot [54] (m6 + 1) = (true, (⟨[⟨kalpha, [49], m2 + 1⟩, ⟨kbravo, [50], m4 + 1⟩, ⟨kcharlie, [51], m3 + 1⟩, ⟨kdelta, [52], m1 + 1⟩, ⟨kecho, [53], m5 + 1⟩, ⟨kfoxtrot, [54], m6 + 1⟩], max (max (max (max (max (max 1 (m1 + 1)) (m2 + 1)) (m3 + 1)) (m4 + 1)) (m5 + 1)) (m6 + 1), 16⟩ : SkipList)) := by
    rw [SkipList.Insert_fresh _ kfoxtrot [54] (m6 + 1) 5
      (SkipList.heights_of_getD _ (by
      intro j hj
      simp only [List.length_cons, List.length_nil] at hj
      interval_cases j <;> simp only [List.getD_cons_zero, List.getD_cons_succ] <;> omega))
      (by dsimp only; omega)
      (by simp only [List.length_cons, List.length_nil]; omega)
      (by
      intro j hj
      interval_cases j <;>
        simp only [SkipList.keyAtIdx, List.getD_cons_zero, List.getD_cons_succ] <;> decide)
      (by
      intro j hj hcj
      simp only [List.length_cons, List.length_nil] at hj
      omega)
      (by
      intro hx
      simp only [List.length_cons, List.length_nil] at hx
      omega)]
    rfl
  have p1 : SkipList.init.Put [120] [49, 48, 48] (mx1 + 1) = (true, (⟨[⟨[120], [49, 48, 48], mx1 + 1⟩], max 1 (mx1 + 1), 16⟩ : SkipList)) := by
    rw [SkipList.Put_fresh _ [120] [49, 48, 48] (mx1 + 1) 0
      (SkipList.heights_of_getD _ (by decide))
      (by decide)
      (by decide)
      (by decide)
      (by decide)
      (by decide)]
    rfl
  have p2 : (⟨[⟨[120], [49, 48, 48], mx1 + 1⟩], max 1 (mx1 + 1), 16⟩ : SkipList).Put [120] [49, 48, 49] (mx2 + 1) = (false, (⟨[⟨[120], [49, 48, 49], mx1 + 1⟩], max 1 (mx1 + 1), 16⟩ : SkipList)) := by
    rw [SkipList.Put_overwrite _ [120] [49, 48, 49] (mx2 + 1) 0
      (SkipList.heights_of_getD _ (by
      intro j hj
      simp only [List.length_cons, List.length_nil] at hj
      interval_cases j <;> simp only [List.getD_cons_zero, List.getD_cons_succ] <;> omega))
      (by dsimp only; omega)
      (by simp only [List.length_cons, List.length_nil]; omega)
      (by intro j hj; omega)
      (by
      intro j hj hcj
      simp only [List.length_cons, List.length_nil] at hj
      interval_cases j <;>
        first
          | omega
          | (simp only [SkipList.keyAtIdx, List.getD_cons_zero, List.getD_cons_succ]
             decide))
      (by simp [SkipList.keyAtIdx])]
    rfl
  have g : SkipList.Get (⟨[⟨[120], [49, 48, 49], mx1 + 1⟩], max 1 (mx1 + 1), 16⟩ : SkipList) [120] = some [49, 48, 49] := by
    rw [SkipList.Get_found _ [120] 0
      (SkipList.heights_of_getD _ (by
      intro j hj
      simp only [List.length_cons, List.length_nil] at hj
      interval_cases j <;> simp only [List.getD_cons_zero, List.getD_cons_succ] <;> omega))
      (by dsimp only; omega)
      (by simp only [List.length_cons, List.length_nil]; omega)
      (by intro j hj; omega)
      (by
      intro j hj hcj
      simp only [List.length_cons, List.length_nil] at hj
      interval_cases j <;>
        first
          | omega
          | (simp only [SkipList.keyAtIdx, List.getD_cons_zero, List.getD_cons_succ]
             decide))
      (by simp [SkipList.keyAtIdx])]
    rfl
  have eb6 : (⟨[⟨kalpha, [49], m2 + 1⟩, ⟨kbravo, [50], m4 + 1⟩, ⟨kcharlie, [51], m3 + 1⟩, ⟨kdelta, [52], m1 + 1⟩, ⟨kecho, [53], m5 + 1⟩, ⟨kfoxtrot, [54], m6 + 1⟩], max (max (max (max (max (max 1 (m1 + 1)) (m2 + 1)) (m3 + 1)) (m4 + 1)) (m5 + 1)) (m6 + 1), 16⟩ : SkipList).Erase [98] = (false, (⟨[⟨kalpha, [49], m2 + 1⟩, ⟨kbravo, [50], m4 + 1⟩, ⟨kcharlie, [51], m3 + 1⟩, ⟨kdelta, [52], m1 + 1⟩, ⟨kecho, [53], m5 + 1⟩, ⟨kfoxtrot, [54], m6 + 1⟩], max (max (max (max (max (max 1 (m1 + 1)) (m2 + 1)) (m3 + 1)) (m4 + 1)) (m5 + 1)) (m6 + 1), 16⟩ : SkipList)) := by
    rw [SkipList.Erase_miss _ [98] 1
      (SkipList.heights_of_getD _ (by
      intro j hj
      simp only [List.length_cons, List.length_nil] at hj
      interval_cases j <;> simp only [List.getD_cons_zero, List.getD_cons_succ] <;> omega))
      (by dsimp only; omega)
      (by simp only [List.length_cons, List.length_nil]; omega)
      (by
      intro j hj
      interval_cases j <;>
        simp only [SkipList.keyAtIdx, List.getD_cons_zero, List.getD_cons_succ] <;> decide)
      (by
      intro j hj hcj
      simp only [List.length_cons, List.length_nil] at hj
      interval_cases j <;>
        first
          | omega
          | (simp only [SkipList.keyAtIdx, List.getD_cons_zero, List.getD_cons_succ]
             decide))
      (by
      intro hx
      simp only [SkipList.keyAtIdx, List.getD_cons_zero, List.getD_cons_succ]
      decide)]
  have a1 : SkipList.init.Insert [97] [49] (ma + 1) = (true, (⟨[⟨[97], [49], ma + 1⟩], max 1 (ma + 1), 16⟩ : SkipList)) := by
    rw [SkipList.Insert_fresh _ [97] [49] (ma + 1) 0
      (SkipList.heights_of_getD _ (by decide))
      (by decide)
      (by decide)
      (by decide)
      (by decide)
      (by decide)]
    rfl
  have a2 : (⟨[⟨[97], [49], ma + 1⟩], max 1 (ma + 1), 16⟩ : SkipList).Insert [98] [50] (mb + 1) = (true, (⟨[⟨[97], [49], ma + 1⟩, ⟨[98], [50], mb + 1⟩], max (max 1 (ma + 1)) (mb + 1), 16⟩ : SkipList)) := by
    rw [SkipList.Insert_fresh _ [98] [50] (mb + 1) 1
      (SkipList.heights_of_getD _ (by
      intro j hj
      simp only [List.length_cons, List.length_nil] at hj
      interval_cases j <;> simp only [List.getD_cons_zero, List.getD_cons_succ] <;> omega))
      (by dsimp only; omega)
      (by simp only [List.length_cons, List.length_nil]; omega)
      (by
      intro j hj
      interval_cases j <;>
        simp only [SkipList.keyAtIdx, List.getD_cons_zero, List.getD_cons_succ] <;> decide)
      (by
      intro j hj hcj
      simp only [List.length_cons, List.length_nil] at hj
      omega)
      (by
      intro hx
      simp only [List.length_cons, List.length_nil] at hx
      omega)]
    rfl
  have a3 : (⟨[⟨[97], [49], ma + 1⟩, ⟨[98], [50], mb + 1⟩], max (max 1 (ma + 1)) (mb + 1), 16⟩ : SkipList).Insert [99] [51] (mc + 1) = (true, (⟨[⟨[97], [49], ma + 1⟩, ⟨[98], [50], mb + 1⟩, ⟨[99], [51], mc + 1⟩], max (max (max 1 (ma + 1)) (mb + 1)) (mc + 1), 16⟩ : SkipList)) := by
    rw [SkipList.Insert_fresh _ [99] [51] (mc + 1) 2
      (SkipList.heights_of_getD _ (by
      intro j hj
      simp only [List.length_cons, List.length_nil] at hj
      interval_cases j <;> simp only [List.getD_cons_zero, List.getD_cons_succ] <;> omega))
      (by dsimp only; omega)
      (by simp only [List.length_cons, List.length_nil]; omega)
      (by
      intro j hj
      interval_cases j <;>
        simp only [SkipList.keyAtIdx, List.getD_cons_zero, List.getD_cons_succ] <;> decide)
      (by
      intro j hj hcj
      simp only [List.length_cons, List.length_nil] at hj
      omega)
      (by
      intro hx
      simp only [List.length_cons, List.length_nil] at hx
      omega)]
    rfl
  have d1 : (⟨[⟨[97], [49], ma + 1⟩, ⟨[98], [50], mb + 1⟩, ⟨[99], [51], mc + 1⟩], max (max (max 1 (ma + 1)) (mb + 1)) (mc + 1), 16⟩ : SkipList).Erase [98] = (true, (⟨[⟨[97], [49], ma + 1⟩, ⟨[99], [51], mc + 1⟩], SkipList.shrinkLevel [⟨[97], [49], ma + 1⟩, ⟨[99], [51], mc + 1⟩] (max (max (max 1 (ma + 1)) (mb + 1)) (mc + 1)), 16⟩ : SkipList)) := by
    rw [SkipList.Erase_hit _ [98] 1
      (SkipList.heights_of_getD _ (by
      intro j hj
      simp only [List.length_cons, List.length_nil] at hj
      interval_cases j <;> simp only [List.getD_cons_zero, List.getD_cons_succ] <;> omega))
      (by dsimp only; omega)
      (by simp only [List.length_cons, List.length_nil]; omega)
      (by
      intro j hj
      interval_cases j <;>
        simp only [SkipList.keyAtIdx, List.getD_cons_zero, List.getD_cons_succ] <;> decide)
      (by
      intro j hj hcj
      simp only [List.length_cons, List.length_nil] at hj
      interval_cases j <;>
        first
          | omega
          | (simp only [SkipList.keyAtIdx, List.getD_cons_zero, List.getD_cons_succ]
             decide))
      (by simp [SkipList.keyAtIdx])]
    rfl
  have d2 : (⟨[⟨[97], [49], ma + 1⟩, ⟨[99], [51], mc + 1⟩], SkipList.shrinkLevel [⟨[97], [49], ma + 1⟩, ⟨[99], [51], mc + 1⟩] (max (max (max 1 (ma + 1)) (mb + 1)) (mc + 1)), 16⟩ : SkipList).Erase [98] = (false, (⟨[⟨[97], [49], ma + 1⟩, ⟨[99], [51], mc + 1⟩], SkipList.shrinkLevel [⟨[97], [49], ma + 1⟩, ⟨[99], [51], mc + 1⟩] (max (max (max 1 (ma + 1)) (mb + 1)) (mc + 1)), 16⟩ : SkipList)) := by
    rw [SkipList.Erase_miss _ [98] 1
      (SkipList.heights_of_getD _ (by
      intro j hj
      simp only [List.length_cons, List.length_nil] at hj
      interval_cases j <;> simp only [List.getD_cons_zero, List.getD_cons_succ] <;> omega))
      (by dsimp only; exact SkipList.shrinkLevel_ge_one _ _ (by omega))
      (by simp only [List.length_cons, List.length_nil]; omega)
      (by
      intro j hj
      interval_cases j <;>
        simp only [SkipList.keyAtIdx, List.getD_cons_zero, List.getD_cons_succ] <;> decide)
      (by
      intro j hj hcj
      simp only [List.length_cons, List.length_nil] at hj
      interval_cases j <;>
        first
          | omega
          | (simp only [SkipList.keyAtIdx, List.getD_cons_zero, List.getD_cons_succ]
             decide))
      (by
      intro hx
      simp only [SkipList.keyAtIdx, List.getD_cons_zero, List.getD_cons_succ]
      decide)]
  rw [e1]
  dsimp only
  rw [e2]
  dsimp only
  rw [e3]
  dsimp only
  rw [e4]
  dsimp only
  rw [e5]
  dsimp only
  rw [e6]
  dsimp only
  rw [p1]
  dsimp only
  rw [p2]
  dsimp only
  rw [a1]
  dsimp only
  rw [a2]
  dsimp only
  rw [a3]
  dsimp only
  rw [eb6]
  dsimp only
  rw [eb6]
  dsimp only
  rw [d1]
  dsimp only
  rw [d2]
  dsimp only
  rw [g]
  exact ⟨rfl, ⟨rfl, rfl, rfl, rfl⟩, ⟨rfl, rfl⟩, ⟨rfl, rfl⟩⟩

/-- Counterexample to C9 as stated: in scenario S7 the key `"b"` is never
inserted (the six inserted keys are the full words, `"bravo"` is not
`"b"`), so already the FIRST `erase("b")` returns `false` — the claim
says it returns `true`.  Computed with every `randomLevel` outcome equal
to 1; the amended theorem shows the same for all outcomes. -/
theorem c9_skip_list_counterexample :
    ((((((((SkipList.init.Insert kdelta [52] 1).2.Insert kalpha [49] 1).2.Insert
        kcharlie [51] 1).2.Insert kbravo [50] 1).2.Insert kecho [53] 1).2.Insert
        kfoxtrot [54] 1).2).Erase [98]).1 = false ∧
    false ≠ true := by
  constructor
  · decide
  · decide

/-- Witness for C9's amended theorem: with every `randomLevel` outcome
equal to 1, iteration over the six inserted words is sorted. -/
theorem c9_skip_list_ordered_ops_witness :
    SkipList.toKeys
        ((((((SkipList.init.Insert kdelta [52] (0 + 1)).2.Insert kalpha [49]
          (0 + 1)).2.Insert kcharlie [51] (0 + 1)).2.Insert kbravo [50]
          (0 + 1)).2.Insert kecho [53] (0 + 1)).2.Insert kfoxtrot [54]
          (0 + 1)).2 =
      [kalpha, kbravo, kcharlie, kdelta, kecho, kfoxtrot] :=
  (c9_skip_list_ordered_ops 0 0 0 0 0 0 0 0 0 0 0 (by decide)).1

end VrootKV
